import Mathlib

/-!
Verification development for the IR transformation core of the XLS hardware
synthesis toolchain: the IR node graph, the topological scheduler, the
function-inlining pass, the scheduling wrapper pass, the crasher sample
codec and the type-mismatch formatter.
-/

namespace XlsIR

/-- Operation kind of an IR node (closed set, `xls/ir/nodes.h`); only the
kinds the excerpted passes distinguish are separated, all remaining kinds
are collapsed into `other`. -/
inductive Op where
  | param : Op
  | literal (value : Nat) : Op
  | unOp (tag : Nat) : Op
  | binOp (tag : Nat) : Op
  | invoke (callee : String) : Op
  | cover (label : String) : Op
  | assertNode (message : String) (label : Option String) : Op
  | other (tag : Nat) : Op
deriving DecidableEq, Repr

/-- An IR node: stable id, operation kind, ordered operand references (ids of
nodes in the same FunctionBase, duplicates allowed), optional assigned name,
optional source location. -/
structure Node where
  id : Nat
  op : Op
  operands : List Nat
  name : Option String
  loc : Option Nat
deriving DecidableEq, Repr

/-- A FunctionBase: name, foreign-function metadata flag
(`ForeignFunctionData().has_value()`), parameter ids (a distinguished prefix
of the nodes), insertion-ordered node list, and the return value id. -/
structure Fn where
  name : String
  isForeign : Bool
  paramIds : List Nat
  nodes : List Node
  retId : Nat
deriving DecidableEq, Repr

/-- Nodes of `nodes` that use node id `v` as an operand. -/
def usersOf (nodes : List Node) (v : Nat) : List Node :=
  nodes.filter (fun u => u.operands.contains v)

/-- True when every user of node id `v` is in the emitted id list. -/
def allUsersEmitted (nodes : List Node) (emittedIds : List Nat) (v : Nat) : Bool :=
  (usersOf nodes v).all (fun u => emittedIds.contains u.id)

/-- Look a node up by id. -/
def findNode (nodes : List Node) (i : Nat) : Option Node :=
  nodes.find? (fun n => n.id = i)

/-- Modelled from the spec: the worklist step of the scheduler in
`xls/ir/topo_sort.h` (its .cc body is outside the excerpt).  After a node is
emitted into the reverse order, its operands are visited left to right and
each operand whose users have now all been emitted is pushed onto the ready
stack (skipping operands already emitted or already pending). -/
def pushReadyOperands (nodes : List Node) (emittedIds : List Nat)
    (stack : List Node) (ops : List Nat) : List Node :=
  ops.foldl (fun st o =>
    match findNode nodes o with
    | none => st
    | some onode =>
      if emittedIds.contains o || st.any (fun s => s.id = o) then st
      else if allUsersEmitted nodes emittedIds o then onode :: st
      else st) stack

/-- Modelled from the spec: the main loop of the scheduler.  Pops the top of
the ready stack, emits it, and pushes the operands that became ready.  The
fuel argument makes the recursion structural; one node is emitted per
iteration, so fuel `nodes.length` suffices. -/
def topoLoop (nodes : List Node) : Nat → List Node → List Node → List Node
  | 0, _, emitted => emitted
  | _ + 1, [], emitted => emitted
  | fuel + 1, p :: stack, emitted =>
    let emitted' := emitted ++ [p]
    let emittedIds := emitted'.map Node.id
    topoLoop nodes fuel (pushReadyOperands nodes emittedIds stack p.operands) emitted'

/-- Modelled from the spec: `ReverseTopoSort` of `xls/ir/topo_sort.h` (the
implementation file is outside the excerpt).  A dependency-driven reverse
traversal: the ready stack is seeded with the user-free nodes pushed in
FunctionBase insertion order, and emitting a node makes its operands
eligible.  The orderings produced match every expectation pinned by
`xls/ir/node_iterator_test.cc`. -/
def reverseTopoSort (f : Fn) : List Node :=
  let seed := (f.nodes.filter (fun n => (usersOf f.nodes n.id).isEmpty)).reverse
  topoLoop f.nodes f.nodes.length seed []

/-- Modelled from the spec: `TopoSort` yields the reverse of
`ReverseTopoSort`, so dependency ordering (operand before user) is
satisfied. -/
def topoSort (f : Fn) : List Node :=
  (reverseTopoSort f).reverse

/-- Modelled from the spec: the classical reverse-post-order traversal the
spec contrasts the scheduler with (section 4.B): a depth-first walk over
operand edges from the return value, emitting each node after its operands,
which reaches the later-listed operand subtrees first. -/
def rpoVisit (nodes : List Node) : Nat → Nat → List Node × List Nat → List Node × List Nat
  | 0, _, acc => acc
  | fuel + 1, i, acc =>
    if acc.2.contains i then acc
    else
      match findNode nodes i with
      | none => acc
      | some n =>
        let acc1 := n.operands.reverse.foldl
          (fun a o => rpoVisit nodes fuel o a) (acc.1, acc.2 ++ [i])
        (acc1.1 ++ [n], acc1.2)

/-- Modelled from the spec: the classical RPO order over a function, rooted
at the return value. -/
def rpoOrder (f : Fn) : List Node :=
  (rpoVisit f.nodes (f.nodes.length + 1) f.retId ([], [])).1

/-- Nodes of `nodes` that are ready: not yet emitted and with every operand
already emitted. -/
def readyNodes (nodes : List Node) (done : List Nat) : List Node :=
  nodes.filter (fun n => !done.contains n.id && n.operands.all (fun o => done.contains o))

/-- Modelled from the spec: the tie-break rule as the spec words it
(section 4.B): repeatedly emit, among all simultaneously-ready nodes, the
one added to the FunctionBase first. -/
def tiebreakLoop (nodes : List Node) : Nat → List Node → List Node
  | 0, acc => acc
  | fuel + 1, acc =>
    match readyNodes nodes (acc.map Node.id) with
    | [] => acc
    | n :: _ => tiebreakLoop nodes fuel (acc ++ [n])

/-- Modelled from the spec: a forward dependency-driven traversal that emits
simultaneously-ready nodes in FunctionBase insertion order, as the spec
describes the tie-break. -/
def topoSortInsertionTiebreak (f : Fn) : List Node :=
  tiebreakLoop f.nodes f.nodes.length []

/-- Node ids are unique within a FunctionBase. -/
def IdsNodup (f : Fn) : Prop :=
  (f.nodes.map Node.id).Nodup

/-- Every operand reference resolves to a node of the same FunctionBase. -/
def OperandsClosed (f : Fn) : Prop :=
  ∀ n ∈ f.nodes, ∀ o ∈ n.operands, ∃ m ∈ f.nodes, m.id = o

/-- The operand graph is a DAG: some rank function strictly decreases from a
node to each of its operands. -/
def IsDag (f : Fn) : Prop :=
  ∃ rank : Nat → Nat, ∀ n ∈ f.nodes, ∀ o ∈ n.operands, rank o < rank n.id

/-- The FunctionBase invariants the scheduler presumes. -/
def WellFormed (f : Fn) : Prop :=
  IdsNodup f ∧ OperandsClosed f ∧ IsDag f

/-- The ladder function of `NodeIteratorTest.RpoVsTopo`:
`fn computation(a) { t = neg(a); b = neg(a); c = neg(b); ret d = add(c, t) }`. -/
def ladderA : Node := { id := 1, op := .param, operands := [], name := some "a", loc := none }

/-- Ladder node `t = neg(a)`. -/
def ladderT : Node := { id := 2, op := .unOp 0, operands := [1], name := some "t", loc := none }

/-- Ladder node `b = neg(a)`. -/
def ladderB : Node := { id := 3, op := .unOp 0, operands := [1], name := some "b", loc := none }

/-- Ladder node `c = neg(b)`. -/
def ladderC : Node := { id := 4, op := .unOp 0, operands := [3], name := some "c", loc := none }

/-- Ladder node `d = add(c, t)`. -/
def ladderD : Node := { id := 5, op := .binOp 0, operands := [4, 2], name := some "d", loc := none }

/-- The ladder FunctionBase (nodes listed in insertion order: params first,
then the body in program order). -/
def ladderFn : Fn :=
  { name := "computation", isForeign := false, paramIds := [1],
    nodes := [ladderA, ladderT, ladderB, ladderC, ladderD], retId := 5 }

/-- Invariant carried by the scheduler's main loop: emitted nodes are distinct
nodes of the function, stack entries are distinct pending nodes all of whose
users are emitted, every unemitted node is pending or blocked by an unemitted
user, and every emitted node was emitted after all of its users. -/
structure TopoInv (nodes stack emitted : List Node) : Prop where
  emitted_sub : ∀ x ∈ emitted, x ∈ nodes
  emitted_nodup : (emitted.map Node.id).Nodup
  stack_sub : ∀ x ∈ stack, x ∈ nodes
  stack_nodup : (stack.map Node.id).Nodup
  disj : ∀ x ∈ stack, x.id ∉ emitted.map Node.id
  ready : ∀ x ∈ stack, ∀ u ∈ nodes, x.id ∈ u.operands → u.id ∈ emitted.map Node.id
  complete : ∀ n ∈ nodes, n.id ∉ emitted.map Node.id →
    (∃ s ∈ stack, s.id = n.id) ∨ ∃ u ∈ nodes, n.id ∈ u.operands ∧ u.id ∉ emitted.map Node.id
  ordered : ∀ i, (hi : i < emitted.length) → ∀ u ∈ nodes,
    (emitted[i]).id ∈ u.operands → u ∈ emitted.take i

/-- Tag used by the op-derived default node name. -/
def opTag : Op → String
  | .param => "param"
  | .literal _ => "literal"
  | .unOp _ => "unop"
  | .binOp _ => "binop"
  | .invoke _ => "invoke"
  | .cover _ => "cover"
  | .assertNode _ _ => "assert"
  | .other _ => "other"

/-- Node::GetName(): the assigned name when present, otherwise the op-derived
default name. -/
def getNameStr (n : Node) : String :=
  match n.name with
  | some s => s
  | none => opTag n.op ++ "." ++ Nat.repr n.id

/-- absl::StartsWith, modelled over the character list so that concrete
instances reduce by evaluation. -/
def strPrefixOf (p s : String) : Bool := p.data.isPrefixOf s.data

/-- std::string::substr(n): the suffix from character position n. -/
def strDropN (s : String) (n : Nat) : String := String.mk (s.data.drop n)

/-- One iteration of the parameter scan of GetInlinedNodeName
(inlining_pass.cc): a parameter matches when the call-site operand has an
assigned name, the parameter name is a prefix of the node name, and it is
strictly longer than the best match so far; on a match the derived name is
the operand name followed by the node-name suffix after the parameter
name. -/
def ginnStep (nodeName : String) (acc : Option (String × String)) (pr : Node × Node) :
    Option (String × String) :=
  match pr.2.name with
  | none => acc
  | some operandName =>
    if strPrefixOf (getNameStr pr.1) nodeName
        && (match acc with
            | none => true
            | some bp => decide (bp.1.length < (getNameStr pr.1).length))
    then some (getNameStr pr.1, operandName ++ strDropN nodeName (getNameStr pr.1).length)
    else acc

/-- GetInlinedNodeName of inlining_pass.cc, over the list of
(parameter, call-site operand) pairs of the invoke. -/
def getInlinedNodeName (node : Node) (pairs : List (Node × Node)) : Option String :=
  match node.name with
  | none => none
  | some nodeName => (pairs.foldl (ginnStep nodeName) none).map (fun bp => bp.2)

/-- One iteration of the longest-prefix search over parameters as claim C3
words it (no condition on the argument name during the search). -/
def lppStep (nodeName : String) (acc : Option (Node × Node)) (pr : Node × Node) :
    Option (Node × Node) :=
  if strPrefixOf (getNameStr pr.1) nodeName
      && (match acc with
          | none => true
          | some b => decide ((getNameStr b.1).length < (getNameStr pr.1).length))
  then some pr else acc

/-- The parameter whose name is the longest prefix of the node name. -/
def longestPrefixParam (nodeName : String) (pairs : List (Node × Node)) :
    Option (Node × Node) :=
  pairs.foldl (lppStep nodeName) none

/-- Claim C3 as written: pick the parameter with the longest-prefix name over
all parameters, then require that its call-site argument carries an assigned
name. -/
def claimC3Rename (node : Node) (pairs : List (Node × Node)) : Option String :=
  match node.name with
  | none => none
  | some nodeName =>
    match longestPrefixParam nodeName pairs with
    | none => none
    | some pr =>
      match pr.2.name with
      | none => none
      | some a => some (a ++ strDropN nodeName (getNameStr pr.1).length)

/-- Claim C3 amended: the longest-prefix search ranges only over the
parameters whose call-site argument has an assigned name. -/
def claimC3RenameAmended (node : Node) (pairs : List (Node × Node)) : Option String :=
  match node.name with
  | none => none
  | some nodeName =>
    match longestPrefixParam nodeName (pairs.filter (fun pr => pr.2.name.isSome)) with
    | none => none
    | some pr =>
      match pr.2.name with
      | none => none
      | some a => some (a ++ strDropN nodeName (getNameStr pr.1).length)

/-- Counterexample data for claim C3: the inlined node is named
"foo_bar_42"; parameter "foo" has a named argument "a" while the
longer-prefix parameter "foo_bar" has an unnamed argument. -/
def cexNodeN : Node :=
  { id := 10, op := .unOp 0, operands := [], name := some "foo_bar_42", loc := none }

/-- Counterexample parameter "foo". -/
def cexParamFoo : Node :=
  { id := 11, op := .param, operands := [], name := some "foo", loc := none }

/-- Counterexample parameter "foo_bar". -/
def cexParamFooBar : Node :=
  { id := 12, op := .param, operands := [], name := some "foo_bar", loc := none }

/-- Counterexample argument named "a" (passed for "foo"). -/
def cexArgNamed : Node :=
  { id := 13, op := .literal 0, operands := [], name := some "a", loc := none }

/-- Counterexample unnamed argument (passed for "foo_bar"). -/
def cexArgUnnamed : Node :=
  { id := 14, op := .literal 0, operands := [], name := none, loc := none }

/-- Counterexample (parameter, argument) pairs of the call site. -/
def cexPairs : List (Node × Node) :=
  [(cexParamFoo, cexArgNamed), (cexParamFooBar, cexArgUnnamed)]

/-- A scheduling unit: a package (abstracted to its node-id set) paired with
an optional per-function schedule mapping node ids to pipeline stages;
`none` means the schedule has been discarded and must be recomputed. -/
structure SchedulingUnit where
  pkgNodes : List Nat
  schedule : Option (List (Nat × Nat))
deriving DecidableEq, Repr

/-- Error raised by the scheduling wrapper: an invariant violation naming a
representative node added by the wrapped pass. -/
inductive SchedErr where
  | invariantViolation (nodeId : Nat) : SchedErr
deriving DecidableEq, Repr

/-- Modelled from the spec: SchedulingWrapperPass::RunInternal (the .cc body
is outside the excerpt; the contract is the header comment at
scheduling_wrapper_pass.h lines 27-35).  The wrapped pass runs on the
underlying package; nodes it removed are removed from the schedule; if it
added nodes, the wrapper fails with an invariant violation naming an added
node when reschedule_new_nodes is false (the constructor default), and
discards the schedule entirely when it is true.  The returned changed flag
is the wrapped pass's. -/
def schedulingWrapperRun (wrapped : List Nat → List Nat × Bool)
    (rescheduleNewNodes : Bool) (u : SchedulingUnit) :
    Except SchedErr (SchedulingUnit × Bool) :=
  let before := u.pkgNodes
  let after := (wrapped before).1
  let changed := (wrapped before).2
  let added := after.filter (fun n => !before.contains n)
  let removed := before.filter (fun n => !after.contains n)
  match added with
  | [] =>
    let s2 := u.schedule.map (fun s => s.filter (fun pr => !removed.contains pr.1))
    Except.ok ({ pkgNodes := after, schedule := s2 }, changed)
  | a :: _ =>
    if rescheduleNewNodes then
      Except.ok ({ pkgNodes := after, schedule := none }, changed)
    else
      Except.error (SchedErr.invariantViolation a)

/-- A package: its functions and the next free node id (ids are assigned
package-wide by Package::next_node_id). -/
structure Pkg where
  fns : List Fn
  nextId : Nat
deriving DecidableEq, Repr

/-- Package::GetFunction lookup by name. -/
def findFn (p : Pkg) (name : String) : Option Fn :=
  p.fns.find? (fun f => f.name = name)

/-- Store an updated function back into the package (in-place mutation of
the FunctionBase in the C++). -/
def setFn (p : Pkg) (f : Fn) : Pkg :=
  { p with fns := p.fns.map (fun g => if g.name = f.name then f else g) }

/-- IsInlineable of inlining_pass.cc: an invoke is inlineable exactly when
its target has no foreign-function metadata. -/
def isInlineable (p : Pkg) (callee : String) : Bool :=
  match findFn p callee with
  | some g => !g.isForeign
  | none => false

/-- A node is an inlineable invoke. -/
def isInlineableNode (p : Pkg) (n : Node) : Bool :=
  match n.op with
  | Op.invoke c => isInlineable p c
  | _ => false

/-- Errors surfaced by the modelled pass: the XLS_RET_CHECK of InlineInvoke,
and failed lookups (out-of-model states the C++ cannot reach). -/
inductive InlineErr where
  | retCheckNonFfiInvoke (nodeId : Nat) : InlineErr
  | missing (id : Nat) : InlineErr
deriving DecidableEq, Repr

/-- Association-list lookup for the invoked-node-to-replacement map (keys
and values are node ids). -/
def alook (m : List (Nat × Nat)) (k : Nat) : Option Nat :=
  (m.find? (fun pr => pr.1 = k)).map (fun pr => pr.2)

/-- Map update at an existing key (first occurrence; keys are unique). -/
def aset : List (Nat × Nat) → Nat → Nat → List (Nat × Nat)
  | [], _, _ => []
  | pr :: rest, k, v => if pr.1 = k then (k, v) :: rest else pr :: aset rest k v

/-- Append a node to a FunctionBase. -/
def addNode (f : Fn) (n : Node) : Fn :=
  { f with nodes := f.nodes ++ [n] }

/-- FunctionBase::RemoveNode. -/
def removeNode (f : Fn) (nid : Nat) : Fn :=
  { f with nodes := f.nodes.filter (fun n => n.id ≠ nid) }

/-- Node::SetName / ClearName on the node with the given id. -/
def setName (f : Fn) (nid : Nat) (nm : Option String) : Fn :=
  { f with nodes := f.nodes.map (fun n => if n.id = nid then { n with name := nm } else n) }

/-- Modelled from the spec: Node::ReplaceUsesWith (node.cc is outside the
excerpt).  Every operand reference to the old node is redirected to the
replacement, the return value is redirected if it was the old node, and the
old node's assigned name moves to the replacement when the replacement has
none. -/
def replaceUsesWith (f : Fn) (oldN : Node) (newId : Nat) : Fn :=
  { f with
    nodes := f.nodes.map (fun n =>
      let n1 := { n with operands := n.operands.map (fun o => if o = oldN.id then newId else o) }
      if n1.id = newId && oldN.name.isSome && n1.name.isNone
      then { n1 with name := oldN.name } else n1),
    retId := if f.retId = oldN.id then newId else f.retId }

/-- GetPrefixedLabel of inlining_pass.cc: caller name, inline count, callee
name and the original label joined with underscores. -/
def getPrefixedLabel (callerName : String) (inlineCount : Nat)
    (calleeName label : String) : String :=
  callerName ++ "_" ++ Nat.repr inlineCount ++ "_" ++ calleeName ++ "_" ++ label

/-- The clone-phase state of InlineInvoke: the caller being extended, the
invoked-node-to-replacement map, and the package's next free id. -/
structure CloneSt where
  f : Fn
  m : List (Nat × Nat)
  nid : Nat
deriving DecidableEq, Repr

/-- One iteration of the clone loop of InlineInvoke (the TopoSort loop):
skip nodes already mapped (the parameters), fail on inlineable invokes (the
XLS_RET_CHECK), otherwise clone with mapped operands, defaulting an empty
source location to the invoke's. -/
def cloneStep (p : Pkg) (inv : Node) (st : CloneSt) (node : Node) :
    Except InlineErr CloneSt :=
  if (alook st.m node.id).isSome then Except.ok st
  else if isInlineableNode p node then
    Except.error (InlineErr.retCheckNonFfiInvoke node.id)
  else do
    let operands2 ← node.operands.mapM (fun o =>
      match alook st.m o with
      | some v => Except.ok v
      | none => Except.error (InlineErr.missing o))
    let newNode : Node :=
      { id := st.nid, op := node.op, operands := operands2, name := node.name,
        loc := match node.loc with | none => inv.loc | some l => some l }
    Except.ok ⟨addNode st.f newNode, st.m ++ [(node.id, st.nid)], st.nid + 1⟩

/-- Relabelling rebuild used by the rename loop: add the new node, redirect
uses of the old clone to it, remove the old clone. -/
def rebuild (f1 : Fn) (newNode clone : Node) (cloneId nid : Nat) : Fn :=
  removeNode (replaceUsesWith (addNode f1 newNode) clone nid) cloneId

/-- Relabelling tail of one rename-loop iteration, applied to the caller
after the GetInlinedNodeName renaming: cover nodes and labelled assert
nodes are rebuilt under the prefixed label carrying the old clone's name,
replacing and removing the old clone; every other kind is left as is. -/
def renameFinish (invoked : Fn) (inlineCount : Nat) (st : CloneSt) (cloneId : Nat)
    (node : Node) (f1 : Fn) : Except InlineErr CloneSt :=
  match node.op with
  | Op.cover label =>
    match findNode f1.nodes cloneId with
    | none => Except.error (InlineErr.missing cloneId)
    | some clone =>
      let newLabel := getPrefixedLabel st.f.name inlineCount invoked.name label
      let newNode : Node :=
        { id := st.nid, op := Op.cover newLabel, operands := clone.operands,
          name := some (getNameStr clone), loc := clone.loc }
      Except.ok ⟨rebuild f1 newNode clone cloneId st.nid, aset st.m node.id st.nid, st.nid + 1⟩
  | Op.assertNode message (some label) =>
    match findNode f1.nodes cloneId with
    | none => Except.error (InlineErr.missing cloneId)
    | some clone =>
      let newLabel := getPrefixedLabel st.f.name inlineCount invoked.name label
      let newNode : Node :=
        { id := st.nid, op := Op.assertNode message (some newLabel),
          operands := clone.operands, name := some (getNameStr clone), loc := clone.loc }
      Except.ok ⟨rebuild f1 newNode clone cloneId st.nid, aset st.m node.id st.nid, st.nid + 1⟩
  | _ => Except.ok ⟨f1, st.m, st.nid⟩

/-- One iteration of the rename loop of InlineInvoke: parameters are
skipped; the clone of the return value loses its name at a named call site
(so ReplaceUsesWith moves the invoke's name onto it) and is otherwise left
alone; other clones are renamed by GetInlinedNodeName when it derives a
name, and covers and labelled asserts are relabelled by renameFinish. -/
def renameStep (inv : Node) (invoked : Fn) (pairs : List (Node × Node))
    (inlineCount : Nat) (st : CloneSt) (node : Node) : Except InlineErr CloneSt :=
  if node.op = Op.param then Except.ok st
  else
    match alook st.m node.id with
    | none => Except.error (InlineErr.missing node.id)
    | some cloneId =>
      if node.id = invoked.retId && inv.name.isSome then
        Except.ok ⟨setName st.f cloneId none, st.m, st.nid⟩
      else
        renameFinish invoked inlineCount st cloneId node
          (match getInlinedNodeName node pairs with
            | some nm => setName st.f cloneId (some nm)
            | none => st.f)

/-- Unwrap an always-present lookup, surfacing an out-of-model error when it
is absent. -/
def getOk {α : Type} (o : Option α) (e : InlineErr) : Except InlineErr α :=
  match o with
  | some v => Except.ok v
  | none => Except.error e

/-- The invoke target of an invoke node. -/
def calleeOf (n : Node) (e : InlineErr) : Except InlineErr String :=
  match n.op with
  | Op.invoke c => Except.ok c
  | _ => Except.error e

/-- InlineInvoke of inlining_pass.cc on the live invoke node with id
`invId` inside the named caller: seed the replacement map with parameter to
call-site-operand entries, clone the invoked body in topological order,
rename and relabel the clones, then replace all uses of the invoke with the
replacement of the invoked return value and remove the invoke. -/
def inlineInvoke (p : Pkg) (callerName : String) (invId : Nat) (inlineCount : Nat) :
    Except InlineErr Pkg := do
  let caller ← getOk (findFn p callerName) (InlineErr.missing invId)
  let inv ← getOk (findNode caller.nodes invId) (InlineErr.missing invId)
  let calleeName ← calleeOf inv (InlineErr.missing invId)
  let invoked ← getOk (findFn p calleeName) (InlineErr.missing invId)
  let m0 := invoked.paramIds.zip inv.operands
  let st1 ← (topoSort invoked).foldlM (cloneStep p inv) ⟨caller, m0, p.nextId⟩
  let params ← invoked.paramIds.mapM (fun i => getOk (findNode invoked.nodes i) (InlineErr.missing i))
  let args ← inv.operands.mapM (fun i => getOk (findNode caller.nodes i) (InlineErr.missing i))
  let pairs : List (Node × Node) := params.zip args
  let st2 ← invoked.nodes.foldlM (renameStep inv invoked pairs inlineCount) st1
  let retRepl ← getOk (alook st2.m invoked.retId) (InlineErr.missing invoked.retId)
  let f3 := replaceUsesWith st2.f inv retRepl
  let f4 := removeNode f3 invId
  Except.ok { fns := (setFn p f4).fns, nextId := st2.nid }

/-- The RunInternal fold state: the package, the running inline count, the
changed flag, and the (ghost) list of inline counts used at the inlined
call sites, in processing order. -/
structure RunSt where
  p : Pkg
  cnt : Nat
  changed : Bool
  trace : List Nat
deriving DecidableEq, Repr

/-- One iteration of the per-function node loop of RunInternal: an
inlineable invoke from the snapshot is inlined at the current inline count,
which is then incremented; the trace records the count used. -/
def processNodeStep (callerName : String) (st : RunSt) (node : Node) :
    Except InlineErr RunSt :=
  match node.op with
  | Op.invoke c =>
    if isInlineable st.p c then do
      let p2 ← inlineInvoke st.p callerName node.id st.cnt
      Except.ok ⟨p2, st.cnt + 1, true, st.trace ++ [st.cnt]⟩
    else Except.ok st
  | _ => Except.ok st

/-- Process one function of the package: iterate over a snapshot of its
node list, inlining every inlineable invoke. -/
def processFn (st : RunSt) (fname : String) : Except InlineErr RunSt :=
  match findFn st.p fname with
  | none => Except.ok st
  | some f => f.nodes.foldlM (processNodeStep fname) st

/-- InliningPass::RunInternal with the ghost trace: process the functions
in the given order (FunctionsInPostOrder is outside the excerpt and is
modelled as the order argument), inlining every inlineable invoke of each. -/
def runInternalT (p : Pkg) (order : List String) : Except InlineErr RunSt :=
  order.foldlM processFn ⟨p, 0, false, []⟩

/-- InliningPass::RunInternal: the resulting package and changed flag. -/
def runInternal (p : Pkg) (order : List String) : Except InlineErr (Pkg × Bool) :=
  (runInternalT p order).map (fun st => (st.p, st.changed))

/-- Package well-formedness presumed by the pass: function names are unique,
node ids are unique per function, all ids and operand references are below
the package's next free id, and every parameter id denotes a param node. -/
def PkgWf (p : Pkg) : Prop :=
  (p.fns.map Fn.name).Nodup ∧
  ∀ f ∈ p.fns,
    (f.nodes.map Node.id).Nodup ∧
    (∀ n ∈ f.nodes, n.id < p.nextId ∧ ∀ o ∈ n.operands, o < p.nextId) ∧
    (∀ i ∈ f.paramIds, ∃ n ∈ f.nodes, n.id = i ∧ n.op = Op.param)

/-- The name-and-foreignness signature of a package, invariant under the
pass. -/
def fnSig (p : Pkg) : List (String × Bool) :=
  p.fns.map (fun f => (f.name, f.isForeign))

/-- Invariant of the clone loop of InlineInvoke: the caller grows by fresh
non-inlineable nodes, ids stay unique and below the running counter, and
replacement-map values are bounded and either fresh or parameter seeds. -/
structure CloneInv (p : Pkg) (caller : Fn) (m0 : List (Nat × Nat)) (nid0 : Nat)
    (st : CloneSt) : Prop where
  fname : st.f.name = caller.name
  fforeign : st.f.isForeign = caller.isForeign
  fparams : st.f.paramIds = caller.paramIds
  nle : nid0 ≤ st.nid
  shape : ∃ news, st.f.nodes = caller.nodes ++ news ∧
    ∀ n ∈ news, nid0 ≤ n.id ∧ isInlineableNode p n = false
  bound : ∀ n ∈ st.f.nodes, n.id < st.nid
  obound : ∀ n ∈ st.f.nodes, ∀ o ∈ n.operands, o < st.nid
  nodup : (st.f.nodes.map Node.id).Nodup
  mext : ∃ mt, st.m = m0 ++ mt
  mval : ∀ k v, alook st.m k = some v → v < st.nid ∧ (nid0 ≤ v ∨ (k, v) ∈ m0)

/-- Node-level similarity up to names: same ids, ops and operands. -/
def NodesSim (f g : Fn) : Prop :=
  (∀ n2 ∈ g.nodes, ∃ n ∈ f.nodes, n2.id = n.id ∧ n2.op = n.op ∧ n2.operands = n.operands) ∧
  (∀ n ∈ f.nodes, ∃ n2 ∈ g.nodes, n2.id = n.id ∧ n2.op = n.op ∧ n2.operands = n.operands) ∧
  g.nodes.map Node.id = f.nodes.map Node.id ∧
  g.name = f.name ∧ g.isForeign = f.isForeign ∧ g.paramIds = f.paramIds

/-- Invariant of the rename loop, relative to the original caller, the
parameter seed map and the pre-inline next id. -/
structure RenameInv (p : Pkg) (caller : Fn) (m0 : List (Nat × Nat)) (nid0 : Nat)
    (st : CloneSt) : Prop where
  fname : st.f.name = caller.name
  fforeign : st.f.isForeign = caller.isForeign
  fparams : st.f.paramIds = caller.paramIds
  nle : nid0 ≤ st.nid
  fwd : ∀ n ∈ caller.nodes, ∃ n2 ∈ st.f.nodes, n2.id = n.id ∧ n2.op = n.op
  back : ∀ n2 ∈ st.f.nodes, n2.id < nid0 → ∃ n ∈ caller.nodes, n.id = n2.id ∧ n.op = n2.op
  clean : ∀ n2 ∈ st.f.nodes, nid0 ≤ n2.id → isInlineableNode p n2 = false
  bound : ∀ n ∈ st.f.nodes, n.id < st.nid
  obound : ∀ n ∈ st.f.nodes, ∀ o ∈ n.operands, o < st.nid
  nodup : (st.f.nodes.map Node.id).Nodup
  mval : ∀ k v, alook st.m k = some v → v < st.nid ∧ (nid0 ≤ v ∨ (k, v) ∈ m0)

/-- Composable effect of one pass step on a package: the signature is
preserved, ids only grow, non-inlineable nodes survive with their id and
op, and surviving old ids trace back to old nodes with the same op. -/
def StepRel (p p2 : Pkg) : Prop :=
  fnSig p2 = fnSig p ∧ p.nextId ≤ p2.nextId ∧
  (∀ f ∈ p.fns, ∃ f2 ∈ p2.fns, f2.name = f.name ∧
    ∀ n ∈ f.nodes, isInlineableNode p n = false →
      ∃ n2 ∈ f2.nodes, n2.id = n.id ∧ n2.op = n.op) ∧
  (∀ f2 ∈ p2.fns, ∃ f ∈ p.fns, f.name = f2.name ∧
    ∀ n2 ∈ f2.nodes, n2.id < p.nextId → ∃ n ∈ f.nodes, n.id = n2.id ∧ n.op = n2.op)

/-- No inlineable invokes remain in any function with the given name. -/
def Clean (p : Pkg) (nm : String) : Prop :=
  ∀ f ∈ p.fns, f.name = nm → ∀ n ∈ f.nodes, isInlineableNode p n = false

/-- Fixture callee g: one parameter and a negation of it (not foreign). -/
def ipGFn : Fn :=
  { name := "g", isForeign := false, paramIds := [1],
    nodes := [{ id := 1, op := Op.param, operands := [], name := none, loc := none },
              { id := 2, op := Op.unOp 0, operands := [1], name := none, loc := none }],
    retId := 2 }

/-- Fixture callee h: like g but carrying foreign-function metadata. -/
def ipHFn : Fn :=
  { name := "h", isForeign := true, paramIds := [3],
    nodes := [{ id := 3, op := Op.param, operands := [], name := none, loc := none },
              { id := 4, op := Op.unOp 0, operands := [3], name := none, loc := none }],
    retId := 4 }

/-- Fixture caller f: a literal, an inlineable invoke of g on it, and a
foreign invoke of h consuming the first invoke's result. -/
def ipFFn : Fn :=
  { name := "f", isForeign := false, paramIds := [],
    nodes := [{ id := 5, op := Op.literal 1, operands := [], name := none, loc := none },
              { id := 6, op := Op.invoke "g", operands := [5], name := none, loc := none },
              { id := 7, op := Op.invoke "h", operands := [6], name := none, loc := none }],
    retId := 7 }

/-- Fixture package for the inlining pass. -/
def ipPkg : Pkg := { fns := [ipGFn, ipHFn, ipFFn], nextId := 8 }

/-- Call-graph post order of the fixture package. -/
def ipOrder : List String := ["g", "h", "f"]

/-- The fixture package after the pass: the invoke of g is replaced by the
clone (id 8), and the foreign invoke of h now consumes the clone. -/
def ipPkgOut : Pkg :=
  { fns := [ipGFn, ipHFn,
      { name := "f", isForeign := false, paramIds := [],
        nodes := [{ id := 5, op := Op.literal 1, operands := [], name := none, loc := none },
                  { id := 7, op := Op.invoke "h", operands := [8], name := none, loc := none },
                  { id := 8, op := Op.unOp 0, operands := [5], name := none, loc := none }],
        retId := 7 }],
    nextId := 9 }

/-- The relabelled clone of a cover or labelled assert stays in the caller:
its map entry is unique to its key, and the node with that id carries the
target op. -/
def Protected (target : Op) (key nid0 : Nat) (st : CloneSt) : Prop :=
  ∃ cid, alook st.m key = some cid ∧ nid0 ≤ cid ∧ cid < st.nid ∧
    (∀ k v, alook st.m k = some v → v = cid → k = key) ∧
    ∃ n2 ∈ st.f.nodes, n2.id = cid ∧ n2.op = target

/-- Fixture callee with a cover that is not its return value. -/
def lcGFn : Fn :=
  { name := "g3", isForeign := false, paramIds := [1],
    nodes := [{ id := 1, op := Op.param, operands := [], name := some "t", loc := none },
              { id := 2, op := Op.cover "lbl", operands := [1], name := none, loc := none },
              { id := 3, op := Op.unOp 0, operands := [1], name := none, loc := none }],
    retId := 3 }

/-- Fixture caller invoking the cover-carrying callee. -/
def lcFFn : Fn :=
  { name := "f3", isForeign := false, paramIds := [],
    nodes := [{ id := 4, op := Op.literal 1, operands := [], name := some "tok", loc := none },
              { id := 5, op := Op.invoke "g3", operands := [4], name := none, loc := none }],
    retId := 5 }

/-- Fixture package for the label contract. -/
def lcPkg : Pkg := { fns := [lcGFn, lcFFn], nextId := 6 }

/-- The cover node of the fixture callee. -/
def lcCover : Node := { id := 2, op := Op.cover "lbl", operands := [1], name := none, loc := none }

/-- Fixture callee whose return value is a cover node. -/
def lxGFn : Fn :=
  { name := "g2", isForeign := false, paramIds := [1],
    nodes := [{ id := 1, op := Op.param, operands := [], name := some "t", loc := none },
              { id := 2, op := Op.cover "lbl", operands := [1], name := none, loc := none }],
    retId := 2 }

/-- Fixture caller with an assigned name on the invoke of the cover-returning
callee. -/
def lxFFn : Fn :=
  { name := "f2", isForeign := false, paramIds := [],
    nodes := [{ id := 3, op := Op.literal 1, operands := [], name := some "tok", loc := none },
              { id := 4, op := Op.invoke "g2", operands := [3], name := some "x", loc := none }],
    retId := 4 }

/-- Fixture package for the label counterexample. -/
def lxPkg : Pkg := { fns := [lxGFn, lxFFn], nextId := 5 }

/-- The fixture package after the pass: the cover clone keeps its label and
takes the invoke's name. -/
def lxPkgOut : Pkg :=
  { fns := [lxGFn,
      { name := "f2", isForeign := false, paramIds := [],
        nodes := [{ id := 3, op := Op.literal 1, operands := [], name := some "tok", loc := none },
                  { id := 5, op := Op.cover "lbl", operands := [3], name := some "x", loc := none }],
        retId := 5 }],
    nextId := 6 }

/-- The label-contract fixture package after inlining its single call site. -/
def lcPkgOut : Pkg :=
  { fns := [lcGFn,
      { name := "f3", isForeign := false, paramIds := [],
        nodes := [{ id := 4, op := Op.literal 1, operands := [], name := some "tok", loc := none },
                  { id := 7, op := Op.unOp 0, operands := [4], name := none, loc := none },
                  { id := 8, op := Op.cover "f3_0_g3_lbl", operands := [4],
                    name := some "cover.6", loc := none }],
        retId := 7 }],
    nextId := 9 }

/-- The live invoke node of the label-contract fixture caller. -/
def lcInv : Node := { id := 5, op := Op.invoke "g3", operands := [4], name := none, loc := none }

/-- The run state after the pass over the three-function fixture package:
one call site inlined, at index 0. -/
def ipRunOut : RunSt := ⟨ipPkgOut, 1, true, [0]⟩

end XlsIR

namespace XlsFuzzer

/-- Ascii whitespace, as absl::ascii_isspace. -/
def isSpaceChar (c : Char) : Bool :=
  c = ' ' || c = '\t' || c = '\n' || c = '\r' || c.toNat = 11 || c.toNat = 12

/-- Strip leading ascii whitespace. -/
def stripLeftC (l : List Char) : List Char := l.dropWhile isSpaceChar

/-- Strip trailing ascii whitespace. -/
def stripRightC (l : List Char) : List Char := (l.reverse.dropWhile isSpaceChar).reverse

/-- absl::StripAsciiWhitespace over a line. -/
def stripC (l : List Char) : List Char := stripLeftC (stripRightC l)

/-- absl::StrSplit(s, newline): split a text into lines. -/
def splitLinesC : List Char → List (List Char)
  | [] => [[]]
  | c :: rest =>
    if c = '\n' then [] :: splitLinesC rest
    else
      match splitLinesC rest with
      | [] => [[c]]
      | line :: more => (c :: line) :: more

/-- absl::StrJoin(lines, newline). -/
def joinLinesC : List (List Char) → List Char
  | [] => []
  | [l] => l
  | l :: rest => l ++ '\n' :: joinLinesC rest

/-- Function or proc sample. -/
inductive SampleType where
  | function : SampleType
  | proc : SampleType
deriving DecidableEq, Repr

/-- The flat fuzzer options record of SampleOptions (the fields its
operator== compares, sample.cc lines 103-116). -/
structure SampleOptions where
  inputIsDslx : Bool
  sampleType : SampleType
  irConverterArgs : List (List Char)
  convertToIr : Bool
  optimizeIr : Bool
  useJit : Bool
  codegen : Bool
  codegenArgs : List (List Char)
  simulate : Bool
  simulator : List Char
  useSystemVerilog : Bool
  timeoutSeconds : Option Nat
  callsPerSample : Nat
  procTicks : Option Nat
deriving DecidableEq, Repr

/-- Modelled from the spec: an interpreter value is identified by its
IR-converted canonical hex form (the string ToArgString produces); IR-value
equality is equality of canonical forms.  The InterpValue/Value bridge is an
external collaborator. -/
abbrev IRValue : Type := List Char

/-- A fuzzer Sample: source text, options, batch of per-call argument rows,
and (for proc samples) the channel-name list. -/
structure Sample where
  inputText : List Char
  options : SampleOptions
  argsBatch : List (List IRValue)
  irChannelNames : List (List Char)
deriving DecidableEq, Repr

/-- ToArgString: the IR-converted hex form of a value. -/
def toArgString (v : IRValue) : List Char := v

/-- InterpValueListToString: the values of one argument row joined by
a semicolon separator. -/
def interpValueListToString (vs : List IRValue) : List Char :=
  List.intercalate ("; ".toList) (vs.map toArgString)

/-- Inputs section of the crasher configuration record: function samples
carry one rendered line per argument row; proc samples carry one record per
channel holding the channel name and its per-tick values. -/
inductive CrasherInputs where
  | functionArgs (args : List (List Char)) : CrasherInputs
  | channelInputs (inputs : List (List Char × List (List Char))) : CrasherInputs
deriving DecidableEq, Repr

/-- The crasher configuration record (CrasherConfigurationProto). -/
structure CrasherConfig where
  exception : Option (List Char)
  issue : List Char
  sampleOptions : SampleOptions
  inputs : Option CrasherInputs
deriving DecidableEq, Repr

/-- True for function samples. -/
def isFunctionSample (o : SampleOptions) : Bool := o.sampleType = SampleType.function

/-- The placeholder issue string (split in the source to avoid presubmit
checks). -/
def dnsIssue : List Char := ("DO NOT " ++ "SUBMIT Insert link to GitHub issue here.").toList

/-- The configuration record Sample::Serialize builds: optional exception,
the issue placeholder, the sample options, and the inputs grouped by row
(function) or by channel (proc). -/
def mkCrasherConfig (s : Sample) (errorMessage : Option (List Char)) : CrasherConfig :=
  { exception := errorMessage
    issue := dnsIssue
    sampleOptions := s.options
    inputs :=
      if isFunctionSample s.options then
        some (CrasherInputs.functionArgs (s.argsBatch.map interpValueListToString))
      else
        some (CrasherInputs.channelInputs
          (s.irChannelNames.enum.map (fun pr =>
            (pr.2, s.argsBatch.map (fun args => toArgString (args.getD pr.1 [])))))) }

/-- The BEGIN_CONFIG marker. -/
def kStartConfig : List Char := "BEGIN_CONFIG".toList

/-- The END_CONFIG marker. -/
def kEndConfig : List Char := "END_CONFIG".toList

/-- The comment prefix each config line receives. -/
def commentPrefix : List Char := "// ".toList

/-- Sample::Serialize, parameterized by the external text-proto printer
(proto DebugString split into lines): a BEGIN_CONFIG comment line, each
config line prefixed with the comment prefix, an END_CONFIG comment line,
then a newline, the raw source text and a final newline. -/
def serializeSample (configLinesOf : CrasherConfig → List (List Char))
    (s : Sample) (errorMessage : Option (List Char)) : List Char :=
  let config := mkCrasherConfig s errorMessage
  let lines := (commentPrefix ++ kStartConfig) ::
    ((configLinesOf config).map (fun l => commentPrefix ++ l) ++
      [commentPrefix ++ kEndConfig])
  let header := joinLinesC lines
  header ++ '\n' :: (s.inputText ++ ['\n'])

/-- State of the Deserialize line scan. -/
structure DeserState where
  inConfig : Bool
  configLines : List (List Char)
  dslxLines : List (List Char)
deriving DecidableEq, Repr

/-- One line of the Deserialize scan: blank lines are skipped; comment lines
toggle the config region on the markers or collect their stripped contents
when inside it; all other lines are DSLX source lines, kept verbatim. -/
def deserStep (st : DeserState) (line : List Char) : DeserState :=
  let strippedLine := stripC line
  if strippedLine = [] then st
  else if (['/', '/'] : List Char).isPrefixOf strippedLine then
    let contents := stripC (strippedLine.drop 2)
    if contents = kStartConfig then { st with inConfig := true }
    else if contents = kEndConfig then { st with inConfig := false }
    else if st.inConfig then { st with configLines := st.configLines ++ [contents] }
    else st
  else { st with dslxLines := st.dslxLines ++ [line] }

/-- The full Deserialize line scan. -/
def scanLines (s : List Char) : DeserState :=
  (splitLinesC s).foldl deserStep { inConfig := false, configLines := [], dslxLines := [] }

/-- Errors Sample::Deserialize surfaces. -/
inductive DeserErr where
  | missingConfig : DeserErr
  | protoParse (msg : List Char) : DeserErr
  | valueParse (msg : List Char) : DeserErr
  | retCheck (msg : List Char) : DeserErr
deriving DecidableEq, Repr

/-- The per-value transpose step of Deserialize's proc branch: resize the
batch when row i does not exist yet, then append the value to row i. -/
def appendAtRow (batch : List (List IRValue)) (i : Nat) (v : IRValue) : List (List IRValue) :=
  let batch2 := if batch.length ≤ i then batch ++ List.replicate (i + 1 - batch.length) [] else batch
  batch2.set i (batch2.getD i [] ++ [v])

/-- All values of one channel record, appended tick-by-tick to the rows of
the batch (the loop over channel_input.values of Deserialize). -/
def addChannelValues (batch : List (List IRValue)) (vals : List IRValue) : List (List IRValue) :=
  ((vals.enum).foldl (fun b pr => appendAtRow b pr.1 pr.2) batch)

/-- A line that Deserialize keeps as DSLX source: neither blank nor a
comment line. -/
def keepDslxLine (l : List Char) : Bool :=
  !(stripC l).isEmpty && !(['/', '/'] : List Char).isPrefixOf (stripC l)

/-- Sample::Deserialize, parameterized by the external text-proto parser and
the external value parsers (ParseArgs for a function argument row;
ParseTypedValue plus ValueToInterpValue for one channel value). -/
def deserializeSample
    (parseConfig : List (List Char) → Except (List Char) CrasherConfig)
    (parseArgsLine : List Char → Except (List Char) (List IRValue))
    (parseValue : List Char → Except (List Char) IRValue)
    (s : List Char) : Except DeserErr Sample :=
  let st := scanLines s
  if st.configLines = [] then Except.error DeserErr.missingConfig
  else
    match parseConfig st.configLines with
    | Except.error e => Except.error (DeserErr.protoParse e)
    | Except.ok config =>
      let dslxCode := joinLinesC st.dslxLines
      let options := config.sampleOptions
      if options.sampleType = SampleType.proc then
        let chans := match config.inputs with
          | some (CrasherInputs.channelInputs ins) => ins
          | _ => []
        match chans.foldlM (fun (acc : List (List Char) × List (List IRValue)) ch => do
            let vals ← (ch.2.mapM (fun vs => (parseValue vs).mapError DeserErr.valueParse))
            pure (acc.1 ++ [ch.1], addChannelValues acc.2 vals)) (([], []) :
              List (List Char) × List (List IRValue)) with
        | Except.error e => Except.error e
        | Except.ok res =>
          Except.ok ⟨dslxCode, options, res.2, res.1⟩
      else
        match config.inputs with
        | some (CrasherInputs.functionArgs args) =>
          match args.mapM (fun a => (parseArgsLine a).mapError DeserErr.valueParse) with
          | Except.error e => Except.error e
          | Except.ok batch =>
            Except.ok ⟨dslxCode, options, batch, []⟩
        | _ => Except.error (DeserErr.retCheck ("has_function_args".toList))

/-- Equality of samples as the spec defines it: equal source text, field-wise
equal options, and element-wise equal argument batches by IR-value equality
(channel names are not part of sample equality). -/
def sampleEq (a b : Sample) : Bool :=
  a.inputText = b.inputText && a.options = b.options && a.argsBatch = b.argsBatch

/-- Source-text normalization at blank-line boundaries: drop the
whitespace-only lines. -/
def normalizeBlankLines (t : List Char) : List Char :=
  joinLinesC ((splitLinesC t).filter (fun l => !(stripC l).isEmpty))

/-- Sample equality up to source-text whitespace normalization at blank-line
boundaries, the tolerance claim C7 allows. -/
def sampleEqModBlank (a b : Sample) : Bool :=
  normalizeBlankLines a.inputText = normalizeBlankLines b.inputText &&
    a.options = b.options && a.argsBatch = b.argsBatch

/-- Options of the concrete function-sample fixture. -/
def fnOptions : SampleOptions :=
  { inputIsDslx := true, sampleType := SampleType.function, irConverterArgs := [],
    convertToIr := true, optimizeIr := true, useJit := true, codegen := false,
    codegenArgs := [], simulate := false, simulator := [], useSystemVerilog := true,
    timeoutSeconds := none, callsPerSample := 1, procTicks := none }

/-- A concrete function sample with a comment-free one-line source. -/
def fnSample : Sample :=
  { inputText := ("fn x").toList, options := fnOptions,
    argsBatch := [["x1".toList, "x2".toList]], irChannelNames := [] }

/-- A trivial concrete text-proto printer used by witnesses. -/
def encTriv : CrasherConfig → List (List Char) := fun _ => ["cfg".toList]

/-- The matching trivial text-proto parser for a fixed configuration. -/
def decTriv (cfg : CrasherConfig) : List (List Char) → Except (List Char) CrasherConfig :=
  fun ls => if ls = ["cfg".toList] then Except.ok cfg else Except.error ("parse".toList)

/-- A splitter on the semicolon-space separator, the concrete stand-in for
the external ParseArgs used by witnesses. -/
def splitSemi : List Char → List (List Char)
  | [] => [[]]
  | ';' :: ' ' :: rest => [] :: splitSemi rest
  | c :: rest =>
    match splitSemi rest with
    | [] => [[c]]
    | l :: ls => (c :: l) :: ls

/-- The concrete ParseArgs stand-in of the witnesses. -/
def parseArgsTriv (l : List Char) : Except (List Char) (List IRValue) :=
  Except.ok (if l = [] then [] else splitSemi l)

/-- The concrete typed-value parser stand-in of the witnesses (values are
their canonical forms). -/
def parseValTriv (l : List Char) : Except (List Char) IRValue := Except.ok l

instance exceptDecEq {e a : Type} [DecidableEq e] [DecidableEq a] :
    DecidableEq (Except e a) := fun x y =>
  match x, y with
  | Except.ok u, Except.ok v =>
    if h : u = v then isTrue (by rw [h]) else isFalse (fun hc => h (Except.ok.inj hc))
  | Except.error u, Except.error v =>
    if h : u = v then isTrue (by rw [h]) else isFalse (fun hc => h (Except.error.inj hc))
  | Except.ok _, Except.error _ => isFalse (fun hc => Except.noConfusion hc)
  | Except.error _, Except.ok _ => isFalse (fun hc => Except.noConfusion hc)

/-- The comment-carrying sample used by the C7 counterexample and the C9
witness. -/
def cSample : Sample :=
  { inputText := ("// note" ++ "\n" ++ "fn").toList, options := fnOptions,
    argsBatch := [["x1".toList, "x2".toList]], irChannelNames := [] }

/-- What deserializing the serialized comment-carrying sample produces: the
comment line of the source is gone. -/
def cRound : Sample :=
  { inputText := ("fn").toList, options := fnOptions,
    argsBatch := [["x1".toList, "x2".toList]], irChannelNames := [] }

/-- Options of the concrete proc-sample fixture. -/
def procOptions : SampleOptions :=
  { fnOptions with sampleType := SampleType.proc }

/-- A concrete proc sample with two channels and two ticks. -/
def procSample : Sample :=
  { inputText := ("proc p").toList, options := procOptions,
    argsBatch := [["a0".toList, "b0".toList], ["a1".toList, "b1".toList]],
    irChannelNames := ["ca".toList, "cb".toList] }

end XlsFuzzer

namespace XlsDslx

mutual
/-- The DSLX type algebra walked by the formatter (zip_types.h): bits
leaves, tuples, nominal structs, arrays, channels, function types and meta
types. -/
inductive Ty where
  | bits (width : Nat) : Ty
  | tuple (elts : TyList) : Ty
  | structT (name : String) (fieldNames : List String) (fields : TyList) : Ty
  | array (elt : Ty) (size : Nat) : Ty
  | chan (payload : Ty) : Ty
  | fnT (params : TyList) (ret : Ty) : Ty
  | meta (inner : Ty) : Ty
/-- A list of types (kept mutual for structural recursion). -/
inductive TyList where
  | nil : TyList
  | cons (hd : Ty) (tl : TyList) : TyList
end

/-- Length of a type list. -/
def tyListLength : TyList → Nat
  | .nil => 0
  | .cons _ tl => tyListLength tl + 1

mutual
/-- Type::ToString rendering (modelled; only used as an opaque leaf string by
the callbacks). -/
def tyToString : Ty → String
  | .bits w => "bits[" ++ Nat.repr w ++ "]"
  | .tuple elts => "(" ++ tyListToString elts ++ ")"
  | .structT name _ fields => name ++ " \x7b" ++ tyListToString fields ++ "\x7d"
  | .array elt size => tyToString elt ++ "[" ++ Nat.repr size ++ "]"
  | .chan payload => "chan(" ++ tyToString payload ++ ")"
  | .fnT params ret => "(" ++ tyListToString params ++ ") -> " ++ tyToString ret
  | .meta inner => "typeof(" ++ tyToString inner ++ ")"
/-- Comma-joined rendering of a type list. -/
def tyListToString : TyList → String
  | .nil => ""
  | .cons hd .nil => tyToString hd
  | .cons hd tl => tyToString hd ++ ", " ++ tyListToString tl
end

/-- absl status error surfaced by the formatter. -/
inductive StatusErr where
  | unimplemented (msg : String) : StatusErr
deriving DecidableEq, Repr

/-- Accumulated formatter state: the two colorized buffers, the recorded
mismatch pairs, and the matched-leaf count. -/
structure CBState where
  colorizedLhs : String
  colorizedRhs : String
  mismatches : List (String × String)
  matchCount : Nat

/-- ANSI reset. -/
def kAnsiReset : String := "\x1b[0m"

/-- ANSI red. -/
def kAnsiRed : String := "\x1b[31m"

/-- ANSI bold on. -/
def kAnsiBoldOn : String := "\x1b[1m"

/-- ANSI bold off. -/
def kAnsiBoldOff : String := "\x1b[22m"

/-- Parent context handed to BeforeType/AfterType: the struct field name and
position, the tuple position, or any other parent. -/
inductive PCtx where
  | structP (fieldName : String) (index : Nat) (size : Nat) : PCtx
  | tupleP (index : Nat) (size : Nat) : PCtx
  | otherP : PCtx

/-- The aggregate kind of a matched aggregate pair. -/
inductive AggKind where
  | tupleK : AggKind
  | structK (lhsName : String) : AggKind
  | arrayK (lhsSize rhsSize : Nat) : AggKind
  | chanK : AggKind
  | fnK : AggKind
  | metaK : AggKind

/-- AddMatched into both colorized buffers. -/
def addMatchedBoth (txt : String) (st : CBState) : CBState :=
  { st with colorizedLhs := st.colorizedLhs ++ txt,
            colorizedRhs := st.colorizedRhs ++ txt }

/-- AddMismatched: both sides wrapped in red and reset. -/
def addMismatched (lhs rhs : String) (st : CBState) : CBState :=
  { st with colorizedLhs := st.colorizedLhs ++ kAnsiRed ++ lhs ++ kAnsiReset,
            colorizedRhs := st.colorizedRhs ++ kAnsiRed ++ rhs ++ kAnsiReset }

/-- Callbacks::NoteAggregateStart: the opener per aggregate kind; array
openers are deferred to the end; function types are unsupported. -/
def noteAggregateStart (k : AggKind) (st : CBState) : Except StatusErr CBState :=
  match k with
  | .tupleK => Except.ok (addMatchedBoth "(" st)
  | .structK n => Except.ok (addMatchedBoth (n ++ "\x7b") st)
  | .arrayK _ _ => Except.ok st
  | .chanK => Except.ok (addMatchedBoth "chan(" st)
  | .fnK => Except.error (StatusErr.unimplemented "Cannot print diffs of function types.")
  | .metaK => Except.ok (addMatchedBoth "typeof(" st)

/-- Callbacks::NoteAggregateEnd: the closer per aggregate kind; arrays
append the per-side sizes; function types are unsupported. -/
def noteAggregateEnd (k : AggKind) (st : CBState) : Except StatusErr CBState :=
  match k with
  | .tupleK => Except.ok (addMatchedBoth ")" st)
  | .structK _ => Except.ok (addMatchedBoth "\x7d" st)
  | .arrayK ls rs =>
    Except.ok { st with
      colorizedLhs := st.colorizedLhs ++ "[" ++ Nat.repr ls ++ "]",
      colorizedRhs := st.colorizedRhs ++ "[" ++ Nat.repr rs ++ "]" }
  | .chanK => Except.ok (addMatchedBoth ")" st)
  | .fnK => Except.error (StatusErr.unimplemented "Cannot print diffs of function types.")
  | .metaK => Except.ok (addMatchedBoth ")" st)

/-- Callbacks::BeforeType: emit the struct field label. -/
def beforeType (parent : Option PCtx) (st : CBState) : CBState :=
  match parent with
  | some (PCtx.structP fieldName _ _) => addMatchedBoth (fieldName ++ ": ") st
  | _ => st

/-- Callbacks::AfterType: emit the separating comma after non-last struct or
tuple members. -/
def afterType (parent : Option PCtx) (st : CBState) : CBState :=
  match parent with
  | some (PCtx.structP _ index size) =>
    if index + 1 ≠ size then addMatchedBoth ", " st else st
  | some (PCtx.tupleP index size) =>
    if index + 1 ≠ size then addMatchedBoth ", " st else st
  | _ => st

/-- Callbacks::NoteMatchedLeafType. -/
def noteMatchedLeaf (lhsStr rhsStr : String) (parent : Option PCtx) (st : CBState) : CBState :=
  let st1 := { st with matchCount := st.matchCount + 1 }
  let st2 := beforeType parent st1
  let st3 := { st2 with colorizedLhs := st2.colorizedLhs ++ lhsStr,
                        colorizedRhs := st2.colorizedRhs ++ rhsStr }
  afterType parent st3

/-- Callbacks::NoteTypeMismatch. -/
def noteTypeMismatch (lhsStr rhsStr : String) (parent : Option PCtx) (st : CBState) : CBState :=
  let st1 := { st with mismatches := st.mismatches ++ [(lhsStr, rhsStr)] }
  let st2 := beforeType parent st1
  let st3 := addMismatched lhsStr rhsStr st2
  afterType parent st3

mutual
/-- Modelled from the spec: the zip-types driver (zip_types.cc is outside
the excerpt, spec 4.F): walk both types in lock-step, entering aggregates of
matched structure, emitting a matched-leaf event on equal bits leaves, a
type-mismatch event (pruning the subtree) on any shape mismatch, and the
callback events of the Callbacks class above; a pair of function types is
handed to NoteAggregateStart, which rejects it. -/
def zipWalk (lhs rhs : Ty) (parent : Option PCtx) (st : CBState) :
    Except StatusErr CBState :=
  match lhs, rhs with
  | Ty.bits w1, Ty.bits w2 =>
    if w1 = w2 then
      Except.ok (noteMatchedLeaf (tyToString (Ty.bits w1)) (tyToString (Ty.bits w2)) parent st)
    else
      Except.ok (noteTypeMismatch (tyToString (Ty.bits w1)) (tyToString (Ty.bits w2)) parent st)
  | Ty.tuple as, Ty.tuple bs =>
    if tyListLength as = tyListLength bs then do
      let st1 ← noteAggregateStart AggKind.tupleK st
      let st2 ← zipWalkTuple as bs 0 (tyListLength as) st1
      noteAggregateEnd AggKind.tupleK st2
    else
      Except.ok (noteTypeMismatch (tyToString (Ty.tuple as)) (tyToString (Ty.tuple bs)) parent st)
  | Ty.structT n1 f1 t1, Ty.structT n2 f2 t2 =>
    if n1 = n2 && tyListLength t1 = tyListLength t2 then do
      let st1 ← noteAggregateStart (AggKind.structK n1) st
      let st2 ← zipWalkStruct f1 t1 t2 0 (tyListLength t1) st1
      noteAggregateEnd (AggKind.structK n1) st2
    else
      Except.ok (noteTypeMismatch (tyToString (Ty.structT n1 f1 t1))
        (tyToString (Ty.structT n2 f2 t2)) parent st)
  | Ty.array e1 s1, Ty.array e2 s2 => do
    let st1 ← noteAggregateStart (AggKind.arrayK s1 s2) st
    let st2 ← zipWalk e1 e2 (some PCtx.otherP) st1
    noteAggregateEnd (AggKind.arrayK s1 s2) st2
  | Ty.chan a, Ty.chan b => do
    let st1 ← noteAggregateStart AggKind.chanK st
    let st2 ← zipWalk a b (some PCtx.otherP) st1
    noteAggregateEnd AggKind.chanK st2
  | Ty.fnT _ _, Ty.fnT _ _ => noteAggregateStart AggKind.fnK st
  | Ty.meta a, Ty.meta b => do
    let st1 ← noteAggregateStart AggKind.metaK st
    let st2 ← zipWalk a b (some PCtx.otherP) st1
    noteAggregateEnd AggKind.metaK st2
  | l, r => Except.ok (noteTypeMismatch (tyToString l) (tyToString r) parent st)
/-- Lock-step walk of tuple members. -/
def zipWalkTuple (as bs : TyList) (i size : Nat) (st : CBState) :
    Except StatusErr CBState :=
  match as, bs with
  | TyList.cons a as2, TyList.cons b bs2 => do
    let st1 ← zipWalk a b (some (PCtx.tupleP i size)) st
    zipWalkTuple as2 bs2 (i + 1) size st1
  | _, _ => Except.ok st
/-- Lock-step walk of struct members, carrying the lhs field names. -/
def zipWalkStruct (fieldNames : List String) (as bs : TyList) (i size : Nat)
    (st : CBState) : Except StatusErr CBState :=
  match as, bs with
  | TyList.cons a as2, TyList.cons b bs2 => do
    let st1 ← zipWalk a b
      (some (PCtx.structP (fieldNames.getD i "") i size)) st
    zipWalkStruct fieldNames as2 bs2 (i + 1) size st1
  | _, _ => Except.ok st
end

mutual
/-- The lock-step walk reaches a pair of function types. -/
def reachesFnPair : Ty → Ty → Bool
  | Ty.fnT _ _, Ty.fnT _ _ => true
  | Ty.tuple as, Ty.tuple bs =>
    decide (tyListLength as = tyListLength bs) && reachesFnList as bs
  | Ty.structT n1 _ t1, Ty.structT n2 _ t2 =>
    (n1 = n2 && decide (tyListLength t1 = tyListLength t2)) && reachesFnList t1 t2
  | Ty.array e1 _, Ty.array e2 _ => reachesFnPair e1 e2
  | Ty.chan a, Ty.chan b => reachesFnPair a b
  | Ty.meta a, Ty.meta b => reachesFnPair a b
  | _, _ => false
/-- Some corresponding member pair reaches a pair of function types. -/
def reachesFnList : TyList → TyList → Bool
  | TyList.cons a as, TyList.cons b bs => reachesFnPair a b || reachesFnList as bs
  | _, _ => false
end

/-- FormatTypeMismatch (format_type_mismatch.cc): run the zip walk with the
callbacks, and render either the zero-match whole-type form or the per-
element mismatch list followed by the colorized overall rendering. -/
def formatTypeMismatch (lhs rhs : Ty) : Except StatusErr String :=
  match zipWalk lhs rhs none ⟨"", "", [], 0⟩ with
  | Except.error e => Except.error e
  | Except.ok st =>
    let lines :=
      if st.matchCount = 0 then
        ["Type mismatch:", "   " ++ tyToString lhs, "vs " ++ tyToString rhs]
      else
        ((kAnsiReset ++ "Mismatched elements " ++ kAnsiBoldOn ++ "within" ++
            kAnsiBoldOff ++ " type:") ::
          st.mismatches.foldr
            (fun pr acc => ("   " ++ pr.1) :: ("vs " ++ pr.2) :: acc)
            [kAnsiBoldOn ++ "Overall" ++ kAnsiBoldOff ++ " type mismatch:",
             kAnsiReset ++ "   " ++ st.colorizedLhs,
             "vs " ++ st.colorizedRhs])
    Except.ok (String.intercalate "\n" lines)

def fnErr : StatusErr := StatusErr.unimplemented "Cannot print diffs of function types."

/-- Concrete fixture: a 2-tuple whose second member is a function type. -/
def tyFnFixture : Ty :=
  Ty.tuple (TyList.cons (Ty.bits 8)
    (TyList.cons (Ty.fnT (TyList.cons (Ty.bits 4) TyList.nil) (Ty.bits 1)) TyList.nil))

end XlsDslx

namespace XlsIR

theorem mem_of_findNode {nodes : List Node} {i : Nat} {n : Node}
    (h : findNode nodes i = some n) : n ∈ nodes ∧ n.id = i := by
  refine ⟨List.mem_of_find?_eq_some h, ?_⟩
  have h2 := List.find?_some h
  simpa using h2

theorem findNode_isSome {nodes : List Node} {n : Node} (hn : n ∈ nodes) :
    ∃ m, findNode nodes n.id = some m := by
  have : (findNode nodes n.id).isSome := by
    rw [findNode, List.find?_isSome]
    exact ⟨n, hn, by simp⟩
  exact Option.isSome_iff_exists.mp this

theorem mem_usersOf {nodes : List Node} {v : Nat} {u : Node} :
    u ∈ usersOf nodes v ↔ u ∈ nodes ∧ v ∈ u.operands := by
  simp [usersOf, List.mem_filter, List.elem_iff]

theorem allUsersEmitted_iff {nodes : List Node} {em : List Nat} {v : Nat} :
    allUsersEmitted nodes em v = true ↔ ∀ u ∈ usersOf nodes v, u.id ∈ em := by
  simp [allUsersEmitted, List.all_eq_true, List.elem_iff]

theorem node_id_inj {nodes : List Node} (h : (nodes.map Node.id).Nodup)
    {a b : Node} (ha : a ∈ nodes) (hb : b ∈ nodes) (hab : a.id = b.id) : a = b :=
  List.inj_on_of_nodup_map h ha hb hab

/-- One step of `pushReadyOperands` either leaves the stack unchanged or
pushes the resolved node for a ready, unseen operand. -/
theorem prStep_spec (nodes : List Node) (em : List Nat) (st : List Node) (o : Nat) :
    (pushReadyOperands nodes em st [o]) = st ∨
    ∃ onode, findNode nodes o = some onode ∧
      pushReadyOperands nodes em st [o] = onode :: st ∧
      o ∉ em ∧ (∀ s ∈ st, s.id ≠ o) ∧
      (∀ u ∈ nodes, o ∈ u.operands → u.id ∈ em) := by
  unfold pushReadyOperands
  simp only [List.foldl_cons, List.foldl_nil]
  cases hfn : findNode nodes o with
  | none => exact Or.inl rfl
  | some onode =>
    by_cases hc : em.contains o = true
    · left; rw [hc]; simp
    · rw [Bool.not_eq_true] at hc
      by_cases ha : st.any (fun s => s.id = o) = true
      · left; rw [hc, ha]; simp
      · rw [Bool.not_eq_true] at ha
        by_cases hu : allUsersEmitted nodes em o = true
        · right
          refine ⟨onode, rfl, by rw [hc, ha, hu]; simp, ?_, ?_, ?_⟩
          · simpa using hc
          · intro s hs
            have := List.any_eq_false.mp ha s hs
            simpa using this
          · intro u hu2 hop
            exact allUsersEmitted_iff.mp hu u (mem_usersOf.mpr ⟨hu2, hop⟩)
        · rw [Bool.not_eq_true] at hu
          left; rw [hc, ha, hu]; simp

theorem pr_cons (nodes : List Node) (em : List Nat) (st : List Node) (o : Nat) (ops : List Nat) :
    pushReadyOperands nodes em st (o :: ops) =
      pushReadyOperands nodes em (pushReadyOperands nodes em st [o]) ops := by
  simp [pushReadyOperands]

theorem pr_mono (nodes : List Node) (em : List Nat) :
    ∀ (ops : List Nat) (st : List Node) (x : Node), x ∈ st →
      x ∈ pushReadyOperands nodes em st ops := by
  intro ops
  induction ops with
  | nil => intro st x hx; exact hx
  | cons o rest ih =>
    intro st x hx
    rw [pr_cons]
    apply ih
    rcases prStep_spec nodes em st o with h | ⟨onode, _, heq, _⟩
    · rw [h]; exact hx
    · rw [heq]; exact List.mem_cons_of_mem _ hx

theorem pr_mem (nodes : List Node) (em : List Nat) :
    ∀ (ops : List Nat) (st : List Node) (x : Node),
      x ∈ pushReadyOperands nodes em st ops →
      x ∈ st ∨ (x ∈ nodes ∧ x.id ∉ em ∧
        ∀ u ∈ nodes, x.id ∈ u.operands → u.id ∈ em) := by
  intro ops
  induction ops with
  | nil => intro st x hx; exact Or.inl hx
  | cons o rest ih =>
    intro st x hx
    rw [pr_cons] at hx
    rcases ih _ x hx with h | h
    · rcases prStep_spec nodes em st o with heq | ⟨onode, hfn, heq, hnem, _, hready⟩
      · rw [heq] at h; exact Or.inl h
      · rw [heq] at h
        rcases List.mem_cons.mp h with rfl | h2
        · right
          obtain ⟨hmem, hid⟩ := mem_of_findNode hfn
          refine ⟨hmem, ?_, ?_⟩
          · rw [hid]; exact hnem
          · intro u hu hop
            rw [hid] at hop
            exact hready u hu hop
        · exact Or.inl h2
    · exact Or.inr h

theorem pr_nodup (nodes : List Node) (em : List Nat) :
    ∀ (ops : List Nat) (st : List Node),
      (st.map Node.id).Nodup → ((pushReadyOperands nodes em st ops).map Node.id).Nodup := by
  intro ops
  induction ops with
  | nil => intro st h; exact h
  | cons o rest ih =>
    intro st h
    rw [pr_cons]
    apply ih
    rcases prStep_spec nodes em st o with heq | ⟨onode, hfn, heq, _, hfresh, _⟩
    · rw [heq]; exact h
    · rw [heq]
      simp only [List.map_cons, List.nodup_cons]
      refine ⟨?_, h⟩
      intro hmem
      obtain ⟨s, hs, hsid⟩ := List.mem_map.mp hmem
      obtain ⟨_, hid⟩ := mem_of_findNode hfn
      exact hfresh s hs (by rw [hsid, hid])

theorem prStep_push {nodes : List Node} {em : List Nat} {st : List Node} {o : Nat}
    {onode : Node} (hfn : findNode nodes o = some onode)
    (hc : em.contains o = false) (hany : st.any (fun s => s.id = o) = false)
    (hu : allUsersEmitted nodes em o = true) :
    pushReadyOperands nodes em st [o] = onode :: st := by
  unfold pushReadyOperands
  simp [hfn, hc, hany, hu]
  refine ⟨by simpa using hc, ?_⟩
  intro x hx
  have := List.any_eq_false.mp hany x hx
  simpa using this

theorem pr_covers (nodes : List Node) (em : List Nat) :
    ∀ (ops : List Nat) (st : List Node) (o : Nat), o ∈ ops →
      (findNode nodes o).isSome →
      (∃ s ∈ pushReadyOperands nodes em st ops, s.id = o) ∨ o ∈ em ∨
        ∃ u ∈ usersOf nodes o, u.id ∉ em := by
  intro ops
  induction ops with
  | nil => intro st o ho; exact absurd ho (List.not_mem_nil o)
  | cons o2 rest ih =>
    intro st o ho hsome
    rcases List.mem_cons.mp ho with rfl | hmem
    · by_cases hc : o ∈ em
      · exact Or.inr (Or.inl hc)
      · by_cases hany : st.any (fun s => s.id = o) = true
        · obtain ⟨s, hs, hsid⟩ := List.any_eq_true.mp hany
          left
          exact ⟨s, pr_mono nodes em (o :: rest) st s hs, by simpa using hsid⟩
        · by_cases hu : allUsersEmitted nodes em o = true
          · obtain ⟨onode, hfn⟩ := Option.isSome_iff_exists.mp hsome
            left
            have hpush := prStep_push hfn (by simpa using hc)
              (Bool.not_eq_true _ ▸ hany) hu
            refine ⟨onode, ?_, (mem_of_findNode hfn).2⟩
            rw [pr_cons]
            exact pr_mono nodes em rest _ onode (by rw [hpush]; exact List.mem_cons_self _ _)
          · right; right
            have h2 : ¬ ∀ u ∈ usersOf nodes o, u.id ∈ em :=
              fun hall => hu (allUsersEmitted_iff.mpr hall)
            push_neg at h2
            exact h2
    · rw [pr_cons]
      exact ih _ o hmem hsome

theorem topoInv_step {nodes : List Node} {p : Node} {stack emitted : List Node}
    (hclosed : ∀ n ∈ nodes, ∀ o ∈ n.operands, ∃ m ∈ nodes, m.id = o)
    (hidn : (nodes.map Node.id).Nodup)
    (hinv : TopoInv nodes (p :: stack) emitted) :
    TopoInv nodes
      (pushReadyOperands nodes ((emitted ++ [p]).map Node.id) stack p.operands)
      (emitted ++ [p]) := by
  have hpmem : p ∈ nodes := hinv.stack_sub p (List.mem_cons_self _ _)
  have hpnew : p.id ∉ emitted.map Node.id := hinv.disj p (List.mem_cons_self _ _)
  have hstacksub : ∀ x ∈ stack, x ∈ nodes :=
    fun x hx => hinv.stack_sub x (List.mem_cons_of_mem _ hx)
  have hstacknodup : (stack.map Node.id).Nodup := by
    have := hinv.stack_nodup
    simp only [List.map_cons, List.nodup_cons] at this
    exact this.2
  have hpid_notin_stack : p.id ∉ stack.map Node.id := by
    have := hinv.stack_nodup
    simp only [List.map_cons, List.nodup_cons] at this
    exact this.1
  have hem' : (emitted ++ [p]).map Node.id = emitted.map Node.id ++ [p.id] := by
    simp
  refine ⟨?_, ?_, ?_, ?_, ?_, ?_, ?_, ?_⟩
  · intro x hx
    rcases List.mem_append.mp hx with h | h
    · exact hinv.emitted_sub x h
    · rw [List.mem_singleton.mp h]; exact hpmem
  · rw [hem']
    refine List.Nodup.append hinv.emitted_nodup (List.nodup_singleton _) ?_
    intro a ha hb
    rw [List.mem_singleton] at hb
    subst hb
    exact hpnew ha
  · intro x hx
    rcases pr_mem nodes _ _ _ x hx with h | h
    · exact hstacksub x h
    · exact h.1
  · exact pr_nodup nodes _ _ _ hstacknodup
  · intro x hx
    rcases pr_mem nodes _ _ _ x hx with h | h
    · rw [hem']
      intro hmem
      rcases List.mem_append.mp hmem with h2 | h2
      · exact hinv.disj x (List.mem_cons_of_mem _ h) h2
      · exact hpid_notin_stack (List.mem_singleton.mp h2 ▸ List.mem_map_of_mem Node.id h)
    · exact h.2.1
  · intro x hx u hu hop
    rcases pr_mem nodes _ _ _ x hx with h | h
    · have := hinv.ready x (List.mem_cons_of_mem _ h) u hu hop
      rw [hem']
      exact List.mem_append.mpr (Or.inl this)
    · exact h.2.2 u hu hop
  · intro n hn hnem
    have hnem1 : n.id ∉ emitted.map Node.id := by
      rw [hem'] at hnem
      exact fun h => hnem (List.mem_append.mpr (Or.inl h))
    have hnep : n.id ≠ p.id := by
      rw [hem'] at hnem
      exact fun h => hnem (List.mem_append.mpr (Or.inr (List.mem_singleton.mpr h)))
    rcases hinv.complete n hn hnem1 with ⟨s, hs, hsid⟩ | ⟨u, hu, hop, hunem⟩
    · rcases List.mem_cons.mp hs with rfl | hs2
      · exact absurd hsid.symm hnep
      · exact Or.inl ⟨s, pr_mono nodes _ _ _ s hs2, hsid⟩
    · by_cases hup : u.id = p.id
      · have hue : u = p := node_id_inj hidn hu hpmem hup
        have hop2 : n.id ∈ p.operands := hue ▸ hop
        obtain ⟨m, hmmem, hmid⟩ := hclosed u hu n.id hop
        obtain ⟨m2, hfn⟩ := findNode_isSome hmmem
        rw [hmid] at hfn
        rcases pr_covers nodes _ p.operands stack n.id hop2 (by rw [hfn]; rfl) with
          ⟨s, hs, hsid⟩ | hc | ⟨u2, hu2, hu2nem⟩
        · exact Or.inl ⟨s, hs, hsid⟩
        · exact absurd hc hnem
        · obtain ⟨hu2mem, hu2op⟩ := mem_usersOf.mp hu2
          exact Or.inr ⟨u2, hu2mem, hu2op, hu2nem⟩
      · refine Or.inr ⟨u, hu, hop, ?_⟩
        rw [hem']
        intro hmem
        rcases List.mem_append.mp hmem with h2 | h2
        · exact hunem h2
        · exact hup (List.mem_singleton.mp h2)
  · intro i hi u hu hop
    rw [List.length_append, List.length_singleton] at hi
    by_cases hlt : i < emitted.length
    · have hget : (emitted ++ [p])[i] = emitted[i] := List.getElem_append_left hlt
      rw [hget] at hop
      have := hinv.ordered i hlt u hu hop
      have htake : (emitted ++ [p]).take i = emitted.take i :=
        List.take_append_of_le_length (Nat.le_of_lt hlt)
      rw [htake]
      exact this
    · have hieq : i = emitted.length := by omega
      subst hieq
      have hget : (emitted ++ [p])[emitted.length] = p := by
        simp
      rw [hget] at hop
      have := hinv.ready p (List.mem_cons_self _ _) u hu hop
      obtain ⟨e, he, heid⟩ := List.mem_map.mp this
      have : e = u := node_id_inj hidn (hinv.emitted_sub e he) hu heid
      subst this
      have htake : (emitted ++ [p]).take emitted.length = emitted := List.take_left _ _
      rw [htake]
      exact he

theorem exists_rank_max (rank : Nat → Nat) :
    ∀ (l : List Node), l ≠ [] → ∃ m ∈ l, ∀ x ∈ l, rank x.id ≤ rank m.id := by
  intro l
  induction l with
  | nil => intro h; exact absurd rfl h
  | cons a t ih =>
    intro _
    rcases eq_or_ne t [] with rfl | hne
    · refine ⟨a, List.mem_singleton_self a, ?_⟩
      intro x hx
      rw [List.mem_singleton.mp hx]
    · obtain ⟨m, hm, hmax⟩ := ih hne
      by_cases hcmp : rank a.id ≤ rank m.id
      · refine ⟨m, List.mem_cons_of_mem _ hm, ?_⟩
        intro x hx
        rcases List.mem_cons.mp hx with rfl | hx2
        · exact hcmp
        · exact hmax x hx2
      · refine ⟨a, List.mem_cons_self _ _, ?_⟩
        intro x hx
        rcases List.mem_cons.mp hx with rfl | hx2
        · exact le_refl _
        · exact le_trans (hmax x hx2) (le_of_not_le hcmp)

theorem all_emitted_of_stack_empty {nodes emitted : List Node}
    (rank : Nat → Nat) (hrank : ∀ n ∈ nodes, ∀ o ∈ n.operands, rank o < rank n.id)
    (hinv : TopoInv nodes [] emitted) :
    ∀ n ∈ nodes, n.id ∈ emitted.map Node.id := by
  by_contra hcon
  push_neg at hcon
  obtain ⟨n0, hn0, hn0nem⟩ := hcon
  set l := nodes.filter (fun n => !((emitted.map Node.id).contains n.id)) with hl
  have hn0l : n0 ∈ l := by
    rw [hl, List.mem_filter]
    exact ⟨hn0, by simpa using hn0nem⟩
  have hlne : l ≠ [] := fun h => by rw [h] at hn0l; exact List.not_mem_nil _ hn0l
  obtain ⟨m, hm, hmax⟩ := exists_rank_max rank l hlne
  have hmm : m ∈ nodes ∧ m.id ∉ emitted.map Node.id := by
    rw [hl, List.mem_filter] at hm
    exact ⟨hm.1, by simpa using hm.2⟩
  rcases hinv.complete m hmm.1 hmm.2 with ⟨s, hs, _⟩ | ⟨u, hu, hop, hunem⟩
  · exact absurd hs (List.not_mem_nil s)
  · have hul : u ∈ l := by
      rw [hl, List.mem_filter]
      exact ⟨hu, by simpa using hunem⟩
    have h1 := hrank u hu m.id hop
    have h2 := hmax u hul
    omega

theorem perm_of_all_emitted {nodes emitted : List Node}
    (hidn : (nodes.map Node.id).Nodup)
    (hsub : ∀ x ∈ emitted, x ∈ nodes)
    (hnodup : (emitted.map Node.id).Nodup)
    (hall : ∀ n ∈ nodes, n.id ∈ emitted.map Node.id) :
    emitted.Perm nodes := by
  have h1 : emitted.Subperm nodes :=
    List.subperm_of_subset (List.Nodup.of_map _ hnodup) hsub
  have h2 : nodes.Subperm emitted := by
    refine List.subperm_of_subset (List.Nodup.of_map _ hidn) ?_
    intro n hn
    obtain ⟨e, he, heid⟩ := List.mem_map.mp (hall n hn)
    have : e = n := node_id_inj hidn (hsub e he) hn heid
    exact this ▸ he
  exact List.Subperm.antisymm h1 h2

theorem topoLoop_spec {nodes : List Node}
    (hclosed : ∀ n ∈ nodes, ∀ o ∈ n.operands, ∃ m ∈ nodes, m.id = o)
    (hidn : (nodes.map Node.id).Nodup)
    (rank : Nat → Nat) (hrank : ∀ n ∈ nodes, ∀ o ∈ n.operands, rank o < rank n.id) :
    ∀ (fuel : Nat) (stack emitted : List Node), TopoInv nodes stack emitted →
      nodes.length ≤ emitted.length + fuel →
      (topoLoop nodes fuel stack emitted).Perm nodes ∧
      ∀ i, (hi : i < (topoLoop nodes fuel stack emitted).length) → ∀ u ∈ nodes,
        (topoLoop nodes fuel stack emitted)[i].id ∈ u.operands →
        u ∈ (topoLoop nodes fuel stack emitted).take i := by
  intro fuel
  induction fuel with
  | zero =>
    intro stack emitted hinv hfuel
    have hres : topoLoop nodes 0 stack emitted = emitted := rfl
    rw [hres]
    constructor
    · have h1 : emitted.Subperm nodes :=
        List.subperm_of_subset (List.Nodup.of_map _ hinv.emitted_nodup) hinv.emitted_sub
      exact List.Subperm.perm_of_length_le h1 (by omega)
    · exact hinv.ordered
  | succ fuel ih =>
    intro stack emitted hinv hfuel
    match stack with
    | [] =>
      have hres : topoLoop nodes (fuel + 1) [] emitted = emitted := rfl
      rw [hres]
      refine ⟨perm_of_all_emitted hidn hinv.emitted_sub hinv.emitted_nodup
        (all_emitted_of_stack_empty rank hrank hinv), hinv.ordered⟩
    | p :: stack =>
      have hres : topoLoop nodes (fuel + 1) (p :: stack) emitted =
          topoLoop nodes fuel
            (pushReadyOperands nodes ((emitted ++ [p]).map Node.id) stack p.operands)
            (emitted ++ [p]) := rfl
      rw [hres]
      exact ih _ _ (topoInv_step hclosed hidn hinv)
        (by rw [List.length_append, List.length_singleton]; omega)

theorem topoInv_seed {nodes : List Node} (hidn : (nodes.map Node.id).Nodup) :
    TopoInv nodes ((nodes.filter (fun n => (usersOf nodes n.id).isEmpty)).reverse) [] := by
  refine ⟨?_, ?_, ?_, ?_, ?_, ?_, ?_, ?_⟩
  · intro x hx; exact absurd hx (List.not_mem_nil x)
  · simp
  · intro x hx
    rw [List.mem_reverse, List.mem_filter] at hx
    exact hx.1
  · rw [List.map_reverse, List.nodup_reverse]
    exact List.Nodup.sublist (List.Sublist.map _ (List.filter_sublist _)) hidn
  · intro x _
    simp
  · intro x hx u hu hop
    rw [List.mem_reverse, List.mem_filter] at hx
    have hempty : usersOf nodes x.id = [] := by
      have := hx.2
      simpa [List.isEmpty_iff] using this
    have : u ∈ usersOf nodes x.id := mem_usersOf.mpr ⟨hu, hop⟩
    rw [hempty] at this
    exact absurd this (List.not_mem_nil u)
  · intro n hn _
    by_cases he : (usersOf nodes n.id).isEmpty = true
    · left
      refine ⟨n, ?_, rfl⟩
      rw [List.mem_reverse, List.mem_filter]
      exact ⟨hn, he⟩
    · right
      have hne : usersOf nodes n.id ≠ [] := by
        intro h
        exact he (by simp [h])
      obtain ⟨u, hu⟩ := List.exists_mem_of_ne_nil _ hne
      obtain ⟨hu1, hu2⟩ := mem_usersOf.mp hu
      exact ⟨u, hu1, hu2, by simp⟩
  · intro i hi
    simp at hi

theorem reverseTopoSort_spec (f : Fn) (hwf : WellFormed f) :
    (reverseTopoSort f).Perm f.nodes ∧
    ∀ i, (hi : i < (reverseTopoSort f).length) → ∀ u ∈ f.nodes,
      (reverseTopoSort f)[i].id ∈ u.operands → u ∈ (reverseTopoSort f).take i := by
  obtain ⟨hidn, hclosed, rank, hrank⟩ := hwf
  have hres : reverseTopoSort f =
      topoLoop f.nodes f.nodes.length
        ((f.nodes.filter (fun n => (usersOf f.nodes n.id).isEmpty)).reverse) [] := rfl
  rw [hres]
  exact topoLoop_spec hclosed hidn rank hrank f.nodes.length _ [] (topoInv_seed hidn)
    (by simp)

theorem mem_take_getElem {α : Type} (l : List α) (k : Nat) (x : α) (h : x ∈ l.take k) :
    ∃ m, ∃ (hm : m < l.length), m < k ∧ l[m] = x := by
  obtain ⟨m, hm, he⟩ := List.mem_iff_getElem.mp h
  have hm2 : m < l.length := by simp at hm; omega
  have hm3 : m < k := by simp at hm; omega
  refine ⟨m, hm2, hm3, ?_⟩
  rw [← he]
  exact (List.getElem_take l).symm

/-- Claim C1: for every FunctionBase satisfying the DAG invariant (with
well-formed ids and closed operand references), the scheduler returns a
sequence containing every node exactly once, and every operand of a node
appears at a strictly smaller index than the node itself. -/
theorem topoSort_contract (f : Fn) (hwf : WellFormed f) :
    (topoSort f).Perm f.nodes ∧
    ∀ i j, (hi : i < (topoSort f).length) → (hj : j < (topoSort f).length) →
      ((topoSort f)[j]).id ∈ ((topoSort f)[i]).operands → j < i := by
  obtain ⟨hperm, hord⟩ := reverseTopoSort_spec f hwf
  have hnodupE : (reverseTopoSort f).Nodup := by
    rw [List.Perm.nodup_iff hperm]
    exact List.Nodup.of_map _ hwf.1
  constructor
  · simp only [topoSort]
    exact (List.reverse_perm _).trans hperm
  · intro i j hi hj hop
    have hlen : (topoSort f).length = (reverseTopoSort f).length := by
      rw [topoSort, List.length_reverse]
    have hi2 : i < (reverseTopoSort f).length := hlen ▸ hi
    have hj2 : j < (reverseTopoSort f).length := hlen ▸ hj
    have hgi : (topoSort f)[i] =
        (reverseTopoSort f)[(reverseTopoSort f).length - 1 - i] := by
      simp only [topoSort]
      exact List.getElem_reverse (by rw [topoSort] at hi; rw [List.length_reverse] at hi ⊢; omega)
    have hgj : (topoSort f)[j] =
        (reverseTopoSort f)[(reverseTopoSort f).length - 1 - j] := by
      simp only [topoSort]
      exact List.getElem_reverse (by rw [topoSort] at hj; rw [List.length_reverse] at hj ⊢; omega)
    rw [hgi, hgj] at hop
    have humem : (reverseTopoSort f)[(reverseTopoSort f).length - 1 - i] ∈ f.nodes := by
      exact (List.Perm.mem_iff hperm).mp (List.getElem_mem _)
    have htake := hord ((reverseTopoSort f).length - 1 - j) (by omega) _ humem hop
    obtain ⟨m, hm, hmk, hme⟩ := mem_take_getElem _ _ _ htake
    have : m = (reverseTopoSort f).length - 1 - i :=
      (List.Nodup.getElem_inj_iff hnodupE).mp hme
    omega

/-- Witness for claim C1 at the ladder function, with the identity as the
rank function certifying the DAG invariant. -/
theorem topoSort_contract_witness :
    (topoSort ladderFn).Perm ladderFn.nodes ∧
    ∀ i j, (hi : i < (topoSort ladderFn).length) → (hj : j < (topoSort ladderFn).length) →
      ((topoSort ladderFn)[j]).id ∈ ((topoSort ladderFn)[i]).operands → j < i :=
  topoSort_contract ladderFn
    ⟨by rw [IdsNodup]; decide, by rw [OperandsClosed]; decide, ⟨fun i => i, by decide⟩⟩

/-- Claim C6 counterexample: on the ladder function
`t = neg(a); b = neg(a); c = neg(b); ret d = add(c, t)` the scheduler (as
pinned by NodeIteratorTest.RpoVsTopo) produces [a, b, c, t, d], while
emitting simultaneously-ready nodes in FunctionBase insertion order would
emit t (added second) before b and produce [a, t, b, c, d]; the two
disagree, so the insertion-order tie-break does not describe topo_sort. -/
theorem topoSort_tiebreak_counterexample :
    topoSort ladderFn = [ladderA, ladderB, ladderC, ladderT, ladderD] ∧
    topoSortInsertionTiebreak ladderFn = [ladderA, ladderT, ladderB, ladderC, ladderD] ∧
    topoSort ladderFn ≠ topoSortInsertionTiebreak ladderFn := by decide

/-- Claim C6 amended: topo_sort does not emit simultaneously-ready nodes in
insertion order; on the ladder function it produces exactly [a, b, c, t, d],
which differs from the classical reverse-post-order result [a, t, b, c, d]. -/
theorem topoSort_ladder_vs_rpo :
    topoSort ladderFn = [ladderA, ladderB, ladderC, ladderT, ladderD] ∧
    rpoOrder ladderFn = [ladderA, ladderT, ladderB, ladderC, ladderD] ∧
    topoSort ladderFn ≠ rpoOrder ladderFn := by decide

/-- Claim C3 counterexample: the code derives "a_bar_42" from the shorter
parameter "foo" because the longest-prefix parameter "foo_bar" has an
unnamed argument, while the claim as written would leave the clone name
unchanged. -/
theorem getInlinedNodeName_counterexample :
    getInlinedNodeName cexNodeN cexPairs = some "a_bar_42" ∧
    claimC3Rename cexNodeN cexPairs = none ∧
    getInlinedNodeName cexNodeN cexPairs ≠ claimC3Rename cexNodeN cexPairs := by
  refine ⟨by decide, by decide, by decide⟩

theorem ginn_lpp_rel (nodeName : String) :
    ∀ (pairs : List (Node × Node)) (acc1 : Option (String × String)) (acc2 : Option (Node × Node)),
      ((acc1 = none ∧ acc2 = none) ∨
        ∃ pr a, acc2 = some pr ∧ pr.2.name = some a ∧
          acc1 = some (getNameStr pr.1, a ++ strDropN nodeName (getNameStr pr.1).length)) →
      ((pairs.foldl (ginnStep nodeName) acc1 = none ∧
        (pairs.filter (fun pr => pr.2.name.isSome)).foldl (lppStep nodeName) acc2 = none) ∨
        ∃ pr a,
          (pairs.filter (fun pr => pr.2.name.isSome)).foldl (lppStep nodeName) acc2 = some pr ∧
          pr.2.name = some a ∧
          pairs.foldl (ginnStep nodeName) acc1 =
            some (getNameStr pr.1, a ++ strDropN nodeName (getNameStr pr.1).length)) := by
  intro pairs
  induction pairs with
  | nil =>
    intro acc1 acc2 h
    simpa using h
  | cons pr rest ih =>
    intro acc1 acc2 h
    rw [List.foldl_cons, List.filter_cons]
    cases hname : pr.2.name with
    | none =>
      simp only [Option.isSome_none, Bool.false_eq_true, if_false]
      have hstep : ginnStep nodeName acc1 pr = acc1 := by
        rw [ginnStep.eq_def, hname]
      rw [hstep]
      exact ih acc1 acc2 h
    | some a =>
      simp only [Option.isSome_some, if_true]
      rw [List.foldl_cons]
      apply ih
      rcases h with ⟨h1, h2⟩ | ⟨b, ab, h2, hbname, h1⟩
      · subst h1; subst h2
        simp only [ginnStep.eq_def, hname, lppStep.eq_def]
        by_cases hc : strPrefixOf (getNameStr pr.1) nodeName = true
        · rw [hc]
          simp only [Bool.true_and, if_true]
          exact Or.inr ⟨pr, a, rfl, hname, rfl⟩
        · rw [Bool.not_eq_true] at hc
          rw [hc]
          simp only [Bool.false_and, if_false]
          exact Or.inl ⟨rfl, rfl⟩
      · subst h1; subst h2
        simp only [ginnStep.eq_def, hname, lppStep.eq_def]
        by_cases hc : (strPrefixOf (getNameStr pr.1) nodeName &&
            decide ((getNameStr b.1).length < (getNameStr pr.1).length)) = true
        · rw [if_pos hc, if_pos hc]
          exact Or.inr ⟨pr, a, rfl, hname, rfl⟩
        · rw [if_neg hc, if_neg hc]
          exact Or.inr ⟨b, ab, rfl, hbname, rfl⟩

/-- Claim C3 amended, proved: for every node and every call site, the name
GetInlinedNodeName derives equals the claim-worded rename in which the
longest-prefix parameter is chosen among the parameters whose call-site
argument has an assigned name (and the clone is left as cloned when no such
parameter matches). -/
theorem getInlinedNodeName_amended (node : Node) (pairs : List (Node × Node)) :
    getInlinedNodeName node pairs = claimC3RenameAmended node pairs := by
  cases hn : node.name with
  | none => simp [getInlinedNodeName.eq_def, claimC3RenameAmended.eq_def, hn]
  | some nodeName =>
    simp only [getInlinedNodeName.eq_def, claimC3RenameAmended.eq_def, hn]
    rcases ginn_lpp_rel nodeName pairs none none (Or.inl ⟨rfl, rfl⟩) with
      ⟨h1, h2⟩ | ⟨pr, a, h2, hname, h1⟩
    · have h2b : longestPrefixParam nodeName
          (pairs.filter (fun pr => pr.2.name.isSome)) = none := h2
      rw [h1, h2b]
      rfl
    · have h2b : longestPrefixParam nodeName
          (pairs.filter (fun pr => pr.2.name.isSome)) = some pr := h2
      rw [h1, h2b]
      simp [hname]

/-- Claim C5: whenever the wrapped pass adds nodes to the package, the
wrapper with reschedule_new_nodes = false returns an invariant-violation
error identifying an added node (so the schedule is never silently
consumed), and with reschedule_new_nodes = true it succeeds with the
schedule discarded entirely while returning the wrapped pass's changed
flag. -/
theorem schedulingWrapper_added_nodes (wrapped : List Nat → List Nat × Bool)
    (u : SchedulingUnit)
    (hadded : (wrapped u.pkgNodes).1.filter (fun n => !u.pkgNodes.contains n) ≠ []) :
    (∃ a, a ∈ (wrapped u.pkgNodes).1 ∧ a ∉ u.pkgNodes ∧
      schedulingWrapperRun wrapped false u = Except.error (SchedErr.invariantViolation a)) ∧
    (∃ r, schedulingWrapperRun wrapped true u = Except.ok r ∧
      r.1.schedule = none ∧ r.2 = (wrapped u.pkgNodes).2) := by
  cases hA : (wrapped u.pkgNodes).1.filter (fun n => !u.pkgNodes.contains n) with
  | nil => exact absurd hA hadded
  | cons a rest =>
    have hamem : a ∈ (wrapped u.pkgNodes).1.filter (fun n => !u.pkgNodes.contains n) := by
      rw [hA]; exact List.mem_cons_self _ _
    rw [List.mem_filter] at hamem
    constructor
    · refine ⟨a, hamem.1, by simpa using hamem.2, ?_⟩
      simp only [schedulingWrapperRun]
      rw [hA]
      rfl
    · refine ⟨({ pkgNodes := (wrapped u.pkgNodes).1, schedule := none },
        (wrapped u.pkgNodes).2), ?_, rfl, rfl⟩
      simp only [schedulingWrapperRun]
      rw [hA]
      rfl

/-- Witness for claim C5: a wrapped pass that appends node 7 to a one-node
package carrying a schedule. -/
theorem schedulingWrapper_added_nodes_witness :
    (∃ a, a ∈ ((fun l => (l ++ [7], true)) [1]).1 ∧ a ∉ [1] ∧
      schedulingWrapperRun (fun l => (l ++ [7], true)) false
        { pkgNodes := [1], schedule := some [(1, 0)] } =
        Except.error (SchedErr.invariantViolation a)) ∧
    (∃ r, schedulingWrapperRun (fun l => (l ++ [7], true)) true
        { pkgNodes := [1], schedule := some [(1, 0)] } = Except.ok r ∧
      r.1.schedule = none ∧ r.2 = ((fun l => (l ++ [7], true)) [1]).2) := by
  have h := schedulingWrapper_added_nodes (fun l => (l ++ [7], true))
    { pkgNodes := [1], schedule := some [(1, 0)] } (by decide)
  exact h

theorem ibind_ok {a b : Type} (x : Except InlineErr a) (f : a → Except InlineErr b) (r : b)
    (h : (x >>= f) = Except.ok r) : ∃ v, x = Except.ok v ∧ f v = Except.ok r := by
  cases x with
  | error e =>
    have hb : ((Except.error e : Except InlineErr a) >>= f) =
        (Except.error e : Except InlineErr b) := rfl
    rw [hb] at h
    exact absurd h (by simp)
  | ok v => exact ⟨v, rfl, h⟩

theorem getOk_ok {α : Type} {o : Option α} {e : InlineErr} {v : α}
    (h : getOk o e = Except.ok v) : o = some v := by
  cases o with
  | some w =>
    rw [getOk] at h
    rw [Except.ok.inj h]
  | none =>
    rw [getOk] at h
    exact absurd h (by simp)

theorem calleeOf_ok {n : Node} {e : InlineErr} {c : String}
    (h : calleeOf n e = Except.ok c) : n.op = Op.invoke c := by
  rw [calleeOf] at h
  revert h
  cases ho : n.op with
  | invoke c2 =>
    intro h
    rw [Except.ok.inj h]
  | param => intro h; exact absurd h (by simp)
  | literal v => intro h; exact absurd h (by simp)
  | unOp t => intro h; exact absurd h (by simp)
  | binOp t => intro h; exact absurd h (by simp)
  | cover l => intro h; exact absurd h (by simp)
  | assertNode m l => intro h; exact absurd h (by simp)
  | other t => intro h; exact absurd h (by simp)

theorem foldlM_inv {α σ : Type} (step : σ → α → Except InlineErr σ)
    (P : σ → Prop) (Q : σ → σ → Prop)
    (hrefl : ∀ s, Q s s) (htrans : ∀ {a b c : σ}, Q a b → Q b c → Q a c) :
    ∀ (l : List α), (∀ x ∈ l, ∀ t t', P t → step t x = Except.ok t' → P t' ∧ Q t t') →
    ∀ (s s' : σ), P s → l.foldlM step s = Except.ok s' → P s' ∧ Q s s' := by
  intro l
  induction l with
  | nil =>
    intro _ s s' hP h
    rw [List.foldlM_nil] at h
    rw [Except.ok.inj h] at hP ⊢
    exact ⟨hP, hrefl s'⟩
  | cons x xs ih =>
    intro hsteps s s' hP h
    rw [List.foldlM_cons] at h
    obtain ⟨t, hx, hrest⟩ := ibind_ok _ _ _ h
    obtain ⟨hPt, hQ⟩ := hsteps x (List.mem_cons_self x xs) s t hP hx
    obtain ⟨hP2, hQ2⟩ := ih (fun y hy => hsteps y (List.mem_cons_of_mem x hy)) t s' hPt hrest
    exact ⟨hP2, htrans hQ hQ2⟩

theorem mapM_ok_forall {α β : Type} (g : α → Except InlineErr β) :
    ∀ (l : List α) (l2 : List β), l.mapM g = Except.ok l2 → ∀ y ∈ l2, ∃ x ∈ l, g x = Except.ok y := by
  intro l
  induction l with
  | nil =>
    intro l2 h y hy
    rw [List.mapM_nil] at h
    have : ([] : List β) = l2 := Except.ok.inj h
    rw [← this] at hy
    exact absurd hy (List.not_mem_nil y)
  | cons x xs ih =>
    intro l2 h y hy
    rw [List.mapM_cons] at h
    obtain ⟨v, hv, h2⟩ := ibind_ok _ _ _ h
    obtain ⟨vs, hvs, h3⟩ := ibind_ok _ _ _ h2
    have : v :: vs = l2 := Except.ok.inj h3
    rw [← this] at hy
    rcases List.mem_cons.mp hy with rfl | hmem
    · exact ⟨x, List.mem_cons_self x xs, hv⟩
    · obtain ⟨x2, hx2, hg⟩ := ih vs hvs y hmem
      exact ⟨x2, List.mem_cons_of_mem x hx2, hg⟩

theorem alook_cons (a b k2 : Nat) (rest : List (Nat × Nat)) :
    alook ((a, b) :: rest) k2 = if a = k2 then some b else alook rest k2 := by
  by_cases h : a = k2
  · rw [if_pos h, alook, List.find?_cons_of_pos _ (by simpa using h)]
    rfl
  · rw [if_neg h, alook, List.find?_cons_of_neg _ (by simpa using h)]
    rfl

theorem alook_nil (k2 : Nat) : alook ([] : List (Nat × Nat)) k2 = none := rfl

theorem alook_snoc (k v k2 : Nat) : ∀ (m : List (Nat × Nat)),
    alook (m ++ [(k, v)]) k2 =
      match alook m k2 with
      | some w => some w
      | none => if k = k2 then some v else none
  | [] => by
    rw [List.nil_append, alook_cons, alook_nil]
  | (a, b) :: rest => by
    simp only [List.cons_append, alook_cons]
    by_cases h : a = k2
    · simp [h]
    · simp only [if_neg h]
      exact alook_snoc k v k2 rest

theorem alook_aset (k v k2 : Nat) : ∀ (m : List (Nat × Nat)),
    alook (aset m k v) k2 =
      if k2 = k then (alook m k).map (fun _ => v) else alook m k2
  | [] => by
    rw [aset, alook_nil]
    by_cases hk : k2 = k <;> simp [hk, alook_nil]
  | (a, b) :: rest => by
    by_cases ha : a = k
    · rw [aset, if_pos (by simpa using ha)]
      subst ha
      by_cases hk : k2 = a
      · simp [alook_cons, hk]
      · have hk2 : ¬a = k2 := fun h => hk h.symm
        simp [alook_cons, hk, hk2]
    · rw [aset, if_neg (by simpa using ha)]
      by_cases hx : a = k2
      · have hk2k : ¬k2 = k := fun h => ha (hx.trans h)
        simp [alook_cons, hx, hk2k]
      · simp only [alook_cons, if_neg hx]
        rw [alook_aset k v k2 rest]
        by_cases hk : k2 = k
        · simp [hk, alook_cons, ha]
        · simp [hk]

theorem replaceUses_mem_back (f : Fn) (oldN : Node) (v : Nat) :
    ∀ n2 ∈ (replaceUsesWith f oldN v).nodes, ∃ n ∈ f.nodes,
      n2.id = n.id ∧ n2.op = n.op ∧ ∀ x ∈ n2.operands, x = v ∨ x ∈ n.operands := by
  intro n2 hn2
  rw [replaceUsesWith] at hn2
  obtain ⟨n, hn, heq⟩ := List.mem_map.mp hn2
  refine ⟨n, hn, ?_⟩
  by_cases hc : ((({ n with operands := n.operands.map (fun o => if o = oldN.id then v else o) } : Node).id = v)
      && oldN.name.isSome && ({ n with operands := n.operands.map (fun o => if o = oldN.id then v else o) } : Node).name.isNone) = true
  · rw [if_pos hc] at heq
    refine ⟨by rw [← heq], by rw [← heq], ?_⟩
    intro x hx
    rw [← heq] at hx
    simp only at hx
    obtain ⟨o, ho, hoe⟩ := List.mem_map.mp hx
    by_cases hoo : o = oldN.id
    · rw [if_pos hoo] at hoe
      exact Or.inl hoe.symm
    · rw [if_neg hoo] at hoe
      exact Or.inr (hoe ▸ ho)
  · rw [if_neg hc] at heq
    refine ⟨by rw [← heq], by rw [← heq], ?_⟩
    intro x hx
    rw [← heq] at hx
    simp only at hx
    obtain ⟨o, ho, hoe⟩ := List.mem_map.mp hx
    by_cases hoo : o = oldN.id
    · rw [if_pos hoo] at hoe
      exact Or.inl hoe.symm
    · rw [if_neg hoo] at hoe
      exact Or.inr (hoe ▸ ho)

theorem replaceUses_mem_fwd (f : Fn) (oldN : Node) (v : Nat) :
    ∀ n ∈ f.nodes, ∃ n2 ∈ (replaceUsesWith f oldN v).nodes, n2.id = n.id ∧ n2.op = n.op := by
  intro n hn
  rw [replaceUsesWith]
  simp only [List.mem_map]
  set n1 : Node := { n with operands := n.operands.map (fun o => if o = oldN.id then v else o) } with hn1
  by_cases hc : (n1.id = v && oldN.name.isSome && n1.name.isNone) = true
  · exact ⟨{ n1 with name := oldN.name }, ⟨n, hn, by rw [if_pos hc]⟩, rfl, rfl⟩
  · exact ⟨n1, ⟨n, hn, by rw [if_neg hc]⟩, rfl, rfl⟩

theorem replaceUses_ids (f : Fn) (oldN : Node) (v : Nat) :
    (replaceUsesWith f oldN v).nodes.map Node.id = f.nodes.map Node.id := by
  rw [replaceUsesWith]
  simp only [List.map_map]
  apply List.map_congr_left
  intro n _
  simp only [Function.comp]
  split <;> rfl

theorem setName_mem_back (f : Fn) (i : Nat) (nm : Option String) :
    ∀ n2 ∈ (setName f i nm).nodes, ∃ n ∈ f.nodes,
      n2.id = n.id ∧ n2.op = n.op ∧ n2.operands = n.operands := by
  intro n2 hn2
  rw [setName] at hn2
  obtain ⟨n, hn, heq⟩ := List.mem_map.mp hn2
  refine ⟨n, hn, ?_⟩
  by_cases hc : n.id = i
  · rw [if_pos hc] at heq
    exact ⟨by rw [← heq], by rw [← heq], by rw [← heq]⟩
  · rw [if_neg hc] at heq
    exact ⟨by rw [← heq], by rw [← heq], by rw [← heq]⟩

theorem setName_mem_fwd (f : Fn) (i : Nat) (nm : Option String) :
    ∀ n ∈ f.nodes, ∃ n2 ∈ (setName f i nm).nodes,
      n2.id = n.id ∧ n2.op = n.op ∧ n2.operands = n.operands := by
  intro n hn
  rw [setName]
  simp only [List.mem_map]
  by_cases hc : n.id = i
  · exact ⟨{ n with name := nm }, ⟨n, hn, by rw [if_pos hc]⟩, rfl, rfl, rfl⟩
  · exact ⟨n, ⟨n, hn, by rw [if_neg hc]⟩, rfl, rfl, rfl⟩

theorem setName_ids (f : Fn) (i : Nat) (nm : Option String) :
    (setName f i nm).nodes.map Node.id = f.nodes.map Node.id := by
  rw [setName]
  simp only [List.map_map]
  apply List.map_congr_left
  intro n _
  simp only [Function.comp]
  split <;> rfl

theorem removeNode_mem (f : Fn) (i : Nat) :
    ∀ n2, n2 ∈ (removeNode f i).nodes ↔ n2 ∈ f.nodes ∧ n2.id ≠ i := by
  intro n2
  rw [removeNode]
  simp [List.mem_filter]

theorem find_isForeign_of_sig :
    ∀ (l l2 : List Fn), l.map (fun f => (f.name, f.isForeign)) = l2.map (fun f => (f.name, f.isForeign)) →
    ∀ c, (l.find? (fun f => f.name = c)).map Fn.isForeign =
      (l2.find? (fun f => f.name = c)).map Fn.isForeign := by
  intro l
  induction l with
  | nil =>
    intro l2 h c
    cases l2 with
    | nil => rfl
    | cons g gs => exact absurd h (by simp)
  | cons f fs ih =>
    intro l2 h c
    cases l2 with
    | nil => exact absurd h (by simp)
    | cons g gs =>
      simp only [List.map_cons, List.cons.injEq] at h
      obtain ⟨hhead, htail⟩ := h
      have hname : f.name = g.name := congrArg Prod.fst hhead
      have hfor : f.isForeign = g.isForeign := congrArg Prod.snd hhead
      by_cases hc : f.name = c
      · rw [List.find?_cons_of_pos _ (by simpa using hc),
          List.find?_cons_of_pos _ (by simpa using (hname ▸ hc : g.name = c))]
        simp [hfor]
      · rw [List.find?_cons_of_neg _ (by simpa using hc),
          List.find?_cons_of_neg _ (by simpa using (hname ▸ hc : ¬g.name = c))]
        exact ih gs htail c

theorem isInlineable_sig (p p2 : Pkg) (h : fnSig p = fnSig p2) (c : String) :
    isInlineable p c = isInlineable p2 c := by
  have hm := find_isForeign_of_sig p.fns p2.fns h c
  rw [isInlineable, isInlineable, findFn, findFn]
  cases h1 : p.fns.find? (fun f => f.name = c) with
  | none =>
    cases h2 : p2.fns.find? (fun f => f.name = c) with
    | none => rfl
    | some g => rw [h1, h2] at hm; exact absurd hm (by simp)
  | some g1 =>
    cases h2 : p2.fns.find? (fun f => f.name = c) with
    | none => rw [h1, h2] at hm; exact absurd hm (by simp)
    | some g2 =>
      rw [h1, h2] at hm
      have hg : g1.isForeign = g2.isForeign := by simpa using hm
      simp [hg]

theorem isInlineableNode_sig (p p2 : Pkg) (h : fnSig p = fnSig p2) (n : Node) :
    isInlineableNode p n = isInlineableNode p2 n := by
  rw [isInlineableNode, isInlineableNode]
  cases n.op with
  | invoke c => exact isInlineable_sig p p2 h c
  | _ => rfl

theorem findFn_mem {p : Pkg} {c : String} {f : Fn} (h : findFn p c = some f) :
    f ∈ p.fns ∧ f.name = c := by
  refine ⟨List.mem_of_find?_eq_some h, ?_⟩
  have := List.find?_some h
  simpa using this

theorem idop_mem_of_map_eq {l l2 : List Node}
    (h : l2.map (fun n => (n.id, n.op)) = l.map (fun n => (n.id, n.op))) :
    ∀ n ∈ l, ∃ n2 ∈ l2, n2.id = n.id ∧ n2.op = n.op := by
  intro n hn
  have hmem : (n.id, n.op) ∈ l2.map (fun n => (n.id, n.op)) := by
    rw [h]
    exact List.mem_map_of_mem _ hn
  obtain ⟨n2, hn2, heq⟩ := List.mem_map.mp hmem
  exact ⟨n2, hn2, congrArg Prod.fst heq, congrArg Prod.snd heq⟩

theorem alook_mem {m : List (Nat × Nat)} {k v : Nat} (h : alook m k = some v) :
    (k, v) ∈ m := by
  rw [alook] at h
  cases hf : m.find? (fun pr => pr.1 = k) with
  | none => rw [hf] at h; exact absurd h (by simp)
  | some pr =>
    rw [hf] at h
    have hp := List.find?_some hf
    have hmem := List.mem_of_find?_eq_some hf
    have h1 : pr.1 = k := by simpa using hp
    have h2 : pr.2 = v := by simpa using h
    have : pr = (k, v) := by
      rw [← h1, ← h2]
    rw [← this]
    exact hmem

theorem isInlineableNode_op (p : Pkg) (n n2 : Node) (h : n2.op = n.op) :
    isInlineableNode p n2 = isInlineableNode p n := by
  rw [isInlineableNode, isInlineableNode, h]

theorem cloneStep_inv (p : Pkg) (inv : Node) (caller : Fn) (m0 : List (Nat × Nat))
    (nid0 : Nat) (st st2 : CloneSt) (node : Node)
    (hP : CloneInv p caller m0 nid0 st)
    (hstep : cloneStep p inv st node = Except.ok st2) :
    CloneInv p caller m0 nid0 st2 := by
  rw [cloneStep] at hstep
  by_cases h1 : (alook st.m node.id).isSome = true
  · rw [if_pos h1] at hstep
    rw [← Except.ok.inj hstep]
    exact hP
  · rw [if_neg h1] at hstep
    by_cases h2 : isInlineableNode p node = true
    · rw [if_pos h2] at hstep
      exact absurd hstep (by simp)
    · rw [if_neg h2] at hstep
      obtain ⟨operands2, hmap, hok⟩ := ibind_ok _ _ _ hstep
      have hopb : ∀ y ∈ operands2, y < st.nid := by
        intro y hy
        obtain ⟨x, hx, hg⟩ := mapM_ok_forall _ node.operands operands2 hmap y hy
        cases ha : alook st.m x with
        | none => rw [ha] at hg; exact absurd hg (by simp)
        | some v =>
          rw [ha] at hg
          have : v = y := Except.ok.inj hg
          rw [← this]
          exact (hP.mval x v ha).1
      set newNode : Node :=
        { id := st.nid, op := node.op, operands := operands2, name := node.name,
          loc := match node.loc with | none => inv.loc | some l => some l } with hnew
      obtain rfl : (⟨addNode st.f newNode, st.m ++ [(node.id, st.nid)],
          st.nid + 1⟩ : CloneSt) = st2 := Except.ok.inj hok
      obtain ⟨news, hsh, hnews⟩ := hP.shape
      obtain ⟨mt, hmt⟩ := hP.mext
      refine ⟨hP.fname, hP.fforeign, hP.fparams, Nat.le_succ_of_le hP.nle, ?_, ?_, ?_, ?_, ?_, ?_⟩
      · refine ⟨news ++ [newNode], by simp [addNode, hsh], ?_⟩
        intro n hn
        rcases List.mem_append.mp hn with hn | hn
        · exact hnews n hn
        · have he : n = newNode := List.mem_singleton.mp hn
          rw [he]
          refine ⟨hP.nle, ?_⟩
          rw [isInlineableNode_op p node newNode (by rw [hnew])]
          simpa using h2
      · intro n hn
        rcases List.mem_append.mp hn with hn | hn
        · exact Nat.lt_succ_of_lt (hP.bound n hn)
        · have he : n = newNode := List.mem_singleton.mp hn
          rw [he, hnew]
          exact Nat.lt_succ_self _
      · intro n hn o ho
        rcases List.mem_append.mp hn with hn | hn
        · exact Nat.lt_succ_of_lt (hP.obound n hn o ho)
        · have he : n = newNode := List.mem_singleton.mp hn
          rw [he, hnew] at ho
          exact Nat.lt_succ_of_lt (hopb o ho)
      · show ((st.f.nodes ++ [newNode]).map Node.id).Nodup
        rw [List.map_append]
        rw [List.nodup_append]
        refine ⟨hP.nodup, List.nodup_singleton _, ?_⟩
        intro a ha hb
        have hlt : a < st.nid := by
          obtain ⟨n, hn, hni⟩ := List.mem_map.mp ha
          rw [← hni]
          exact hP.bound n hn
        have : a = st.nid := by simpa using hb
        omega
      · exact ⟨mt ++ [(node.id, st.nid)], by rw [hmt, List.append_assoc]⟩
      · intro k v ha
        rw [alook_snoc] at ha
        cases hm : alook st.m k with
        | some w =>
          rw [hm] at ha
          simp only at ha
          obtain rfl : w = v := by simpa using ha
          obtain ⟨h1, h2⟩ := hP.mval k w hm
          exact ⟨Nat.lt_succ_of_lt h1, h2⟩
        | none =>
          rw [hm] at ha
          simp only at ha
          by_cases hk : node.id = k
          · rw [if_pos hk] at ha
            obtain rfl : st.nid = v := by simpa using ha
            exact ⟨Nat.lt_succ_self _, Or.inl hP.nle⟩
          · rw [if_neg hk] at ha
            exact absurd ha (by simp)

theorem rebuild_back (f1 : Fn) (newNode clone : Node) (cloneId nid : Nat) :
    ∀ n4 ∈ (rebuild f1 newNode clone cloneId nid).nodes,
      n4.id ≠ cloneId ∧
      ((n4.id = newNode.id ∧ n4.op = newNode.op ∧
          ∀ x ∈ n4.operands, x = nid ∨ x ∈ newNode.operands) ∨
        ∃ n1 ∈ f1.nodes, n4.id = n1.id ∧ n4.op = n1.op ∧
          ∀ x ∈ n4.operands, x = nid ∨ x ∈ n1.operands) := by
  intro n4 hn4
  obtain ⟨hn3, hne⟩ := (removeNode_mem _ _ _).mp hn4
  refine ⟨hne, ?_⟩
  obtain ⟨n2, hn2, hid, hop, hops⟩ := replaceUses_mem_back _ _ _ n4 hn3
  have hn2m : n2 ∈ f1.nodes ++ [newNode] := hn2
  rcases List.mem_append.mp hn2m with hmem | hmem
  · exact Or.inr ⟨n2, hmem, hid, hop, hops⟩
  · have he : n2 = newNode := List.mem_singleton.mp hmem
    rw [he] at hid hop hops
    exact Or.inl ⟨hid, hop, hops⟩

theorem rebuild_fwd (f1 : Fn) (newNode clone : Node) (cloneId nid : Nat) :
    ∀ n1 ∈ f1.nodes, n1.id ≠ cloneId →
      ∃ n4 ∈ (rebuild f1 newNode clone cloneId nid).nodes,
        n4.id = n1.id ∧ n4.op = n1.op := by
  intro n1 hn1 hne
  have hn1m : n1 ∈ (addNode f1 newNode).nodes := by
    rw [addNode]
    exact List.mem_append_left _ hn1
  obtain ⟨n3, hn3, hid, hop⟩ := replaceUses_mem_fwd _ clone nid n1 hn1m
  refine ⟨n3, ?_, hid, hop⟩
  exact (removeNode_mem _ _ _).mpr ⟨hn3, by rw [hid]; exact hne⟩

theorem rebuild_fwd_new (f1 : Fn) (newNode clone : Node) (cloneId nid : Nat)
    (hne : newNode.id ≠ cloneId) :
    ∃ n4 ∈ (rebuild f1 newNode clone cloneId nid).nodes,
      n4.id = newNode.id ∧ n4.op = newNode.op := by
  have hm : newNode ∈ (addNode f1 newNode).nodes := by
    rw [addNode]
    exact List.mem_append_right _ (List.mem_singleton_self _)
  obtain ⟨n3, hn3, hid, hop⟩ := replaceUses_mem_fwd _ clone nid newNode hm
  refine ⟨n3, ?_, hid, hop⟩
  exact (removeNode_mem _ _ _).mpr ⟨hn3, by rw [hid]; exact hne⟩

theorem rebuild_ids_nodup (f1 : Fn) (newNode clone : Node) (cloneId nid : Nat)
    (h : ((f1.nodes ++ [newNode]).map Node.id).Nodup) :
    ((rebuild f1 newNode clone cloneId nid).nodes.map Node.id).Nodup := by
  rw [rebuild, removeNode]
  simp only
  have hsub : ((replaceUsesWith (addNode f1 newNode) clone nid).nodes.filter
      (fun n => n.id ≠ cloneId)).Sublist
      (replaceUsesWith (addNode f1 newNode) clone nid).nodes :=
    List.filter_sublist _
  refine List.Nodup.sublist (List.Sublist.map Node.id hsub) ?_
  rw [replaceUses_ids]
  exact h

theorem rebuild_meta (f1 : Fn) (newNode clone : Node) (cloneId nid : Nat) :
    (rebuild f1 newNode clone cloneId nid).name = f1.name ∧
    (rebuild f1 newNode clone cloneId nid).isForeign = f1.isForeign ∧
    (rebuild f1 newNode clone cloneId nid).paramIds = f1.paramIds :=
  ⟨rfl, rfl, rfl⟩

theorem nodesSim_refl (f : Fn) : NodesSim f f :=
  ⟨fun n2 hn2 => ⟨n2, hn2, rfl, rfl, rfl⟩, fun n hn => ⟨n, hn, rfl, rfl, rfl⟩,
    rfl, rfl, rfl, rfl⟩

theorem setName_sim (f : Fn) (i : Nat) (nm : Option String) :
    NodesSim f (setName f i nm) :=
  ⟨setName_mem_back f i nm, setName_mem_fwd f i nm, setName_ids f i nm, rfl, rfl, rfl⟩

theorem renameInv_sim {p : Pkg} {caller : Fn} {m0 : List (Nat × Nat)} {nid0 : Nat}
    {st : CloneSt} (hP : RenameInv p caller m0 nid0 st)
    {g : Fn} (hsim : NodesSim st.f g) :
    RenameInv p caller m0 nid0 ⟨g, st.m, st.nid⟩ := by
  obtain ⟨hback, hfwd, hids, hname, hfor, hpar⟩ := hsim
  refine ⟨hname.trans hP.fname, hfor.trans hP.fforeign, hpar.trans hP.fparams, hP.nle,
    ?_, ?_, ?_, ?_, ?_, ?_, hP.mval⟩
  · intro n hn
    obtain ⟨n2, hn2, hid, hop⟩ := hP.fwd n hn
    obtain ⟨n3, hn3, hid3, hop3, _⟩ := hfwd n2 hn2
    exact ⟨n3, hn3, hid3.trans hid, hop3.trans hop⟩
  · intro n2 hn2 hlt
    obtain ⟨n, hn, hid, hop, _⟩ := hback n2 hn2
    obtain ⟨n0, hn0, hid0, hop0⟩ := hP.back n hn (by rw [← hid]; exact hlt)
    exact ⟨n0, hn0, by rw [hid0, ← hid], by rw [hop0, ← hop]⟩
  · intro n2 hn2 hge
    obtain ⟨n, hn, hid, hop, _⟩ := hback n2 hn2
    rw [isInlineableNode_op p n n2 hop]
    exact hP.clean n hn (by rw [← hid]; exact hge)
  · intro n2 hn2
    obtain ⟨n, hn, hid, _, _⟩ := hback n2 hn2
    rw [hid]
    exact hP.bound n hn
  · intro n2 hn2 o ho
    obtain ⟨n, hn, _, _, hops⟩ := hback n2 hn2
    rw [hops] at ho
    exact hP.obound n hn o ho
  · show (g.nodes.map Node.id).Nodup
    rw [hids]
    exact hP.nodup

theorem renameInv_rebuild {p : Pkg} {caller : Fn} {m0 : List (Nat × Nat)} {nid0 : Nat}
    {st : CloneSt} (hP : RenameInv p caller m0 nid0 st)
    (hcb : ∀ n ∈ caller.nodes, n.id < nid0)
    (f1 : Fn) (hsim : NodesSim st.f f1)
    (clone : Node) (hclone : clone ∈ f1.nodes) (hcl : nid0 ≤ clone.id)
    (newNode : Node) (hnid : newNode.id = st.nid)
    (hnop : isInlineableNode p newNode = false)
    (hnops : newNode.operands = clone.operands)
    (key : Nat) (hkey : (alook st.m key).isSome = true) :
    RenameInv p caller m0 nid0
      ⟨rebuild f1 newNode clone clone.id st.nid, aset st.m key st.nid, st.nid + 1⟩ := by
  obtain ⟨hback, hfwd, hids, hname, hfor, hpar⟩ := hsim
  obtain ⟨hrn, hrf, hrp⟩ := rebuild_meta f1 newNode clone clone.id st.nid
  have hcloneops : ∀ o ∈ clone.operands, o < st.nid := by
    intro o ho
    obtain ⟨n0, hn0, _, _, hops⟩ := hback clone hclone
    rw [hops] at ho
    exact hP.obound n0 hn0 o ho
  refine ⟨by rw [hrn, hname, hP.fname], by rw [hrf, hfor, hP.fforeign],
    by rw [hrp, hpar, hP.fparams], Nat.le_succ_of_le hP.nle, ?_, ?_, ?_, ?_, ?_, ?_, ?_⟩
  · intro n hn
    obtain ⟨n2, hn2, hid, hop⟩ := hP.fwd n hn
    obtain ⟨n3, hn3, hid3, hop3, _⟩ := hfwd n2 hn2
    have hlt : n3.id < nid0 := by
      rw [hid3, hid]
      exact hcb n hn
    obtain ⟨n4, hn4, hid4, hop4⟩ := rebuild_fwd f1 newNode clone clone.id st.nid n3 hn3
      (by omega)
    exact ⟨n4, hn4, by rw [hid4, hid3, hid], by rw [hop4, hop3, hop]⟩
  · intro n4 hn4 hlt
    obtain ⟨hne, hcase⟩ := rebuild_back f1 newNode clone clone.id st.nid n4 hn4
    rcases hcase with ⟨hid, hop, _⟩ | ⟨n1, hn1, hid, hop, _⟩
    · rw [hid, hnid] at hlt
      have hle := hP.nle
      omega
    · obtain ⟨n0, hn0, hid0, hop0, _⟩ := hback n1 hn1
      obtain ⟨n, hn, hidn, hopn⟩ := hP.back n0 hn0 (by rw [← hid0, ← hid]; exact hlt)
      exact ⟨n, hn, by rw [hidn, ← hid0, ← hid], by rw [hopn, ← hop0, ← hop]⟩
  · intro n4 hn4 hge
    obtain ⟨hne, hcase⟩ := rebuild_back f1 newNode clone clone.id st.nid n4 hn4
    rcases hcase with ⟨hid, hop, _⟩ | ⟨n1, hn1, hid, hop, _⟩
    · rw [isInlineableNode_op p newNode n4 hop]
      exact hnop
    · obtain ⟨n0, hn0, hid0, hop0, _⟩ := hback n1 hn1
      rw [isInlineableNode_op p n0 n4 (by rw [hop, hop0])]
      exact hP.clean n0 hn0 (by rw [← hid0, ← hid]; exact hge)
  · intro n4 hn4
    obtain ⟨hne, hcase⟩ := rebuild_back f1 newNode clone clone.id st.nid n4 hn4
    rcases hcase with ⟨hid, _, _⟩ | ⟨n1, hn1, hid, _, _⟩
    · rw [hid, hnid]
      exact Nat.lt_succ_self _
    · obtain ⟨n0, hn0, hid0, _, _⟩ := hback n1 hn1
      have hb := hP.bound n0 hn0
      rw [hid, hid0]
      exact Nat.lt_succ_of_lt hb
  · intro n4 hn4 o ho
    obtain ⟨hne, hcase⟩ := rebuild_back f1 newNode clone clone.id st.nid n4 hn4
    rcases hcase with ⟨_, _, hops⟩ | ⟨n1, hn1, _, _, hops⟩
    · rcases hops o ho with rfl | hmem
      · exact Nat.lt_succ_self _
      · rw [hnops] at hmem
        exact Nat.lt_succ_of_lt (hcloneops o hmem)
    · rcases hops o ho with rfl | hmem
      · exact Nat.lt_succ_self _
      · obtain ⟨n0, hn0, _, _, hops0⟩ := hback n1 hn1
        rw [hops0] at hmem
        exact Nat.lt_succ_of_lt (hP.obound n0 hn0 o hmem)
  · apply rebuild_ids_nodup
    rw [List.map_append, List.nodup_append]
    refine ⟨by rw [hids]; exact hP.nodup, List.nodup_singleton _, ?_⟩
    intro a ha hb
    have hlt : a < st.nid := by
      obtain ⟨n1, hn1, hni⟩ := List.mem_map.mp ha
      obtain ⟨n0, hn0, hid0, _, _⟩ := hback n1 hn1
      rw [← hni, hid0]
      exact hP.bound n0 hn0
    have : a = newNode.id := by simpa using hb
    rw [hnid] at this
    omega
  · intro k v ha
    rw [alook_aset] at ha
    by_cases hk : k = key
    · rw [if_pos hk] at ha
      cases hm : alook st.m key with
      | none => rw [hm] at hkey; exact absurd hkey (by simp)
      | some w =>
        rw [hm] at ha
        obtain rfl : st.nid = v := by simpa using ha
        exact ⟨Nat.lt_succ_self _, Or.inl hP.nle⟩
    · rw [if_neg hk] at ha
      obtain ⟨h1, h2⟩ := hP.mval k v ha
      exact ⟨Nat.lt_succ_of_lt h1, h2⟩

theorem findNode_mem {nodes : List Node} {i : Nat} {n : Node}
    (h : findNode nodes i = some n) : n ∈ nodes ∧ n.id = i := by
  refine ⟨List.mem_of_find?_eq_some h, ?_⟩
  have h2 := List.find?_some h
  simpa using h2

theorem renameFinish_inv (p : Pkg) (invoked : Fn) (cnt : Nat)
    (caller : Fn) (m0 : List (Nat × Nat)) (nid0 : Nat)
    (hcb : ∀ n ∈ caller.nodes, n.id < nid0)
    (node : Node) (cloneId : Nat) (hcl : nid0 ≤ cloneId)
    (st st2 : CloneSt) (hP : RenameInv p caller m0 nid0 st)
    (f1 : Fn) (hsim : NodesSim st.f f1)
    (hkey : (alook st.m node.id).isSome = true)
    (hstep : renameFinish invoked cnt st cloneId node f1 = Except.ok st2) :
    RenameInv p caller m0 nid0 st2 := by
  rw [renameFinish] at hstep
  revert hstep
  cases hop : node.op with
  | cover label =>
    intro hstep
    cases hfind : findNode f1.nodes cloneId with
    | none =>
      rw [hfind] at hstep
      exact absurd hstep (by simp)
    | some clone =>
      rw [hfind] at hstep
      obtain ⟨hclonemem, hcloneid⟩ := findNode_mem hfind
      rw [← Except.ok.inj hstep]
      have hres := renameInv_rebuild hP hcb f1 hsim clone hclonemem
        (by rw [hcloneid]; exact hcl)
        { id := st.nid, op := Op.cover (getPrefixedLabel st.f.name cnt invoked.name label),
          operands := clone.operands, name := some (getNameStr clone), loc := clone.loc }
        rfl (by rw [isInlineableNode]) rfl node.id hkey
      rw [hcloneid] at hres
      exact hres
  | assertNode message lbl =>
    intro hstep
    cases lbl with
    | none =>
      rw [← Except.ok.inj hstep]
      exact renameInv_sim hP hsim
    | some label =>
      cases hfind : findNode f1.nodes cloneId with
      | none =>
        rw [hfind] at hstep
        exact absurd hstep (by simp)
      | some clone =>
        rw [hfind] at hstep
        obtain ⟨hclonemem, hcloneid⟩ := findNode_mem hfind
        rw [← Except.ok.inj hstep]
        have hres := renameInv_rebuild hP hcb f1 hsim clone hclonemem
          (by rw [hcloneid]; exact hcl)
          { id := st.nid,
            op := Op.assertNode message (some (getPrefixedLabel st.f.name cnt invoked.name label)),
            operands := clone.operands, name := some (getNameStr clone), loc := clone.loc }
          rfl (by rw [isInlineableNode]) rfl node.id hkey
        rw [hcloneid] at hres
        exact hres
  | param =>
    intro hstep
    rw [← Except.ok.inj hstep]
    exact renameInv_sim hP hsim
  | literal v =>
    intro hstep
    rw [← Except.ok.inj hstep]
    exact renameInv_sim hP hsim
  | unOp t =>
    intro hstep
    rw [← Except.ok.inj hstep]
    exact renameInv_sim hP hsim
  | binOp t =>
    intro hstep
    rw [← Except.ok.inj hstep]
    exact renameInv_sim hP hsim
  | invoke c =>
    intro hstep
    rw [← Except.ok.inj hstep]
    exact renameInv_sim hP hsim
  | other t =>
    intro hstep
    rw [← Except.ok.inj hstep]
    exact renameInv_sim hP hsim

theorem renameStep_inv (p : Pkg) (inv : Node) (invoked : Fn) (pairs : List (Node × Node))
    (cnt : Nat) (caller : Fn) (m0 : List (Nat × Nat)) (nid0 : Nat)
    (hcb : ∀ n ∈ caller.nodes, n.id < nid0)
    (hm0keys : ∀ k v, (k, v) ∈ m0 → k ∈ invoked.paramIds)
    (hparamop : ∀ i ∈ invoked.paramIds, ∀ n ∈ invoked.nodes, n.id = i → n.op = Op.param)
    (node : Node) (hnode : node ∈ invoked.nodes)
    (st st2 : CloneSt) (hP : RenameInv p caller m0 nid0 st)
    (hstep : renameStep inv invoked pairs cnt st node = Except.ok st2) :
    RenameInv p caller m0 nid0 st2 := by
  rw [renameStep] at hstep
  by_cases hparam : node.op = Op.param
  · rw [if_pos hparam] at hstep
    rw [← Except.ok.inj hstep]
    exact hP
  · rw [if_neg hparam] at hstep
    split at hstep
    · exact absurd hstep (by simp)
    · rename_i cloneId halook
      have hcid : nid0 ≤ cloneId ∧ cloneId < st.nid := by
        obtain ⟨h1, h2⟩ := hP.mval _ _ halook
        rcases h2 with h2 | h2
        · exact ⟨h2, h1⟩
        · exact absurd (hparamop _ (hm0keys _ _ h2) node hnode rfl) hparam
      by_cases hret : (node.id = invoked.retId && inv.name.isSome) = true
      · rw [if_pos hret] at hstep
        rw [← Except.ok.inj hstep]
        exact renameInv_sim hP (setName_sim st.f cloneId none)
      · rw [if_neg hret] at hstep
        have hsim : NodesSim st.f (match getInlinedNodeName node pairs with
            | some nm => setName st.f cloneId (some nm)
            | none => st.f) := by
          cases getInlinedNodeName node pairs with
          | some nm => exact setName_sim st.f cloneId (some nm)
          | none => exact nodesSim_refl st.f
        exact renameFinish_inv p invoked cnt caller m0 nid0 hcb node cloneId hcid.1
          st st2 hP _ hsim (by rw [halook]; rfl) hstep

theorem fn_name_unique {p : Pkg} (hnodup : (p.fns.map Fn.name).Nodup)
    {f g : Fn} (hf : f ∈ p.fns) (hg : g ∈ p.fns) (h : f.name = g.name) : f = g :=
  List.inj_on_of_nodup_map hnodup hf hg h

theorem renameInv_of_cloneInv {p : Pkg} {caller : Fn} {m0 : List (Nat × Nat)} {nid0 : Nat}
    {st : CloneSt} (hC : CloneInv p caller m0 nid0 st)
    (hcb : ∀ n ∈ caller.nodes, n.id < nid0) :
    RenameInv p caller m0 nid0 st := by
  obtain ⟨news, hsh, hnews⟩ := hC.shape
  refine ⟨hC.fname, hC.fforeign, hC.fparams, hC.nle, ?_, ?_, ?_, hC.bound, hC.obound,
    hC.nodup, hC.mval⟩
  · intro n hn
    refine ⟨n, ?_, rfl, rfl⟩
    rw [hsh]
    exact List.mem_append_left _ hn
  · intro n2 hn2 hlt
    rw [hsh] at hn2
    rcases List.mem_append.mp hn2 with hm | hm
    · exact ⟨n2, hm, rfl, rfl⟩
    · have := (hnews n2 hm).1
      omega
  · intro n2 hn2 hge
    rw [hsh] at hn2
    rcases List.mem_append.mp hn2 with hm | hm
    · have := hcb n2 hm
      omega
    · exact (hnews n2 hm).2

theorem inlineInvoke_spec (p : Pkg) (callerName : String) (invId cnt : Nat) (p2 : Pkg)
    (hwf : PkgWf p) (hok : inlineInvoke p callerName invId cnt = Except.ok p2) :
    PkgWf p2 ∧ fnSig p2 = fnSig p ∧ p.nextId ≤ p2.nextId ∧
    ∃ caller f4, findFn p callerName = some caller ∧
      (∃ inv, findNode caller.nodes invId = some inv) ∧
      p2.fns = p.fns.map (fun g => if g.name = caller.name then f4 else g) ∧
      f4.name = caller.name ∧
      (∀ n4 ∈ f4.nodes, n4.id ≠ invId) ∧
      (∀ n4 ∈ f4.nodes, p.nextId ≤ n4.id → isInlineableNode p n4 = false) ∧
      (∀ n4 ∈ f4.nodes, n4.id < p.nextId → ∃ n ∈ caller.nodes, n.id = n4.id ∧ n.op = n4.op) ∧
      (∀ n ∈ caller.nodes, n.id ≠ invId → ∃ n4 ∈ f4.nodes, n4.id = n.id ∧ n4.op = n.op) := by
  obtain ⟨hnames, hfns⟩ := hwf
  rw [inlineInvoke] at hok
  obtain ⟨caller, hce, hok⟩ := ibind_ok _ _ _ hok
  have hfindc : findFn p callerName = some caller := getOk_ok hce
  obtain ⟨hcmem, hcname⟩ := findFn_mem hfindc
  obtain ⟨hcnodup, hcbnd, hcparam⟩ := hfns caller hcmem
  obtain ⟨inv, hie, hok⟩ := ibind_ok _ _ _ hok
  have hfindi : findNode caller.nodes invId = some inv := getOk_ok hie
  obtain ⟨hinvmem, hinvid⟩ := findNode_mem hfindi
  obtain ⟨calleeName, hne, hok⟩ := ibind_ok _ _ _ hok
  have hiop : inv.op = Op.invoke calleeName := calleeOf_ok hne
  obtain ⟨invoked, hge, hok⟩ := ibind_ok _ _ _ hok
  have hfindg : findFn p calleeName = some invoked := getOk_ok hge
  obtain ⟨hgmem, hgname⟩ := findFn_mem hfindg
  obtain ⟨hgnodup, hgbnd, hgparam⟩ := hfns invoked hgmem
  obtain ⟨st1, hfold1, hok⟩ := ibind_ok _ _ _ hok
  have hm0v : ∀ k v, (k, v) ∈ invoked.paramIds.zip inv.operands → v < p.nextId := by
    intro k v hm
    exact (hcbnd inv hinvmem).2 v (List.of_mem_zip hm).2
  have hm0keys : ∀ k v, (k, v) ∈ invoked.paramIds.zip inv.operands → k ∈ invoked.paramIds := by
    intro k v hm
    exact (List.of_mem_zip hm).1
  have hcb : ∀ n ∈ caller.nodes, n.id < p.nextId := fun n hn => (hcbnd n hn).1
  have hstart : CloneInv p caller (invoked.paramIds.zip inv.operands) p.nextId
      ⟨caller, invoked.paramIds.zip inv.operands, p.nextId⟩ := by
    refine ⟨rfl, rfl, rfl, Nat.le_refl _, ⟨[], by simp, by simp⟩, hcb,
      (fun n hn o ho => (hcbnd n hn).2 o ho), hcnodup, ⟨[], by simp⟩, ?_⟩
    intro k v ha
    have hmem := alook_mem ha
    exact ⟨hm0v k v hmem, Or.inr hmem⟩
  have hC1 := (foldlM_inv (cloneStep p inv)
    (CloneInv p caller (invoked.paramIds.zip inv.operands) p.nextId) (fun _ _ => True)
    (fun _ => trivial) (fun _ _ => trivial) (topoSort invoked)
    (fun x hx t t2 hP hs => ⟨cloneStep_inv p inv caller _ _ t t2 x hP hs, trivial⟩)
    _ st1 hstart hfold1).1
  have hR1 : RenameInv p caller (invoked.paramIds.zip inv.operands) p.nextId st1 :=
    renameInv_of_cloneInv hC1 hcb
  obtain ⟨params, hpe, hok⟩ := ibind_ok _ _ _ hok
  obtain ⟨args, hae, hok⟩ := ibind_ok _ _ _ hok
  obtain ⟨st2, hfold2, hok⟩ := ibind_ok _ _ _ hok
  have hparamop : ∀ i ∈ invoked.paramIds, ∀ n ∈ invoked.nodes, n.id = i → n.op = Op.param := by
    intro i hi n hn hid
    obtain ⟨n2, hn2, hid2, hop2⟩ := hgparam i hi
    have he : n2 = n := List.inj_on_of_nodup_map hgnodup hn2 hn (by rw [hid2, hid])
    rw [← he]
    exact hop2
  have hR2 : RenameInv p caller (invoked.paramIds.zip inv.operands) p.nextId st2 :=
    (foldlM_inv (renameStep inv invoked (params.zip args) cnt)
      (RenameInv p caller (invoked.paramIds.zip inv.operands) p.nextId) (fun _ _ => True)
      (fun _ => trivial) (fun _ _ => trivial) invoked.nodes
      (fun x hx t t2 hP hs =>
        ⟨renameStep_inv p inv invoked (params.zip args) cnt caller _ _ hcb hm0keys
          hparamop x hx t t2 hP hs, trivial⟩)
      _ st2 hR1 hfold2).1
  obtain ⟨retRepl, hre, hok⟩ := ibind_ok _ _ _ hok
  have hrr : alook st2.m invoked.retId = some retRepl := getOk_ok hre
  have hrrlt : retRepl < st2.nid := (hR2.mval _ _ hrr).1
  have hfinal :
      ({ fns := (setFn p (removeNode (replaceUsesWith st2.f inv retRepl) invId)).fns,
         nextId := st2.nid } : Pkg) = p2 := Except.ok.inj hok
  obtain rfl := hfinal
  set f4 : Fn := removeNode (replaceUsesWith st2.f inv retRepl) invId with hf4
  have hf4name : f4.name = caller.name := hR2.fname
  have hf4for : f4.isForeign = caller.isForeign := hR2.fforeign
  have hf4par : f4.paramIds = caller.paramIds := hR2.fparams
  have hp2fns : (setFn p f4).fns = p.fns.map (fun g => if g.name = caller.name then f4 else g) := by
    rw [setFn]
    simp only [hf4name]
  have hf4back : ∀ n4 ∈ f4.nodes, n4.id ≠ invId ∧
      ∃ n2 ∈ st2.f.nodes, n4.id = n2.id ∧ n4.op = n2.op ∧
        ∀ x ∈ n4.operands, x = retRepl ∨ x ∈ n2.operands := by
    intro n4 hn4
    obtain ⟨hn3, hne⟩ := (removeNode_mem _ _ _).mp hn4
    exact ⟨hne, replaceUses_mem_back _ _ _ n4 hn3⟩
  have hf4fwd : ∀ n2 ∈ st2.f.nodes, n2.id ≠ invId →
      ∃ n4 ∈ f4.nodes, n4.id = n2.id ∧ n4.op = n2.op := by
    intro n2 hn2 hne
    obtain ⟨n3, hn3, hid3, hop3⟩ := replaceUses_mem_fwd _ inv retRepl n2 hn2
    refine ⟨n3, (removeNode_mem _ _ _).mpr ⟨hn3, by rw [hid3]; exact hne⟩, hid3, hop3⟩
  have hMain4 : ∀ n4 ∈ f4.nodes, n4.id ≠ invId := fun n4 hn4 => (hf4back n4 hn4).1
  have hMain5 : ∀ n4 ∈ f4.nodes, p.nextId ≤ n4.id → isInlineableNode p n4 = false := by
    intro n4 hn4 hge
    obtain ⟨_, n2, hn2, hid, hop, _⟩ := hf4back n4 hn4
    rw [isInlineableNode_op p n2 n4 hop]
    exact hR2.clean n2 hn2 (by rw [← hid]; exact hge)
  have hMain6 : ∀ n4 ∈ f4.nodes, n4.id < p.nextId →
      ∃ n ∈ caller.nodes, n.id = n4.id ∧ n.op = n4.op := by
    intro n4 hn4 hlt
    obtain ⟨_, n2, hn2, hid, hop, _⟩ := hf4back n4 hn4
    obtain ⟨n, hn, hidn, hopn⟩ := hR2.back n2 hn2 (by rw [← hid]; exact hlt)
    exact ⟨n, hn, by rw [hidn, ← hid], by rw [hopn, ← hop]⟩
  have hMain7 : ∀ n ∈ caller.nodes, n.id ≠ invId →
      ∃ n4 ∈ f4.nodes, n4.id = n.id ∧ n4.op = n.op := by
    intro n hn hne
    obtain ⟨n2, hn2, hid2, hop2⟩ := hR2.fwd n hn
    obtain ⟨n4, hn4, hid4, hop4⟩ := hf4fwd n2 hn2 (by rw [hid2]; exact hne)
    exact ⟨n4, hn4, hid4.trans hid2, hop4.trans hop2⟩
  have hf4nodup : (f4.nodes.map Node.id).Nodup := by
    rw [hf4, removeNode]
    simp only
    refine List.Nodup.sublist (List.Sublist.map Node.id (List.filter_sublist _)) ?_
    rw [replaceUses_ids]
    exact hR2.nodup
  have hf4bnd : ∀ n4 ∈ f4.nodes, n4.id < st2.nid ∧ ∀ o ∈ n4.operands, o < st2.nid := by
    intro n4 hn4
    obtain ⟨_, n2, hn2, hid, hop, hops⟩ := hf4back n4 hn4
    refine ⟨by rw [hid]; exact hR2.bound n2 hn2, ?_⟩
    intro o ho
    rcases hops o ho with rfl | hmem
    · exact hrrlt
    · exact hR2.obound n2 hn2 o hmem
  have hsig : fnSig ({ fns := (setFn p f4).fns, nextId := st2.nid } : Pkg) = fnSig p := by
    rw [fnSig, fnSig]
    show ((setFn p f4).fns.map fun f => (f.name, f.isForeign)) = _
    rw [hp2fns, List.map_map]
    apply List.map_congr_left
    intro g hg
    simp only [Function.comp]
    by_cases hgn : g.name = caller.name
    · rw [if_pos hgn]
      have : g = caller := fn_name_unique hnames hg hcmem hgn
      rw [this, hf4name, hf4for]
    · rw [if_neg hgn]
  refine ⟨?_, hsig, hR2.nle, caller, f4, hfindc, ⟨inv, hfindi⟩, hp2fns, hf4name, hMain4,
    hMain5, hMain6, hMain7⟩
  constructor
  · show (((setFn p f4).fns).map Fn.name).Nodup
    rw [hp2fns, List.map_map]
    have : (p.fns.map (Fn.name ∘ fun g => if g.name = caller.name then f4 else g)) =
        p.fns.map Fn.name := by
      apply List.map_congr_left
      intro g hg
      simp only [Function.comp]
      by_cases hgn : g.name = caller.name
      · rw [if_pos hgn, hf4name, hgn]
      · rw [if_neg hgn]
    rw [this]
    exact hnames
  · intro g2 hg2
    show (g2.nodes.map Node.id).Nodup ∧
      (∀ n ∈ g2.nodes, n.id < st2.nid ∧ ∀ o ∈ n.operands, o < st2.nid) ∧
      (∀ i ∈ g2.paramIds, ∃ n ∈ g2.nodes, n.id = i ∧ n.op = Op.param)
    rw [hp2fns] at hg2
    obtain ⟨g, hg, hrepl⟩ := List.mem_map.mp hg2
    by_cases hgn : g.name = caller.name
    · rw [if_pos hgn] at hrepl
      rw [← hrepl]
      have hgc : g = caller := fn_name_unique hnames hg hcmem hgn
      refine ⟨hf4nodup, hf4bnd, ?_⟩
      intro i hi
      rw [hf4par] at hi
      obtain ⟨n, hn, hid, hop⟩ := hcparam i hi
      have hnne : n.id ≠ invId := by
        intro he
        have : n = inv := List.inj_on_of_nodup_map hcnodup hn hinvmem (by rw [he, hinvid])
        rw [this, hiop] at hop
        exact absurd hop (by simp)
      obtain ⟨n4, hn4, hid4, hop4⟩ := hMain7 n hn hnne
      exact ⟨n4, hn4, by rw [hid4, hid], by rw [hop4, hop]⟩
    · rw [if_neg hgn] at hrepl
      rw [← hrepl]
      obtain ⟨h1, h2, h3⟩ := hfns g hg
      refine ⟨h1, ?_, h3⟩
      intro n hn
      obtain ⟨hb1, hb2⟩ := h2 n hn
      have hle := hR2.nle
      exact ⟨by omega, fun o ho => by have := hb2 o ho; omega⟩

theorem stepRel_refl (p : Pkg) : StepRel p p :=
  ⟨rfl, Nat.le_refl _,
    fun f hf => ⟨f, hf, rfl, fun n hn _ => ⟨n, hn, rfl, rfl⟩⟩,
    fun f hf => ⟨f, hf, rfl, fun n hn _ => ⟨n, hn, rfl, rfl⟩⟩⟩

theorem stepRel_trans {p q r : Pkg} (h1 : StepRel p q) (h2 : StepRel q r) : StepRel p r := by
  obtain ⟨hs1, hn1, hf1, hb1⟩ := h1
  obtain ⟨hs2, hn2, hf2, hb2⟩ := h2
  refine ⟨hs2.trans hs1, Nat.le_trans hn1 hn2, ?_, ?_⟩
  · intro f hf
    obtain ⟨f2, hf2m, hname2, hnodes2⟩ := hf1 f hf
    obtain ⟨f3, hf3m, hname3, hnodes3⟩ := hf2 f2 hf2m
    refine ⟨f3, hf3m, hname3.trans hname2, ?_⟩
    intro n hn hni
    obtain ⟨n2, hn2, hid2, hop2⟩ := hnodes2 n hn hni
    have hni2 : isInlineableNode q n2 = false := by
      rw [isInlineableNode_op q n n2 hop2, isInlineableNode_sig q p hs1 n]
      exact hni
    obtain ⟨n3, hn3, hid3, hop3⟩ := hnodes3 n2 hn2 hni2
    exact ⟨n3, hn3, hid3.trans hid2, hop3.trans hop2⟩
  · intro f3 hf3
    obtain ⟨f2, hf2m, hname2, hnodes2⟩ := hb2 f3 hf3
    obtain ⟨f, hfm, hname1, hnodes1⟩ := hb1 f2 hf2m
    refine ⟨f, hfm, hname1.trans hname2, ?_⟩
    intro n3 hn3 hlt
    obtain ⟨n2, hn2, hid2, hop2⟩ := hnodes2 n3 hn3 (by omega)
    obtain ⟨n, hn, hid1, hop1⟩ := hnodes1 n2 hn2 (by rw [hid2]; exact hlt)
    exact ⟨n, hn, by rw [hid1, hid2], by rw [hop1, hop2]⟩

theorem inlineInvoke_stepRel (p : Pkg) (callerName : String) (invId cnt : Nat) (p2 : Pkg)
    (hwf : PkgWf p) (hok : inlineInvoke p callerName invId cnt = Except.ok p2)
    (hinl : ∀ caller inv, findFn p callerName = some caller →
      findNode caller.nodes invId = some inv → isInlineableNode p inv = true) :
    StepRel p p2 := by
  obtain ⟨hwf2, hsig, hnle, caller, f4, hfindc, ⟨inv, hfindi⟩, hp2fns, hf4name,
    hM4, hM5, hM6, hM7⟩ := inlineInvoke_spec p callerName invId cnt p2 hwf hok
  obtain ⟨hcmem, hcname⟩ := findFn_mem hfindc
  obtain ⟨hinvmem, hinvid⟩ := findNode_mem hfindi
  have hinvinl : isInlineableNode p inv = true := hinl caller inv hfindc hfindi
  obtain ⟨hnames, hfns⟩ := hwf
  obtain ⟨hcnodup, _, _⟩ := hfns caller hcmem
  refine ⟨hsig, hnle, ?_, ?_⟩
  · intro f hf
    by_cases hfn : f.name = caller.name
    · have hfc : f = caller := fn_name_unique hnames hf hcmem hfn
      refine ⟨f4, ?_, by rw [hf4name, hfn], ?_⟩
      · rw [hp2fns]
        exact List.mem_map.mpr ⟨caller, hcmem, by rw [if_pos rfl]⟩
      · intro n hn hni
        subst hfc
        have hne : n.id ≠ invId := by
          intro he
          have : n = inv := List.inj_on_of_nodup_map hcnodup hn hinvmem (by rw [he, hinvid])
          rw [this, hinvinl] at hni
          exact absurd hni (by simp)
        exact hM7 n hn hne
    · refine ⟨f, ?_, rfl, fun n hn _ => ⟨n, hn, rfl, rfl⟩⟩
      rw [hp2fns]
      exact List.mem_map.mpr ⟨f, hf, by rw [if_neg hfn]⟩
  · intro f2 hf2
    rw [hp2fns] at hf2
    obtain ⟨g, hg, hrepl⟩ := List.mem_map.mp hf2
    by_cases hgn : g.name = caller.name
    · rw [if_pos hgn] at hrepl
      refine ⟨caller, hcmem, by rw [← hrepl, hf4name], ?_⟩
      intro n2 hn2 hlt
      rw [← hrepl] at hn2
      exact hM6 n2 hn2 hlt
    · rw [if_neg hgn] at hrepl
      refine ⟨g, hg, by rw [← hrepl], ?_⟩
      intro n2 hn2 _
      rw [← hrepl] at hn2
      exact ⟨n2, hn2, rfl, rfl⟩

theorem processSnap_spec (fname : String) :
    ∀ (snap : List Node) (st st2 : RunSt),
    PkgWf st.p →
    st.trace = List.range st.cnt →
    (∀ s ∈ snap, s.id < st.p.nextId) →
    (∀ f ∈ st.p.fns, f.name = fname → ∀ n ∈ f.nodes, isInlineableNode st.p n = true →
      ∃ s ∈ snap, s.id = n.id ∧ s.op = n.op) →
    (∀ s ∈ snap, ∀ f ∈ st.p.fns, f.name = fname → ∀ n ∈ f.nodes, n.id = s.id → n.op = s.op) →
    snap.foldlM (processNodeStep fname) st = Except.ok st2 →
    PkgWf st2.p ∧ st2.trace = List.range st2.cnt ∧ StepRel st.p st2.p ∧
    (∀ g ∈ st.p.fns, g.name ≠ fname → g ∈ st2.p.fns) ∧
    (∀ g2 ∈ st2.p.fns, g2.name ≠ fname → g2 ∈ st.p.fns) ∧
    Clean st2.p fname := by
  intro snap
  induction snap with
  | nil =>
    intro st st2 hwf htr _ hres _ hfold
    rw [List.foldlM_nil] at hfold
    obtain rfl : st = st2 := Except.ok.inj hfold
    refine ⟨hwf, htr, stepRel_refl _, fun g hg _ => hg, fun g hg _ => hg, ?_⟩
    intro f2 hf2 hname n2 hn2
    by_cases hI : isInlineableNode st.p n2 = true
    · obtain ⟨s, hs, _⟩ := hres f2 hf2 hname n2 hn2 hI
      exact absurd hs (List.not_mem_nil s)
    · simpa using hI
  | cons s rest ih =>
    intro st st2 hwf htr hsb hres hback hfold
    rw [List.foldlM_cons] at hfold
    obtain ⟨t, hstep, hrest⟩ := ibind_ok _ _ _ hfold
    rw [processNodeStep] at hstep
    have hskip : ∀ (hns : (Except.ok st : Except InlineErr RunSt) = Except.ok t)
        (hsI : isInlineableNode st.p s = false),
        PkgWf st2.p ∧ st2.trace = List.range st2.cnt ∧ StepRel st.p st2.p ∧
        (∀ g ∈ st.p.fns, g.name ≠ fname → g ∈ st2.p.fns) ∧
        (∀ g2 ∈ st2.p.fns, g2.name ≠ fname → g2 ∈ st.p.fns) ∧
        Clean st2.p fname := by
      intro hns hsI
      obtain rfl : st = t := Except.ok.inj hns
      refine ih st st2 hwf htr (fun x hx => hsb x (List.mem_cons_of_mem s hx)) ?_
        (fun x hx => hback x (List.mem_cons_of_mem s hx)) hrest
      intro f hf hname n hn hI
      obtain ⟨s2, hs2, hid2, hop2⟩ := hres f hf hname n hn hI
      rcases List.mem_cons.mp hs2 with rfl | hs2m
      · rw [← isInlineableNode_op st.p n s2 hop2, hsI] at hI
        exact absurd hI (by simp)
      · exact ⟨s2, hs2m, hid2, hop2⟩
    split at hstep
    · rename_i c hsop
      by_cases hin : isInlineable st.p c = true
      · rw [if_pos hin] at hstep
        obtain ⟨p2, hinvoke, hlast⟩ := ibind_ok _ _ _ hstep
        obtain rfl : (⟨p2, st.cnt + 1, true, st.trace ++ [st.cnt]⟩ : RunSt) = t :=
          Except.ok.inj hlast
        obtain ⟨hwf2, hsig, hnle, caller, f4, hfindc, ⟨inv, hfindi⟩, hp2fns, hf4name,
          hM4, hM5, hM6, hM7⟩ := inlineInvoke_spec st.p fname s.id st.cnt p2 hwf hinvoke
        obtain ⟨hcmem, hcname⟩ := findFn_mem hfindc
        obtain ⟨hinvmem, hinvid⟩ := findNode_mem hfindi
        have hinvinl : isInlineableNode st.p inv = true := by
          have hiop : inv.op = s.op :=
            hback s (List.mem_cons_self s rest) caller hcmem hcname inv hinvmem hinvid
          rw [isInlineableNode, hiop, hsop]
          exact hin
        have hrel : StepRel st.p p2 := by
          apply inlineInvoke_stepRel st.p fname s.id st.cnt p2 hwf hinvoke
          intro caller2 inv2 hfc2 hfi2
          have hc2 : caller2 = caller := by
            rw [hfindc] at hfc2
            exact (Option.some.inj hfc2).symm
          rw [hc2] at hfi2
          have hi2 : inv2 = inv := by
            rw [hfindi] at hfi2
            exact (Option.some.inj hfi2).symm
          rw [hi2]
          exact hinvinl
        have hnamed : ∀ f2 ∈ p2.fns, f2.name = fname → f2 = f4 := by
          intro f2 hf2 hname2
          rw [hp2fns] at hf2
          obtain ⟨g, hg, hrepl⟩ := List.mem_map.mp hf2
          by_cases hgn : g.name = caller.name
          · rw [if_pos hgn] at hrepl
            exact hrepl.symm
          · rw [if_neg hgn] at hrepl
            rw [← hrepl] at hname2
            exact absurd (hname2.trans hcname.symm) hgn
        have ihres : ∀ f2 ∈ p2.fns, f2.name = fname → ∀ n2 ∈ f2.nodes,
            isInlineableNode p2 n2 = true → ∃ s2 ∈ rest, s2.id = n2.id ∧ s2.op = n2.op := by
          intro f2 hf2 hname2 n2 hn2 hI2
          have hf2e : f2 = f4 := hnamed f2 hf2 hname2
          rw [hf2e] at hn2
          have hIst : isInlineableNode st.p n2 = true := by
            rw [isInlineableNode_sig st.p p2 hsig.symm n2]
            exact hI2
          have hlt : n2.id < st.p.nextId := by
            by_cases hge : st.p.nextId ≤ n2.id
            · rw [hM5 n2 hn2 hge] at hIst
              exact absurd hIst (by simp)
            · omega
          obtain ⟨n, hn, hid, hop⟩ := hM6 n2 hn2 hlt
          have hIn : isInlineableNode st.p n = true := by
            rw [isInlineableNode_op st.p n2 n hop]
            exact hIst
          obtain ⟨s2, hs2, hid2, hop2⟩ := hres caller hcmem hcname n hn hIn
          rcases List.mem_cons.mp hs2 with rfl | hs2m
          · exfalso
            exact hM4 n2 hn2 (by rw [← hid, ← hid2])
          · exact ⟨s2, hs2m, by rw [hid2, hid], by rw [hop2, hop]⟩
        have ihback : ∀ s2 ∈ rest, ∀ f2 ∈ p2.fns, f2.name = fname → ∀ n2 ∈ f2.nodes,
            n2.id = s2.id → n2.op = s2.op := by
          intro s2 hs2 f2 hf2 hname2 n2 hn2 hid2
          have hf2e : f2 = f4 := hnamed f2 hf2 hname2
          rw [hf2e] at hn2
          have hlt : n2.id < st.p.nextId := by
            rw [hid2]
            exact hsb s2 (List.mem_cons_of_mem s hs2)
          obtain ⟨n, hn, hid, hop⟩ := hM6 n2 hn2 hlt
          have := hback s2 (List.mem_cons_of_mem s hs2) caller hcmem hcname n hn
            (by rw [hid, hid2])
          rw [← hop]
          exact this
        have ihsb : ∀ s2 ∈ rest, s2.id < p2.nextId := by
          intro s2 hs2
          have := hsb s2 (List.mem_cons_of_mem s hs2)
          omega
        have ihtr : (st.trace ++ [st.cnt]) = List.range (st.cnt + 1) := by
          rw [htr, List.range_succ]
        obtain ⟨c1, c2, c3, c4, c5, c6⟩ := ih ⟨p2, st.cnt + 1, true, st.trace ++ [st.cnt]⟩
          st2 hwf2 ihtr ihsb ihres ihback hrest
        refine ⟨c1, c2, stepRel_trans hrel c3, ?_, ?_, c6⟩
        · intro g hg hgn
          apply c4
          · rw [hp2fns]
            refine List.mem_map.mpr ⟨g, hg, ?_⟩
            rw [if_neg (by rw [hcname]; exact hgn)]
          · exact hgn
        · intro g2 hg2 hgn
          have hg2p2 := c5 g2 hg2 hgn
          rw [hp2fns] at hg2p2
          obtain ⟨g, hg, hrepl⟩ := List.mem_map.mp hg2p2
          by_cases hgname : g.name = caller.name
          · rw [if_pos hgname] at hrepl
            exfalso
            apply hgn
            rw [← hrepl, hf4name, hcname]
          · rw [if_neg hgname] at hrepl
            rw [← hrepl]
            exact hg
      · rw [if_neg hin] at hstep
        apply hskip hstep
        rw [isInlineableNode, hsop]
        simpa using hin
    · rename_i hne
      have hsI : isInlineableNode st.p s = false := by
        rw [isInlineableNode]
        cases hso : s.op with
        | invoke c => exact ((hne c hso).elim)
        | param => rfl
        | literal v => rfl
        | unOp tg => rfl
        | binOp tg => rfl
        | cover l => rfl
        | assertNode msg l => rfl
        | other tg => rfl
      exact hskip hstep hsI

theorem processFn_spec (st st2 : RunSt) (fname : String)
    (hwf : PkgWf st.p) (htr : st.trace = List.range st.cnt)
    (hok : processFn st fname = Except.ok st2) :
    PkgWf st2.p ∧ st2.trace = List.range st2.cnt ∧ StepRel st.p st2.p ∧
    (∀ g ∈ st.p.fns, g.name ≠ fname → g ∈ st2.p.fns) ∧
    (∀ g2 ∈ st2.p.fns, g2.name ≠ fname → g2 ∈ st.p.fns) ∧
    Clean st2.p fname := by
  rw [processFn] at hok
  revert hok
  cases hf : findFn st.p fname with
  | none =>
    intro hok
    obtain rfl : st = st2 := Except.ok.inj hok
    refine ⟨hwf, htr, stepRel_refl _, fun g hg _ => hg, fun g hg _ => hg, ?_⟩
    intro f hfm hname
    exfalso
    have := List.find?_eq_none.mp hf f hfm
    simp only [decide_eq_true_eq] at this
    exact this hname
  | some f =>
    intro hok
    obtain ⟨hfmem, hfname⟩ := findFn_mem hf
    obtain ⟨hnames, hfns⟩ := hwf
    obtain ⟨hnodup, hbnd, _⟩ := hfns f hfmem
    refine processSnap_spec fname f.nodes st st2 ⟨hnames, hfns⟩ htr ?_ ?_ ?_ hok
    · intro x hx
      exact (hbnd x hx).1
    · intro f2 hf2 hname2 n hn _
      have hf2e : f2 = f := fn_name_unique hnames hf2 hfmem (hname2.trans hfname.symm)
      rw [hf2e] at hn
      exact ⟨n, hn, rfl, rfl⟩
    · intro s hs f2 hf2 hname2 n hn hid
      have hf2e : f2 = f := fn_name_unique hnames hf2 hfmem (hname2.trans hfname.symm)
      rw [hf2e] at hn
      have : n = s := List.inj_on_of_nodup_map hnodup hn hs hid
      rw [this]

theorem runLoop_spec : ∀ (names : List String) (st st2 : RunSt),
    PkgWf st.p → st.trace = List.range st.cnt →
    names.foldlM processFn st = Except.ok st2 →
    PkgWf st2.p ∧ st2.trace = List.range st2.cnt ∧ StepRel st.p st2.p ∧
    (∀ nm, Clean st.p nm → Clean st2.p nm) ∧
    (∀ nm ∈ names, Clean st2.p nm) := by
  intro names
  induction names with
  | nil =>
    intro st st2 hwf htr hfold
    rw [List.foldlM_nil] at hfold
    obtain rfl : st = st2 := Except.ok.inj hfold
    exact ⟨hwf, htr, stepRel_refl _, fun _ h => h, fun nm hnm => absurd hnm (List.not_mem_nil nm)⟩
  | cons nm rest ih =>
    intro st st2 hwf htr hfold
    rw [List.foldlM_cons] at hfold
    obtain ⟨t, hstep, hrest⟩ := ibind_ok _ _ _ hfold
    obtain ⟨hwt, htt, hrel1, hothers, hothers2, hclean1⟩ := processFn_spec st t nm hwf htr hstep
    obtain ⟨hw2, ht2, hrel2, hpres2, hall2⟩ := ih t st2 hwt htt hrest
    have hpres1 : ∀ nm2, Clean st.p nm2 → Clean t.p nm2 := by
      intro nm2 hcl
      by_cases he : nm2 = nm
      · rw [he]
        exact hclean1
      · intro f2 hf2 hname2 n2 hn2
        have hf2in : f2 ∈ st.p.fns := hothers2 f2 hf2 (by rw [hname2]; exact he)
        have hfalse := hcl f2 hf2in hname2 n2 hn2
        rw [isInlineableNode_sig t.p st.p hrel1.1 n2]
        exact hfalse
    refine ⟨hw2, ht2, stepRel_trans hrel1 hrel2, ?_, ?_⟩
    · intro nm2 hcl
      exact hpres2 nm2 (hpres1 nm2 hcl)
    · intro nm2 hnm2
      rcases List.mem_cons.mp hnm2 with rfl | hm
      · exact hpres2 nm2 (hclean1)
      · exact hall2 nm2 hm

/-- Claim C2, amended: after a successful RunInternal over a well-formed
package whose functions all appear in the processing order, (1) every
remaining invoke node targets a function with foreign-function metadata,
(2) every node that is not an inlineable invoke — in particular every
foreign invoke — survives with its id and op (though its operands may be
rewired to inlined replacements), and (3) no inlineable invoke's id
survives in its function: a call site is inlined iff its target has no
foreign-function metadata. -/
theorem inliningPass_contract (p : Pkg) (order : List String) (p2 : Pkg) (changed : Bool)
    (hwf : PkgWf p) (horder : ∀ f ∈ p.fns, f.name ∈ order)
    (hok : runInternal p order = Except.ok (p2, changed)) :
    (∀ f ∈ p2.fns, ∀ n ∈ f.nodes, isInlineableNode p2 n = false) ∧
    (∀ f ∈ p.fns, ∀ n ∈ f.nodes, isInlineableNode p n = false →
      ∃ f2 ∈ p2.fns, f2.name = f.name ∧ ∃ n2 ∈ f2.nodes, n2.id = n.id ∧ n2.op = n.op) ∧
    (∀ f ∈ p.fns, ∀ n ∈ f.nodes, isInlineableNode p n = true →
      ∀ f2 ∈ p2.fns, f2.name = f.name → ∀ n2 ∈ f2.nodes, n2.id ≠ n.id) := by
  rw [runInternal] at hok
  revert hok
  cases hrun : runInternalT p order with
  | error e =>
    intro hok
    exact absurd hok (by simp [Except.map])
  | ok st2 =>
    intro hok
    have hpair : (st2.p, st2.changed) = (p2, changed) := by
      have : Except.ok (st2.p, st2.changed) = Except.ok (p2, changed) := hok
      exact Except.ok.inj this
    have hp2 : st2.p = p2 := congrArg Prod.fst hpair
    rw [runInternalT] at hrun
    obtain ⟨hw2, _, hrel, _, hall⟩ := runLoop_spec order ⟨p, 0, false, []⟩ st2 hwf rfl hrun
    rw [hp2] at hw2 hrel hall
    obtain ⟨hsig, hnle, hfwd, hbackw⟩ := hrel
    have hclean : ∀ f ∈ p2.fns, ∀ n ∈ f.nodes, isInlineableNode p2 n = false := by
      intro f2 hf2 n2 hn2
      obtain ⟨f0, hf0, hname0, _⟩ := hbackw f2 hf2
      have : f2.name ∈ order := by
        rw [← hname0]
        exact horder f0 hf0
      exact hall f2.name this f2 hf2 rfl n2 hn2
    refine ⟨hclean, ?_, ?_⟩
    · intro f hf n hn hni
      obtain ⟨f2, hf2, hname2, hnodes⟩ := hfwd f hf
      obtain ⟨n2, hn2, hid2, hop2⟩ := hnodes n hn hni
      exact ⟨f2, hf2, hname2, n2, hn2, hid2, hop2⟩
    · intro f hf n hn hni f2 hf2 hname2 n2 hn2 hideq
      obtain ⟨hnames, hfns⟩ := hwf
      obtain ⟨hnodup, hbnd, _⟩ := hfns f hf
      obtain ⟨f0, hf0, hname0, hnodes0⟩ := hbackw f2 hf2
      have hf0e : f0 = f := fn_name_unique hnames hf0 hf (hname0.trans hname2)
      rw [hf0e] at hnodes0
      obtain ⟨n0, hn0, hid0, hop0⟩ := hnodes0 n2 (hn2) (by rw [hideq]; exact (hbnd n hn).1)
      have hn0e : n0 = n := List.inj_on_of_nodup_map hnodup hn0 hn (by rw [hid0, hideq])
      have hIn2 : isInlineableNode p2 n2 = true := by
        rw [isInlineableNode_op p2 n0 n2 hop0.symm, isInlineableNode_sig p2 p hsig n0, hn0e]
        exact hni
      rw [hclean f2 hf2 n2 hn2] at hIn2
      exact absurd hIn2 (by simp)

/-- Claim C2 counterexample to "preserved unchanged": the foreign invoke of
h survives in id and op, but its operand list is rewritten from the inlined
invoke (id 6) to the clone (id 8). -/
theorem inliningPass_preserved_counterexample :
    runInternal ipPkg ipOrder = Except.ok (ipPkgOut, true) ∧
    (∃ n ∈ ipFFn.nodes, n.id = 7 ∧ n.op = Op.invoke "h" ∧ n.operands = [6]) ∧
    (∀ f2 ∈ ipPkgOut.fns, f2.name = "f" → ∀ n2 ∈ f2.nodes, n2.id = 7 → n2.operands ≠ [6]) := by
  refine ⟨by decide, by decide, by decide⟩

/-- Claim C2 witness: the amended contract applied to the concrete
three-function package. -/
theorem inliningPass_contract_witness :
    PkgWf ipPkg ∧ (∀ f ∈ ipPkg.fns, f.name ∈ ipOrder) ∧
    ((∀ f ∈ ipPkgOut.fns, ∀ n ∈ f.nodes, isInlineableNode ipPkgOut n = false) ∧
      (∀ f ∈ ipPkg.fns, ∀ n ∈ f.nodes, isInlineableNode ipPkg n = false →
        ∃ f2 ∈ ipPkgOut.fns, f2.name = f.name ∧ ∃ n2 ∈ f2.nodes, n2.id = n.id ∧ n2.op = n.op) ∧
      (∀ f ∈ ipPkg.fns, ∀ n ∈ f.nodes, isInlineableNode ipPkg n = true →
        ∀ f2 ∈ ipPkgOut.fns, f2.name = f.name → ∀ n2 ∈ f2.nodes, n2.id ≠ n.id)) :=
  ⟨by rw [PkgWf]; decide, by decide,
    inliningPass_contract ipPkg ipOrder ipPkgOut true (by rw [PkgWf]; decide) (by decide)
      (by decide)⟩

theorem renameFinish_cases (invoked : Fn) (cnt : Nat) (st : CloneSt) (cloneId : Nat)
    (node : Node) (f1 : Fn) (st2 : CloneSt)
    (hstep : renameFinish invoked cnt st cloneId node f1 = Except.ok st2) :
    (st2 = ⟨f1, st.m, st.nid⟩ ∧ (∀ lab, node.op ≠ Op.cover lab) ∧
      (∀ msg lab, node.op ≠ Op.assertNode msg (some lab))) ∨
    (∃ newNode clone, clone ∈ f1.nodes ∧ clone.id = cloneId ∧ newNode.id = st.nid ∧
      ((∃ lab, node.op = Op.cover lab ∧
          newNode.op = Op.cover (getPrefixedLabel st.f.name cnt invoked.name lab)) ∨
        (∃ msg lab, node.op = Op.assertNode msg (some lab) ∧
          newNode.op = Op.assertNode msg (some (getPrefixedLabel st.f.name cnt invoked.name lab)))) ∧
      st2 = ⟨rebuild f1 newNode clone cloneId st.nid, aset st.m node.id st.nid, st.nid + 1⟩) := by
  rw [renameFinish] at hstep
  revert hstep
  cases hop : node.op with
  | cover label =>
    intro hstep
    cases hfind : findNode f1.nodes cloneId with
    | none =>
      rw [hfind] at hstep
      exact absurd hstep (by simp)
    | some clone =>
      rw [hfind] at hstep
      obtain ⟨hclonemem, hcloneid⟩ := findNode_mem hfind
      exact Or.inr ⟨_, clone, hclonemem, hcloneid, rfl,
        Or.inl ⟨label, rfl, rfl⟩, (Except.ok.inj hstep).symm⟩
  | assertNode message lbl =>
    intro hstep
    cases lbl with
    | none =>
      refine Or.inl ⟨(Except.ok.inj hstep).symm, ?_, ?_⟩
      · intro lab hco
        exact Op.noConfusion hco
      · intro msg lab hco
        injection hco with h1 h2
        exact Option.noConfusion h2
    | some label =>
      cases hfind : findNode f1.nodes cloneId with
      | none =>
        rw [hfind] at hstep
        exact absurd hstep (by simp)
      | some clone =>
        rw [hfind] at hstep
        obtain ⟨hclonemem, hcloneid⟩ := findNode_mem hfind
        exact Or.inr ⟨_, clone, hclonemem, hcloneid, rfl,
          Or.inr ⟨message, label, rfl, rfl⟩, (Except.ok.inj hstep).symm⟩
  | param =>
    intro hstep
    refine Or.inl ⟨(Except.ok.inj hstep).symm, ?_, ?_⟩
    · intro lab hco
      exact Op.noConfusion hco
    · intro msg lab hco
      exact Op.noConfusion hco
  | literal v =>
    intro hstep
    refine Or.inl ⟨(Except.ok.inj hstep).symm, ?_, ?_⟩
    · intro lab hco
      exact Op.noConfusion hco
    · intro msg lab hco
      exact Op.noConfusion hco
  | unOp t =>
    intro hstep
    refine Or.inl ⟨(Except.ok.inj hstep).symm, ?_, ?_⟩
    · intro lab hco
      exact Op.noConfusion hco
    · intro msg lab hco
      exact Op.noConfusion hco
  | binOp t =>
    intro hstep
    refine Or.inl ⟨(Except.ok.inj hstep).symm, ?_, ?_⟩
    · intro lab hco
      exact Op.noConfusion hco
    · intro msg lab hco
      exact Op.noConfusion hco
  | invoke c =>
    intro hstep
    refine Or.inl ⟨(Except.ok.inj hstep).symm, ?_, ?_⟩
    · intro lab hco
      exact Op.noConfusion hco
    · intro msg lab hco
      exact Op.noConfusion hco
  | other t =>
    intro hstep
    refine Or.inl ⟨(Except.ok.inj hstep).symm, ?_, ?_⟩
    · intro lab hco
      exact Op.noConfusion hco
    · intro msg lab hco
      exact Op.noConfusion hco

theorem renameStep_cases (inv : Node) (invoked : Fn) (pairs : List (Node × Node))
    (cnt : Nat) (st st2 : CloneSt) (node : Node)
    (hstep : renameStep inv invoked pairs cnt st node = Except.ok st2) :
    (∃ g, NodesSim st.f g ∧ st2 = ⟨g, st.m, st.nid⟩) ∨
    (∃ f1 newNode clone cloneId, NodesSim st.f f1 ∧
      alook st.m node.id = some cloneId ∧ clone ∈ f1.nodes ∧ clone.id = cloneId ∧
      newNode.id = st.nid ∧
      st2 = ⟨rebuild f1 newNode clone cloneId st.nid, aset st.m node.id st.nid, st.nid + 1⟩) := by
  rw [renameStep] at hstep
  by_cases hparam : node.op = Op.param
  · rw [if_pos hparam] at hstep
    exact Or.inl ⟨st.f, nodesSim_refl st.f, (Except.ok.inj hstep).symm⟩
  · rw [if_neg hparam] at hstep
    split at hstep
    · exact absurd hstep (by simp)
    · rename_i cloneId halook
      by_cases hret : (node.id = invoked.retId && inv.name.isSome) = true
      · rw [if_pos hret] at hstep
        exact Or.inl ⟨setName st.f cloneId none, setName_sim st.f cloneId none,
          (Except.ok.inj hstep).symm⟩
      · rw [if_neg hret] at hstep
        have hsim : NodesSim st.f (match getInlinedNodeName node pairs with
            | some nm => setName st.f cloneId (some nm)
            | none => st.f) := by
          cases getInlinedNodeName node pairs with
          | some nm => exact setName_sim st.f cloneId (some nm)
          | none => exact nodesSim_refl st.f
        rcases renameFinish_cases invoked cnt st cloneId node _ st2 hstep with
          ⟨he, _, _⟩ | ⟨newNode, clone, hclonemem, hcloneid, hnewid, _, he⟩
        · exact Or.inl ⟨_, hsim, he⟩
        · exact Or.inr ⟨_, newNode, clone, cloneId, hsim, halook, hclonemem, hcloneid,
            hnewid, he⟩

theorem protected_mono (target : Op) (key nid0 : Nat)
    (p : Pkg) (caller : Fn) (m0 : List (Nat × Nat))
    (inv : Node) (invoked : Fn) (pairs : List (Node × Node)) (cnt : Nat)
    (node : Node) (hne : node.id ≠ key)
    (st st2 : CloneSt) (hP : RenameInv p caller m0 nid0 st)
    (hprot : Protected target key nid0 st)
    (hstep : renameStep inv invoked pairs cnt st node = Except.ok st2) :
    Protected target key nid0 st2 := by
  obtain ⟨cid, hcidl, hcid0, hcidlt, huniq, n2, hn2, hn2id, hn2op⟩ := hprot
  rcases renameStep_cases inv invoked pairs cnt st st2 node hstep with
    ⟨g, hsim, rfl⟩ | ⟨f1, newNode, clone, cloneId, hsim, halook, hclonemem, hcloneid, hnewid, rfl⟩
  · obtain ⟨_, hfwd, _, _, _, _⟩ := hsim
    obtain ⟨n3, hn3, hid3, hop3, _⟩ := hfwd n2 hn2
    exact ⟨cid, hcidl, hcid0, hcidlt, huniq, n3, hn3, hid3.trans hn2id, hop3.trans hn2op⟩
  · have hclne : cloneId ≠ cid := by
      intro he
      exact hne (huniq node.id cloneId halook he)
    obtain ⟨_, hfwd, _, _, _, _⟩ := hsim
    obtain ⟨n3, hn3, hid3, hop3, _⟩ := hfwd n2 hn2
    obtain ⟨n4, hn4, hid4, hop4⟩ := rebuild_fwd f1 newNode clone cloneId st.nid n3 hn3
      (by rw [hid3, hn2id]; exact fun h => hclne h.symm)
    refine ⟨cid, ?_, hcid0, Nat.lt_succ_of_lt hcidlt, ?_, n4, hn4,
      by rw [hid4, hid3, hn2id], by rw [hop4, hop3, hn2op]⟩
    · rw [alook_aset, if_neg (fun h => hne h.symm)]
      exact hcidl
    · intro k v ha hv
      rw [alook_aset] at ha
      by_cases hk : k = node.id
      · rw [if_pos hk] at ha
        cases hm : alook st.m node.id with
        | none => rw [hm] at ha; exact absurd ha (by simp)
        | some w =>
          rw [hm] at ha
          have : st.nid = v := by simpa using ha
          rw [← this] at hv
          omega
      · rw [if_neg hk] at ha
        exact huniq k v ha hv

theorem renameStep_protect (p : Pkg) (caller : Fn) (m0 : List (Nat × Nat)) (nid0 : Nat)
    (inv : Node) (invoked : Fn) (pairs : List (Node × Node)) (cnt : Nat)
    (nd : Node) (target : Op)
    (hcase : (∃ lab, nd.op = Op.cover lab ∧
        target = Op.cover (getPrefixedLabel caller.name cnt invoked.name lab)) ∨
      (∃ msg lab, nd.op = Op.assertNode msg (some lab) ∧
        target = Op.assertNode msg (some (getPrefixedLabel caller.name cnt invoked.name lab))))
    (hnotex : (nd.id = invoked.retId && inv.name.isSome) = false)
    (st st2 : CloneSt) (hP : RenameInv p caller m0 nid0 st)
    (hstep : renameStep inv invoked pairs cnt st nd = Except.ok st2) :
    Protected target nd.id nid0 st2 := by
  have hparam : ¬nd.op = Op.param := by
    rcases hcase with ⟨lab, hop, _⟩ | ⟨msg, lab, hop, _⟩ <;>
      · intro h
        rw [hop] at h
        exact Op.noConfusion h
  rw [renameStep] at hstep
  rw [if_neg hparam] at hstep
  split at hstep
  · exact absurd hstep (by simp)
  · rename_i cloneId halook
    rw [if_neg (by rw [hnotex]; simp)] at hstep
    have hclonelt : cloneId < st.nid := (hP.mval _ _ halook).1
    rcases renameFinish_cases invoked cnt st cloneId nd _ st2 hstep with
      ⟨_, hnc, hna⟩ | ⟨newNode, clone, hclonemem, hcloneid, hnewid, hops, he⟩
    · exfalso
      rcases hcase with ⟨lab, hop, _⟩ | ⟨msg, lab, hop, _⟩
      · exact hnc lab hop
      · exact hna msg lab hop
    · have hnop : newNode.op = target := by
        rcases hops with ⟨lab, hopnd, hopnew⟩ | ⟨msg, lab, hopnd, hopnew⟩ <;>
          rcases hcase with ⟨lab2, hop2, htgt⟩ | ⟨msg2, lab2, hop2, htgt⟩
        · rw [hop2] at hopnd
          injection hopnd with hl
          rw [hopnew, htgt, hl, hP.fname]
        · rw [hop2] at hopnd
          exact Op.noConfusion hopnd
        · rw [hop2] at hopnd
          exact Op.noConfusion hopnd
        · rw [hop2] at hopnd
          injection hopnd with hm hl
          have hl2 : lab2 = lab := Option.some.inj hl
          rw [hopnew, htgt, hm, hl2, hP.fname]
      rw [he]
      refine ⟨st.nid, ?_, hP.nle, Nat.lt_succ_self _, ?_, ?_⟩
      · show alook (aset st.m nd.id st.nid) nd.id = some st.nid
        rw [alook_aset, if_pos rfl, halook]
        rfl
      · intro k v ha hv
        show k = nd.id
        rw [alook_aset] at ha
        by_cases hk : k = nd.id
        · exact hk
        · rw [if_neg hk] at ha
          have := (hP.mval k v ha).1
          omega
      · obtain ⟨n4, hn4, hid4, hop4⟩ := rebuild_fwd_new _ newNode clone cloneId st.nid
          (by rw [hnewid]; omega)
        exact ⟨n4, hn4, by rw [hid4, hnewid], by rw [hop4, hnop]⟩

theorem findFn_map_replace (cn : String) (f4 : Fn) (hname : f4.name = cn) :
    ∀ (l : List Fn), (l.find? (fun f => f.name = cn)).isSome = true →
      (l.map (fun g => if g.name = cn then f4 else g)).find? (fun f => f.name = cn) = some f4 := by
  intro l
  induction l with
  | nil =>
    intro h
    exact absurd h (by simp)
  | cons g rest ih =>
    intro h
    by_cases hg : g.name = cn
    · rw [List.map_cons, if_pos hg]
      rw [List.find?_cons_of_pos _ (by simpa using hname)]
    · rw [List.map_cons, if_neg hg]
      rw [List.find?_cons_of_neg _ (by simpa using hg)]
      apply ih
      rw [List.find?_cons_of_neg _ (by simpa using hg)] at h
      exact h

theorem inlineInvoke_labels (p : Pkg) (callerName : String) (invId cnt : Nat) (p2 : Pkg)
    (hwf : PkgWf p) (hok : inlineInvoke p callerName invId cnt = Except.ok p2)
    (caller : Fn) (hfindc : findFn p callerName = some caller)
    (inv : Node) (hfindi : findNode caller.nodes invId = some inv)
    (c : String) (hiop : inv.op = Op.invoke c)
    (invoked : Fn) (hfindg : findFn p c = some invoked)
    (nd : Node) (hnd : nd ∈ invoked.nodes) (target : Op)
    (hcase : (∃ lab, nd.op = Op.cover lab ∧
        target = Op.cover (getPrefixedLabel caller.name cnt invoked.name lab)) ∨
      (∃ msg lab, nd.op = Op.assertNode msg (some lab) ∧
        target = Op.assertNode msg (some (getPrefixedLabel caller.name cnt invoked.name lab))))
    (hnotex : (nd.id = invoked.retId && inv.name.isSome) = false) :
    ∃ f2, findFn p2 callerName = some f2 ∧ ∃ n2 ∈ f2.nodes, n2.op = target := by
  obtain ⟨hnames, hfns⟩ := hwf
  rw [inlineInvoke] at hok
  obtain ⟨caller2, hce, hok⟩ := ibind_ok _ _ _ hok
  obtain rfl : caller = caller2 := by
    have h2 := getOk_ok hce
    rw [hfindc] at h2
    exact Option.some.inj h2
  obtain ⟨inv2, hie, hok⟩ := ibind_ok _ _ _ hok
  obtain rfl : inv = inv2 := by
    have h2 := getOk_ok hie
    rw [hfindi] at h2
    exact Option.some.inj h2
  obtain ⟨c2, hne, hok⟩ := ibind_ok _ _ _ hok
  obtain rfl : c = c2 := by
    have h2 := calleeOf_ok hne
    rw [hiop] at h2
    exact (Op.invoke.inj h2)
  obtain ⟨invoked2, hge, hok⟩ := ibind_ok _ _ _ hok
  obtain rfl : invoked = invoked2 := by
    have h2 := getOk_ok hge
    rw [hfindg] at h2
    exact Option.some.inj h2
  obtain ⟨hcmem, hcname⟩ := findFn_mem hfindc
  obtain ⟨hcnodup, hcbnd, hcparam⟩ := hfns caller hcmem
  obtain ⟨hinvmem, hinvid⟩ := findNode_mem hfindi
  obtain ⟨hgmem, hgname⟩ := findFn_mem hfindg
  obtain ⟨hgnodup, hgbnd, hgparam⟩ := hfns invoked hgmem
  obtain ⟨st1, hfold1, hok⟩ := ibind_ok _ _ _ hok
  have hm0v : ∀ k v, (k, v) ∈ invoked.paramIds.zip inv.operands → v < p.nextId := by
    intro k v hm
    exact (hcbnd inv hinvmem).2 v (List.of_mem_zip hm).2
  have hm0keys : ∀ k v, (k, v) ∈ invoked.paramIds.zip inv.operands → k ∈ invoked.paramIds := by
    intro k v hm
    exact (List.of_mem_zip hm).1
  have hcb : ∀ n ∈ caller.nodes, n.id < p.nextId := fun n hn => (hcbnd n hn).1
  have hstart : CloneInv p caller (invoked.paramIds.zip inv.operands) p.nextId
      ⟨caller, invoked.paramIds.zip inv.operands, p.nextId⟩ := by
    refine ⟨rfl, rfl, rfl, Nat.le_refl _, ⟨[], by simp, by simp⟩, hcb,
      (fun n hn o ho => (hcbnd n hn).2 o ho), hcnodup, ⟨[], by simp⟩, ?_⟩
    intro k v ha
    have hmem := alook_mem ha
    exact ⟨hm0v k v hmem, Or.inr hmem⟩
  have hC1 := (foldlM_inv (cloneStep p inv)
    (CloneInv p caller (invoked.paramIds.zip inv.operands) p.nextId) (fun _ _ => True)
    (fun _ => trivial) (fun _ _ => trivial) (topoSort invoked)
    (fun x hx t t2 hP hs => ⟨cloneStep_inv p inv caller _ _ t t2 x hP hs, trivial⟩)
    _ st1 hstart hfold1).1
  have hR1 : RenameInv p caller (invoked.paramIds.zip inv.operands) p.nextId st1 :=
    renameInv_of_cloneInv hC1 hcb
  obtain ⟨params, hpe, hok⟩ := ibind_ok _ _ _ hok
  obtain ⟨args, hae, hok⟩ := ibind_ok _ _ _ hok
  obtain ⟨st2, hfold2, hok⟩ := ibind_ok _ _ _ hok
  have hparamop : ∀ i ∈ invoked.paramIds, ∀ n ∈ invoked.nodes, n.id = i → n.op = Op.param := by
    intro i hi n hn hid
    obtain ⟨n2, hn2, hid2, hop2⟩ := hgparam i hi
    have he : n2 = n := List.inj_on_of_nodup_map hgnodup hn2 hn (by rw [hid2, hid])
    rw [← he]
    exact hop2
  obtain ⟨l1, l2, hsplit⟩ := List.append_of_mem hnd
  have hstep_all : ∀ x ∈ invoked.nodes, ∀ t t2,
      RenameInv p caller (invoked.paramIds.zip inv.operands) p.nextId t →
      renameStep inv invoked (params.zip args) cnt t x = Except.ok t2 →
      RenameInv p caller (invoked.paramIds.zip inv.operands) p.nextId t2 :=
    fun x hx t t2 hP hs =>
      renameStep_inv p inv invoked (params.zip args) cnt caller _ _ hcb hm0keys
        hparamop x hx t t2 hP hs
  rw [hsplit, List.foldlM_append] at hfold2
  obtain ⟨stA, hfoldA, hfold2⟩ := ibind_ok _ _ _ hfold2
  rw [List.foldlM_cons] at hfold2
  obtain ⟨stB, hstepB, hfoldC⟩ := ibind_ok _ _ _ hfold2
  have hRA : RenameInv p caller (invoked.paramIds.zip inv.operands) p.nextId stA :=
    (foldlM_inv (renameStep inv invoked (params.zip args) cnt)
      (RenameInv p caller (invoked.paramIds.zip inv.operands) p.nextId) (fun _ _ => True)
      (fun _ => trivial) (fun _ _ => trivial) l1
      (fun x hx t t2 hP hs =>
        ⟨hstep_all x (by rw [hsplit]; exact List.mem_append_left _ hx) t t2 hP hs, trivial⟩)
      _ stA hR1 hfoldA).1
  have hRB : RenameInv p caller (invoked.paramIds.zip inv.operands) p.nextId stB :=
    hstep_all nd hnd stA stB hRA hstepB
  have hPB : Protected target nd.id p.nextId stB :=
    renameStep_protect p caller (invoked.paramIds.zip inv.operands) p.nextId inv invoked
      (params.zip args) cnt nd target hcase hnotex stA stB hRA hstepB
  have hl2ne : ∀ x ∈ l2, x.id ≠ nd.id := by
    intro x hx he
    have hnodup2 : ((l1 ++ nd :: l2).map Node.id).Nodup := by
      rw [← hsplit]
      exact hgnodup
    rw [List.map_append, List.nodup_append] at hnodup2
    obtain ⟨_, hnd2, _⟩ := hnodup2
    rw [List.map_cons, List.nodup_cons] at hnd2
    exact hnd2.1 (by rw [← he]; exact List.mem_map_of_mem _ hx)
  have hPC := (foldlM_inv (renameStep inv invoked (params.zip args) cnt)
    (fun t => RenameInv p caller (invoked.paramIds.zip inv.operands) p.nextId t ∧
      Protected target nd.id p.nextId t) (fun _ _ => True)
    (fun _ => trivial) (fun _ _ => trivial) l2
    (fun x hx t t2 hP hs =>
      ⟨⟨hstep_all x (by rw [hsplit]; exact List.mem_append_right _ (List.mem_cons_of_mem _ hx))
          t t2 hP.1 hs,
        protected_mono target nd.id p.nextId p caller _ inv invoked (params.zip args) cnt
          x (hl2ne x hx) t t2 hP.1 hP.2 hs⟩, trivial⟩)
    _ st2 ⟨hRB, hPB⟩ hfoldC).1
  obtain ⟨hR2, cid, hcidl, hcid0, hcidlt, _, n2, hn2, hn2id, hn2op⟩ := hPC
  obtain ⟨retRepl, hre, hok⟩ := ibind_ok _ _ _ hok
  have hfinal :
      ({ fns := (setFn p (removeNode (replaceUsesWith st2.f inv retRepl) invId)).fns,
         nextId := st2.nid } : Pkg) = p2 := Except.ok.inj hok
  obtain rfl := hfinal
  obtain ⟨n3, hn3, hid3, hop3⟩ := replaceUses_mem_fwd st2.f inv retRepl n2 hn2
  have hinvlt : invId < p.nextId := by
    rw [← hinvid]
    exact hcb inv hinvmem
  have hn3mem : n3 ∈ (removeNode (replaceUsesWith st2.f inv retRepl) invId).nodes := by
    rw [removeNode_mem]
    refine ⟨hn3, ?_⟩
    rw [hid3, hn2id]
    omega
  refine ⟨removeNode (replaceUsesWith st2.f inv retRepl) invId, ?_,
    n3, hn3mem, by rw [hop3, hn2op]⟩
  show findFn _ callerName = _
  rw [findFn]
  show ((setFn p _).fns).find? _ = _
  rw [setFn]
  simp only
  have hrn : (removeNode (replaceUsesWith st2.f inv retRepl) invId).name = caller.name :=
    hR2.fname
  rw [hrn, hcname]
  apply findFn_map_replace callerName _ (by rw [hrn, hcname])
  rw [show (p.fns.find? fun f => f.name = callerName) = findFn p callerName from rfl, hfindc]
  rfl

/-- Claim C4, amended: (1) when a call site is inlined, every callee cover
node and every labelled callee assert node — except one that is the
callee's return value at a call site with an assigned name, which the
rename loop skips — yields a node in the caller whose label is
caller_name + "_" + inline_index + "_" + callee_name + "_" + label; and
(2) the inline indices used across all inlined call sites of a run are
exactly 0, 1, 2, ... in processing order. -/
theorem inlinedLabels_contract :
    (∀ (p : Pkg) (callerName : String) (invId cnt : Nat) (p2 : Pkg) (caller : Fn)
        (inv : Node) (c : String) (invoked : Fn) (nd : Node) (target : Op),
      PkgWf p → inlineInvoke p callerName invId cnt = Except.ok p2 →
      findFn p callerName = some caller → findNode caller.nodes invId = some inv →
      inv.op = Op.invoke c → findFn p c = some invoked → nd ∈ invoked.nodes →
      ((∃ lab, nd.op = Op.cover lab ∧
          target = Op.cover (getPrefixedLabel caller.name cnt invoked.name lab)) ∨
        (∃ msg lab, nd.op = Op.assertNode msg (some lab) ∧
          target = Op.assertNode msg (some (getPrefixedLabel caller.name cnt invoked.name lab)))) →
      (nd.id = invoked.retId && inv.name.isSome) = false →
      ∃ f2, findFn p2 callerName = some f2 ∧ ∃ n2 ∈ f2.nodes, n2.op = target) ∧
    (∀ (p : Pkg) (order : List String) (st : RunSt),
      PkgWf p → runInternalT p order = Except.ok st →
      st.trace = List.range st.cnt ∧ ∀ i, (hi : i < st.trace.length) → st.trace[i] = i) := by
  constructor
  · intro p callerName invId cnt p2 caller inv c invoked nd target hwf hok hfindc hfindi
      hiop hfindg hnd hcase hnotex
    exact inlineInvoke_labels p callerName invId cnt p2 hwf hok caller hfindc inv hfindi
      c hiop invoked hfindg nd hnd target hcase hnotex
  · intro p order st hwf hok
    rw [runInternalT] at hok
    obtain ⟨_, htr, _, _, _⟩ := runLoop_spec order ⟨p, 0, false, []⟩ st hwf rfl hok
    refine ⟨htr, ?_⟩
    intro i hi
    rw [List.getElem_of_eq htr]
    exact List.getElem_range _ _

/-- Claim C4 counterexample to "every inlined cover": a cover node that is
the callee's return value at a named call site keeps its original label;
no prefixed label appears. -/
theorem inlinedLabels_counterexample :
    runInternal lxPkg ["g2", "f2"] = Except.ok (lxPkgOut, true) ∧
    (∃ nd ∈ lxGFn.nodes, nd.op = Op.cover "lbl" ∧ nd.id = lxGFn.retId) ∧
    (∃ f2 ∈ lxPkgOut.fns, f2.name = "f2" ∧
      (∃ n ∈ f2.nodes, n.op = Op.cover "lbl") ∧
      ∀ n ∈ f2.nodes, n.op ≠ Op.cover (getPrefixedLabel "f2" 0 "g2" "lbl")) := by
  refine ⟨by decide, by decide, by decide⟩

/-- Claim C4 witness: the label contract applied to the concrete
cover-carrying callee, and the trace contract applied to the concrete
three-function package. -/
theorem inlinedLabels_contract_witness :
    PkgWf lcPkg ∧ inlineInvoke lcPkg "f3" 5 0 = Except.ok lcPkgOut ∧
    findFn lcPkg "f3" = some lcFFn ∧ findNode lcFFn.nodes 5 = some lcInv ∧
    lcInv.op = Op.invoke "g3" ∧ findFn lcPkg "g3" = some lcGFn ∧
    lcCover ∈ lcGFn.nodes ∧
    (lcCover.id = lcGFn.retId && lcInv.name.isSome) = false ∧
    (∃ f2, findFn lcPkgOut "f3" = some f2 ∧ ∃ n2 ∈ f2.nodes,
      n2.op = Op.cover (getPrefixedLabel lcFFn.name 0 lcGFn.name "lbl")) ∧
    runInternalT ipPkg ipOrder = Except.ok ipRunOut ∧
    ipRunOut.trace = List.range ipRunOut.cnt :=
  ⟨by rw [PkgWf]; decide, by decide, by decide, by decide, by decide, by decide, by decide,
    by decide,
    inlinedLabels_contract.1 lcPkg "f3" 5 0 lcPkgOut lcFFn lcInv "g3" lcGFn lcCover
      (Op.cover (getPrefixedLabel lcFFn.name 0 lcGFn.name "lbl"))
      (by rw [PkgWf]; decide) (by decide) (by decide) (by decide) (by decide) (by decide)
      (by decide) (Or.inl ⟨"lbl", by decide, rfl⟩) (by decide),
    by decide,
    (inlinedLabels_contract.2 ipPkg ipOrder ipRunOut (by rw [PkgWf]; decide) (by decide)).1⟩

end XlsIR

namespace XlsFuzzer

theorem splitLinesC_ne_nil (l : List Char) : splitLinesC l ≠ [] := by
  cases l with
  | nil => simp [splitLinesC]
  | cons c rest =>
    rw [splitLinesC]
    by_cases hc : c = '\n'
    · simp [hc]
    · simp only [hc, if_false]
      cases splitLinesC rest <;> simp

theorem splitLinesC_append_nl (a b : List Char) :
    splitLinesC (a ++ '\n' :: b) = splitLinesC a ++ splitLinesC b := by
  induction a with
  | nil => simp [splitLinesC]
  | cons c rest ih =>
    by_cases hc : c = '\n'
    · subst hc
      rw [List.cons_append, splitLinesC, if_pos rfl, splitLinesC, if_pos rfl, ih]
      rfl
    · rw [List.cons_append, splitLinesC, if_neg hc, ih, splitLinesC, if_neg hc]
      cases hsr : splitLinesC rest with
      | nil => exact absurd hsr (splitLinesC_ne_nil rest)
      | cons line more => rfl

theorem splitLinesC_no_nl (l : List Char) (h : '\n' ∉ l) : splitLinesC l = [l] := by
  induction l with
  | nil => rfl
  | cons c rest ih =>
    have hc : c ≠ '\n' := fun he => h (he ▸ List.mem_cons_self _ _)
    rw [splitLinesC, if_neg hc, ih (fun hm => h (List.mem_cons_of_mem _ hm))]

theorem joinLinesC_splitLinesC (l : List Char) : joinLinesC (splitLinesC l) = l := by
  induction l with
  | nil => rfl
  | cons c rest ih =>
    by_cases hc : c = '\n'
    · subst hc
      rw [splitLinesC, if_pos rfl]
      cases hsr : splitLinesC rest with
      | nil => exact absurd hsr (splitLinesC_ne_nil rest)
      | cons line more =>
        rw [hsr] at ih
        have hj : joinLinesC ([] :: line :: more) = [] ++ '\n' :: joinLinesC (line :: more) := rfl
        rw [hj, ih]
        rfl
    · rw [splitLinesC, if_neg hc]
      cases hsr : splitLinesC rest with
      | nil => exact absurd hsr (splitLinesC_ne_nil rest)
      | cons line more =>
        rw [hsr] at ih
        cases more with
        | nil =>
          have ih2 : line = rest := ih
          show c :: line = c :: rest
          rw [ih2]
        | cons m ms =>
          have hj : joinLinesC ((c :: line) :: m :: ms) =
              (c :: line) ++ '\n' :: joinLinesC (m :: ms) := rfl
          have ih2 : line ++ '\n' :: joinLinesC (m :: ms) = rest := ih
          rw [hj, List.cons_append, ih2]

theorem splitLinesC_joinLinesC (ls : List (List Char))
    (h : ∀ l ∈ ls, '\n' ∉ l) (hne : ls ≠ []) :
    splitLinesC (joinLinesC ls) = ls := by
  induction ls with
  | nil => exact absurd rfl hne
  | cons l rest ih =>
    cases rest with
    | nil =>
      rw [joinLinesC]
      exact splitLinesC_no_nl l (h l (List.mem_cons_self _ _))
    | cons x xs =>
      have hj : joinLinesC (l :: x :: xs) = l ++ '\n' :: joinLinesC (x :: xs) := rfl
      rw [hj, splitLinesC_append_nl,
        splitLinesC_no_nl l (h l (List.mem_cons_self _ _)),
        ih (fun m hm => h m (List.mem_cons_of_mem _ hm)) (by simp)]
      rfl

/-- Claim C8 counterexample: serializing a concrete sample yields the line
"// END_CONFIG" immediately followed by the first source line; no blank
line separates them. -/
theorem serializeSample_counterexample :
    splitLinesC (serializeSample encTriv fnSample none) =
      [("// BEGIN_CONFIG").toList, ("// cfg").toList, ("// END_CONFIG").toList,
        ("fn x").toList, []] ∧
    (splitLinesC (serializeSample encTriv fnSample none)).get? 2 =
      some (("// END_CONFIG").toList) ∧
    (splitLinesC (serializeSample encTriv fnSample none)).get? 3 ≠ some [] := by
  refine ⟨by decide, by decide, by decide⟩

/-- Claim C8 amended: Sample::Serialize produces, in order, the line
BEGIN_CONFIG as a comment, each config line prefixed with the comment
prefix, the line END_CONFIG as a comment, and then the raw source text
starting on the very next line (no blank separator line), with a trailing
newline appended (hence a final empty line). -/
theorem serializeSample_lines (encf : CrasherConfig → List (List Char))
    (s : Sample) (em : Option (List Char))
    (henc : ∀ l ∈ encf (mkCrasherConfig s em), '\n' ∉ l) :
    splitLinesC (serializeSample encf s em) =
      (commentPrefix ++ kStartConfig) ::
        ((encf (mkCrasherConfig s em)).map (fun l => commentPrefix ++ l) ++
          [commentPrefix ++ kEndConfig]) ++ splitLinesC s.inputText ++ [[]] := by
  have h0 : serializeSample encf s em =
      joinLinesC ((commentPrefix ++ kStartConfig) ::
        ((encf (mkCrasherConfig s em)).map (fun l => commentPrefix ++ l) ++
          [commentPrefix ++ kEndConfig])) ++ '\n' :: (s.inputText ++ '\n' :: []) := rfl
  rw [h0, splitLinesC_append_nl, splitLinesC_append_nl]
  have h2 : splitLinesC ([] : List Char) = [[]] := rfl
  rw [h2]
  rw [splitLinesC_joinLinesC]
  · simp [List.append_assoc]
  · intro l hl
    rcases List.mem_cons.mp hl with rfl | hl2
    · decide
    · rcases List.mem_append.mp hl2 with hl3 | hl3
      · obtain ⟨e, he, rfl⟩ := List.mem_map.mp hl3
        intro hmem
        rcases List.mem_append.mp hmem with h4 | h4
        · revert h4; decide
        · exact henc e he h4
      · rw [List.mem_singleton.mp hl3]
        decide
  · simp

/-- Witness for the amended claim C8 at the concrete fixture. -/
theorem serializeSample_lines_witness :
    splitLinesC (serializeSample encTriv fnSample none) =
      (commentPrefix ++ kStartConfig) ::
        ((encTriv (mkCrasherConfig fnSample none)).map (fun l => commentPrefix ++ l) ++
          [commentPrefix ++ kEndConfig]) ++ splitLinesC fnSample.inputText ++ [[]] :=
  serializeSample_lines encTriv fnSample none (by decide)

theorem stripRightC_append (a b : List Char) :
    stripRightC (a ++ b) = if stripRightC b = [] then stripRightC a else a ++ stripRightC b := by
  rw [stripRightC, List.reverse_append, List.dropWhile_append]
  by_cases h : (b.reverse.dropWhile isSpaceChar).isEmpty = true
  · rw [if_pos h]
    have h2 : stripRightC b = [] := by
      rw [stripRightC]
      rw [List.isEmpty_iff] at h
      rw [h]
      rfl
    rw [if_pos h2]
    rfl
  · rw [if_neg h]
    have h2 : stripRightC b ≠ [] := by
      rw [stripRightC]
      intro hc
      have := congrArg List.reverse hc
      rw [List.reverse_reverse] at this
      exact h (by rw [List.isEmpty_iff]; exact this)
    rw [if_neg h2, List.reverse_append, List.reverse_reverse, stripRightC]

theorem stripRightC_idem (l : List Char) : stripRightC (stripRightC l) = stripRightC l := by
  rw [stripRightC, stripRightC, List.reverse_reverse, List.dropWhile_idempotent]

theorem stripC_nil : stripC [] = [] := rfl

/-- The stripped form of a serialized comment line: the two slashes followed
by a space and the right-stripped payload (or just the slashes when the
payload is all whitespace). -/
theorem stripC_comment (l : List Char) :
    stripC (commentPrefix ++ l) =
      if stripRightC l = [] then ['/', '/'] else '/' :: '/' :: ' ' :: stripRightC l := by
  have e : commentPrefix ++ l = ['/', '/', ' '] ++ l := rfl
  by_cases h : stripRightC l = []
  · rw [if_pos h, stripC, e, stripRightC_append, if_pos h]
    decide
  · rw [if_neg h, stripC, e, stripRightC_append, if_neg h]
    have h2 : (['/', '/', ' '] ++ stripRightC l) = '/' :: '/' :: ' ' :: stripRightC l := rfl
    rw [h2, stripLeftC, List.dropWhile_cons, if_neg (by decide)]

/-- The contents a serialized comment line contributes: the stripped
payload. -/
theorem contents_comment (l : List Char) :
    stripC ((stripC (commentPrefix ++ l)).drop 2) = stripC l := by
  rw [stripC_comment]
  by_cases h : stripRightC l = []
  · rw [if_pos h]
    have hl : stripC l = [] := by
      rw [stripC, h]
      rfl
    rw [hl]
    decide
  · rw [if_neg h]
    have h2 : (('/' :: '/' :: ' ' :: stripRightC l).drop 2) = [' '] ++ stripRightC l := rfl
    rw [h2, stripC, stripRightC_append, stripRightC_idem, if_neg h]
    have h3 : ([' '] ++ stripRightC l) = ' ' :: stripRightC l := rfl
    rw [h3, stripLeftC, List.dropWhile_cons, if_pos (by decide)]
    rfl

/-- A serialized comment line is never blank and always starts with the two
slashes once stripped. -/
theorem stripC_comment_shape (l : List Char) :
    stripC (commentPrefix ++ l) ≠ [] ∧
      (['/', '/'] : List Char).isPrefixOf (stripC (commentPrefix ++ l)) = true := by
  rw [stripC_comment]
  by_cases h : stripRightC l = []
  · rw [if_pos h]
    exact ⟨by simp, by decide⟩
  · rw [if_neg h]
    exact ⟨by simp, by simp [List.isPrefixOf]⟩

/-- The scan step on a serialized comment line: the markers toggle the
region, any other payload is collected (stripped) when inside the config
region. -/
theorem deserStep_comment (st : DeserState) (l : List Char) :
    deserStep st (commentPrefix ++ l) =
      (if stripC l = kStartConfig then { st with inConfig := true }
       else if stripC l = kEndConfig then { st with inConfig := false }
       else if st.inConfig then { st with configLines := st.configLines ++ [stripC l] }
       else st) := by
  obtain ⟨hne, hpre⟩ := stripC_comment_shape l
  rw [deserStep]
  simp only [if_neg hne, hpre, if_true, contents_comment]

/-- The scan step on a blank line: skipped. -/
theorem deserStep_blank (st : DeserState) (l : List Char) (h : stripC l = []) :
    deserStep st l = st := by
  rw [deserStep]
  simp [h]

/-- The scan step on a kept source line. -/
theorem deserStep_keep (st : DeserState) (l : List Char) (h : keepDslxLine l = true) :
    deserStep st l = { st with dslxLines := st.dslxLines ++ [l] } := by
  rw [keepDslxLine, Bool.and_eq_true] at h
  rw [deserStep]
  have h1 : stripC l ≠ [] := by
    intro hc
    rw [hc] at h
    simp at h
  have h2 : (['/', '/'] : List Char).isPrefixOf (stripC l) = false := by
    have := h.2
    simp only [Bool.not_eq_true'] at this
    exact this
  simp only [if_neg h1, h2]
  rfl

/-- The scan step never shrinks, and only kept source lines extend, the DSLX
line list. -/
theorem deserStep_dslxLines (st : DeserState) (l : List Char) :
    (deserStep st l).dslxLines =
      if keepDslxLine l then st.dslxLines ++ [l] else st.dslxLines := by
  by_cases hk : keepDslxLine l = true
  · rw [deserStep_keep st l hk, if_pos hk]
  · rw [if_neg hk]
    rw [keepDslxLine, Bool.and_eq_true] at hk
    by_cases h1 : stripC l = []
    · rw [deserStep_blank st l h1]
    · by_cases h2 : (['/', '/'] : List Char).isPrefixOf (stripC l) = true
      · rw [deserStep]
        simp only [if_neg h1, h2, if_true]
        by_cases hb1 : stripC ((stripC l).drop 2) = kStartConfig
        · rw [if_pos hb1]
        · rw [if_neg hb1]
          by_cases hb2 : stripC ((stripC l).drop 2) = kEndConfig
          · rw [if_pos hb2]
          · rw [if_neg hb2]
            by_cases hb3 : st.inConfig = true
            · rw [if_pos hb3]
            · rw [if_neg hb3]
      · exfalso
        apply hk
        refine ⟨?_, ?_⟩
        · simp [List.isEmpty_iff, h1]
        · have h2f : (['/', '/'] : List Char).isPrefixOf (stripC l) = false :=
            Bool.eq_false_iff.mpr h2
          simp [h2f]

theorem foldl_dslxLines :
    ∀ (lines : List (List Char)) (st : DeserState),
      (lines.foldl deserStep st).dslxLines = st.dslxLines ++ lines.filter keepDslxLine := by
  intro lines
  induction lines with
  | nil => intro st; simp
  | cons l rest ih =>
    intro st
    rw [List.foldl_cons, ih, List.filter_cons]
    by_cases h : keepDslxLine l = true
    · rw [if_pos h, deserStep_dslxLines, if_pos h]
      simp
    · rw [if_neg h, deserStep_dslxLines, if_neg h]

theorem foldl_configBlock :
    ∀ (encLines : List (List Char)) (st : DeserState),
      st.inConfig = true →
      (∀ l ∈ encLines, stripC l ≠ kStartConfig ∧ stripC l ≠ kEndConfig) →
      (encLines.map (fun l => commentPrefix ++ l)).foldl deserStep st =
        { st with configLines := st.configLines ++ encLines.map stripC } := by
  intro encLines
  induction encLines with
  | nil =>
    intro st _ _
    simp
  | cons e rest ih =>
    intro st hin hmark
    rw [List.map_cons, List.foldl_cons, deserStep_comment,
      if_neg (hmark e (List.mem_cons_self _ _)).1,
      if_neg (hmark e (List.mem_cons_self _ _)).2, if_pos (by rw [hin])]
    have hrec := ih ⟨st.inConfig, st.configLines ++ [stripC e], st.dslxLines⟩ hin
      (fun l hl => hmark l (List.mem_cons_of_mem _ hl))
    rw [hrec]
    simp

theorem foldl_keepLines :
    ∀ (lines : List (List Char)) (st : DeserState),
      (∀ l ∈ lines, keepDslxLine l = true) →
      lines.foldl deserStep st = { st with dslxLines := st.dslxLines ++ lines } := by
  intro lines
  induction lines with
  | nil =>
    intro st _
    simp
  | cons l rest ih =>
    intro st hall
    rw [List.foldl_cons, deserStep_keep st l (hall l (List.mem_cons_self _ _)),
      ih _ (fun m hm => hall m (List.mem_cons_of_mem _ hm))]
    simp

theorem scanLines_serialized (encf : CrasherConfig → List (List Char))
    (s : Sample) (em : Option (List Char))
    (hnl : ∀ l ∈ encf (mkCrasherConfig s em), '\n' ∉ l)
    (hmark : ∀ l ∈ encf (mkCrasherConfig s em),
      stripC l ≠ kStartConfig ∧ stripC l ≠ kEndConfig)
    (hsrc : ∀ l ∈ splitLinesC s.inputText, keepDslxLine l = true) :
    scanLines (serializeSample encf s em) =
      { inConfig := false, configLines := (encf (mkCrasherConfig s em)).map stripC,
        dslxLines := splitLinesC s.inputText } := by
  have hstep0 : deserStep ⟨false, [], []⟩ (commentPrefix ++ kStartConfig) =
      ⟨true, [], []⟩ := by decide
  have hB : ((encf (mkCrasherConfig s em)).map (fun l => commentPrefix ++ l)).foldl
      deserStep ⟨true, [], []⟩ =
      ⟨true, (encf (mkCrasherConfig s em)).map stripC, []⟩ := by
    rw [foldl_configBlock _ _ rfl hmark]
    simp
  have hC : deserStep ⟨true, (encf (mkCrasherConfig s em)).map stripC, []⟩
      (commentPrefix ++ kEndConfig) =
      ⟨false, (encf (mkCrasherConfig s em)).map stripC, []⟩ := by
    rw [deserStep_comment, if_neg (by decide), if_pos (by decide)]
  have hD : (splitLinesC s.inputText).foldl deserStep
      ⟨false, (encf (mkCrasherConfig s em)).map stripC, []⟩ =
      ⟨false, (encf (mkCrasherConfig s em)).map stripC, splitLinesC s.inputText⟩ := by
    rw [foldl_keepLines _ _ hsrc]
    simp
  rw [scanLines, serializeSample_lines encf s em hnl]
  simp only [List.foldl_append, List.foldl_cons, List.foldl_nil]
  rw [hstep0, hB, hC, hD,
    deserStep_blank ⟨false, (encf (mkCrasherConfig s em)).map stripC,
      splitLinesC s.inputText⟩ [] rfl]

theorem deserialize_inputText
    (pc : List (List Char) → Except (List Char) CrasherConfig)
    (pa : List Char → Except (List Char) (List IRValue))
    (pv : List Char → Except (List Char) IRValue)
    (s : List Char) (r : Sample)
    (h : deserializeSample pc pa pv s = Except.ok r) :
    r.inputText = joinLinesC ((splitLinesC s).filter keepDslxLine) := by
  have hdslx : (scanLines s).dslxLines = (splitLinesC s).filter keepDslxLine := by
    rw [scanLines, foldl_dslxLines]
    simp
  simp only [deserializeSample] at h
  split at h
  · cases h
  · split at h
    · cases h
    · split at h
      · split at h
        · cases h
        · injection h with h2
          rw [← h2, ← hdslx]
      · split at h
        · split at h
          · cases h
          · injection h with h2
            rw [← h2, ← hdslx]
        · cases h

theorem keep_comment (l : List Char) : keepDslxLine (commentPrefix ++ l) = false := by
  obtain ⟨hne2, hpre⟩ := stripC_comment_shape l
  rw [keepDslxLine, hpre]
  simp

theorem joinLinesC_length (ls : List (List Char)) (h : ls ≠ []) :
    (joinLinesC ls).length = (ls.map List.length).sum + ls.length - 1 := by
  induction ls with
  | nil => exact absurd rfl h
  | cons l rest ih =>
    cases rest with
    | nil => simp [joinLinesC]
    | cons x xs =>
      have hj : joinLinesC (l :: x :: xs) = l ++ '\n' :: joinLinesC (x :: xs) := rfl
      have ih2 := ih (by simp)
      rw [hj]
      simp only [List.length_append, List.length_cons, List.map_cons, List.sum_cons] at ih2 ⊢
      omega

theorem deserialize_not_identity
    (encf : CrasherConfig → List (List Char))
    (pc : List (List Char) → Except (List Char) CrasherConfig)
    (pa : List Char → Except (List Char) (List IRValue))
    (pv : List Char → Except (List Char) IRValue)
    (smp : Sample) (em : Option (List Char)) (r : Sample)
    (hnl : ∀ l ∈ encf (mkCrasherConfig smp em), '\n' ∉ l)
    (hne : smp.inputText ≠ [])
    (hbad : ∃ l ∈ splitLinesC smp.inputText, keepDslxLine l = false)
    (h : deserializeSample pc pa pv (serializeSample encf smp em) = Except.ok r) :
    r.inputText ≠ smp.inputText := by
  have h1 := deserialize_inputText pc pa pv _ r h
  have h2 : (splitLinesC (serializeSample encf smp em)).filter keepDslxLine =
      (splitLinesC smp.inputText).filter keepDslxLine := by
    rw [serializeSample_lines encf smp em hnl]
    simp only [List.filter_append, List.filter_cons]
    rw [show keepDslxLine (commentPrefix ++ kStartConfig) = false from keep_comment _]
    rw [show keepDslxLine (commentPrefix ++ kEndConfig) = false from keep_comment _]
    have hM : ((encf (mkCrasherConfig smp em)).map (fun l => commentPrefix ++ l)).filter
        keepDslxLine = [] := by
      rw [List.filter_eq_nil_iff]
      intro x hx
      obtain ⟨e, _, rfl⟩ := List.mem_map.mp hx
      rw [keep_comment]
      simp
    have hE : keepDslxLine ([] : List Char) = false := by decide
    simp [hM, hE]
  rw [h2] at h1
  intro hEq
  rw [h1] at hEq
  set S := splitLinesC smp.inputText with hS
  set F := S.filter keepDslxLine with hF
  have hsInput : smp.inputText = joinLinesC S := (joinLinesC_splitLinesC _).symm
  obtain ⟨lbad, hlmem, hlkeep⟩ := hbad
  by_cases hFnil : F = []
  · rw [hFnil] at hEq
    exact hne (by rw [← hEq]; rfl)
  · have hSne : S ≠ [] := splitLinesC_ne_nil _
    have hlen : F.length < S.length := by
      rw [hF]
      exact List.length_filter_lt_length_iff_exists.mpr ⟨lbad, hlmem, by simp [hlkeep]⟩
    have hsub : F.Sublist S := by rw [hF]; exact List.filter_sublist _
    have hsum : (F.map List.length).sum ≤ (S.map List.length).sum :=
      List.Sublist.sum_le_sum (List.Sublist.map _ hsub) (fun a _ => Nat.zero_le a)
    have hJF := joinLinesC_length F hFnil
    have hJS := joinLinesC_length S hSne
    have hFpos : 0 < F.length := List.length_pos.mpr hFnil
    have hlenEq : (joinLinesC F).length = (joinLinesC S).length := by
      rw [hEq, hsInput]
    omega

/-- Claim C9: for every input text, Deserialize reconstructs the source from
exactly the lines that are neither blank nor comment lines (those are
dropped); consequently a Sample whose nonempty source text contains a
comment or blank line does not round-trip to a byte-identical source
text. -/
theorem deserialize_excludes_lines :
    (∀ (pc : List (List Char) → Except (List Char) CrasherConfig)
        (pa : List Char → Except (List Char) (List IRValue))
        (pv : List Char → Except (List Char) IRValue) (s : List Char) (r : Sample),
      deserializeSample pc pa pv s = Except.ok r →
      r.inputText = joinLinesC ((splitLinesC s).filter keepDslxLine)) ∧
    (∀ (encf : CrasherConfig → List (List Char))
        (pc : List (List Char) → Except (List Char) CrasherConfig)
        (pa : List Char → Except (List Char) (List IRValue))
        (pv : List Char → Except (List Char) IRValue)
        (smp : Sample) (em : Option (List Char)) (r : Sample),
      (∀ l ∈ encf (mkCrasherConfig smp em), '\n' ∉ l) →
      smp.inputText ≠ [] →
      (∃ l ∈ splitLinesC smp.inputText, keepDslxLine l = false) →
      deserializeSample pc pa pv (serializeSample encf smp em) = Except.ok r →
      r.inputText ≠ smp.inputText) :=
  ⟨deserialize_inputText, deserialize_not_identity⟩

/-- Witness for claim C9 at the comment-carrying fixture. -/
theorem deserialize_excludes_lines_witness :
    cRound.inputText =
      joinLinesC ((splitLinesC (serializeSample encTriv cSample none)).filter keepDslxLine) ∧
    cRound.inputText ≠ cSample.inputText := by
  constructor
  · exact deserialize_excludes_lines.1 (decTriv (mkCrasherConfig cSample none))
      parseArgsTriv parseValTriv _ cRound (by decide)
  · exact deserialize_excludes_lines.2 encTriv (decTriv (mkCrasherConfig cSample none))
      parseArgsTriv parseValTriv cSample none cRound (by decide) (by decide)
      (by decide) (by decide)

/-- Claim C7 counterexample: round-tripping a sample whose source contains a
comment line succeeds but drops the comment line, so the result differs from
the original sample even after whitespace normalization at blank-line
boundaries. -/
theorem sample_roundtrip_counterexample :
    deserializeSample (decTriv (mkCrasherConfig cSample none)) parseArgsTriv parseValTriv
      (serializeSample encTriv cSample none) = Except.ok cRound ∧
    sampleEqModBlank cRound cSample = false ∧
    cRound ≠ cSample := by
  refine ⟨by decide, by decide, by decide⟩

theorem getD_append_length {α : Type} (a : List α) (x : α) (b : List α) (d : α) :
    (a ++ x :: b).getD a.length d = x := by
  induction a with
  | nil => rfl
  | cons c rest ih => simpa using ih

theorem set_append_length {α : Type} (a : List α) (x : α) (b : List α) (y : α) :
    (a ++ x :: b).set a.length y = a ++ y :: b := by
  induction a with
  | nil => rfl
  | cons c rest ih => simpa using ih

theorem appendAtRow_mid (done : List (List IRValue)) (x : List IRValue)
    (pend : List (List IRValue)) (v : IRValue) :
    appendAtRow (done ++ x :: pend) done.length v = done ++ (x ++ [v]) :: pend := by
  rw [appendAtRow]
  have hlen : ¬ (done ++ x :: pend).length ≤ done.length := by
    simp only [List.length_append, List.length_cons]
    omega
  rw [if_neg hlen, getD_append_length, set_append_length]

theorem appendAtRow_end (done : List (List IRValue)) (v : IRValue) :
    appendAtRow done done.length v = done ++ [[v]] := by
  rw [appendAtRow]
  have hlen : done.length ≤ done.length := le_refl _
  rw [if_pos hlen]
  have h1 : done.length + 1 - done.length = 1 := by omega
  rw [h1]
  have h2 : List.replicate 1 ([] : List IRValue) = [[]] := rfl
  rw [h2]
  have h3 := getD_append_length done ([] : List IRValue) [] []
  have h4 := set_append_length done ([] : List IRValue) [] ([] ++ [v])
  rw [h3, h4]
  rfl

theorem enumFrom_fold_fresh :
    ∀ (vals : List IRValue) (done : List (List IRValue)),
      (List.enumFrom done.length vals).foldl (fun b pr => appendAtRow b pr.1 pr.2) done =
        done ++ vals.map (fun v => [v]) := by
  intro vals
  induction vals with
  | nil => intro done; simp
  | cons v vs ih =>
    intro done
    rw [List.enumFrom, List.foldl_cons, appendAtRow_end]
    have := ih (done ++ [[v]])
    rw [List.length_append] at this
    simp only [List.length_cons, List.length_nil] at this
    rw [this]
    simp

theorem enumFrom_fold_rows :
    ∀ (vals : List IRValue) (pend done : List (List IRValue)),
      vals.length = pend.length →
      (List.enumFrom done.length vals).foldl (fun b pr => appendAtRow b pr.1 pr.2)
        (done ++ pend) =
        done ++ List.zipWith (fun r v => r ++ [v]) pend vals := by
  intro vals
  induction vals with
  | nil =>
    intro pend done hlen
    have : pend = [] := List.eq_nil_of_length_eq_zero hlen.symm
    subst this
    simp
  | cons v vs ih =>
    intro pend done hlen
    cases pend with
    | nil => simp at hlen
    | cons p ps =>
      rw [List.enumFrom, List.foldl_cons, appendAtRow_mid]
      have heq : done ++ (p ++ [v]) :: ps = (done ++ [p ++ [v]]) ++ ps := by simp
      rw [heq]
      have := ih ps (done ++ [p ++ [v]]) (by simpa using hlen)
      rw [List.length_append] at this
      simp only [List.length_cons, List.length_nil] at this
      rw [this]
      simp

theorem take_one_of_pos (r : List IRValue) (h : 0 < r.length) :
    r.take 1 = [r.getD 0 []] := by
  cases r with
  | nil => simp at h
  | cons a t => rfl

theorem take_succ_getD (r : List IRValue) (k : Nat) (h : k < r.length) :
    r.take (k + 1) = r.take k ++ [r.getD k []] := by
  rw [List.take_succ]
  congr 1
  rw [List.getElem?_eq_getElem h]
  rw [List.getD_eq_getElem r [] h]
  rfl

theorem addChannel_fresh (batch : List (List IRValue))
    (hrows : ∀ row ∈ batch, 0 < row.length) :
    addChannelValues [] (batch.map (fun r => r.getD 0 [])) =
      batch.map (fun r => r.take 1) := by
  rw [addChannelValues]
  have h0 : (batch.map (fun r => r.getD 0 [])).enum =
      List.enumFrom ([] : List (List IRValue)).length (batch.map (fun r => r.getD 0 [])) := rfl
  rw [h0, enumFrom_fold_fresh]
  rw [List.nil_append, List.map_map]
  apply List.map_congr_left
  intro r hr
  rw [Function.comp_apply, ← take_one_of_pos r (hrows r hr)]

theorem addChannel_step (batch : List (List IRValue)) (k : Nat)
    (hrows : ∀ row ∈ batch, k < row.length) :
    addChannelValues (batch.map (fun r => r.take k)) (batch.map (fun r => r.getD k [])) =
      batch.map (fun r => r.take (k + 1)) := by
  rw [addChannelValues]
  have h0 : (batch.map (fun r => r.getD k [])).enum =
      List.enumFrom ([] : List (List IRValue)).length (batch.map (fun r => r.getD k [])) := rfl
  rw [h0]
  have h1 := enumFrom_fold_rows (batch.map (fun r => r.getD k []))
    (batch.map (fun r => r.take k)) [] (by simp)
  rw [List.nil_append] at h1
  rw [h1, List.nil_append]
  rw [List.zipWith_map, List.zipWith_same]
  apply List.map_congr_left
  intro r hr
  exact (take_succ_getD r k (hrows r hr)).symm

theorem mapM_id_ok (f : IRValue → Except DeserErr IRValue) :
    ∀ (l : List IRValue), (∀ x ∈ l, f x = Except.ok x) → l.mapM f = Except.ok l := by
  intro l
  induction l with
  | nil => intro _; rfl
  | cons x xs ih =>
    intro h
    rw [List.mapM_cons, h x (List.mem_cons_self _ _), ih (fun y hy => h y (List.mem_cons_of_mem _ hy))]
    rfl

theorem mapM_over_map {α : Type} (g : α → List Char)
    (f : List Char → Except DeserErr α) :
    ∀ (l : List α), (∀ x ∈ l, f (g x) = Except.ok x) →
      (l.map g).mapM f = Except.ok l := by
  intro l
  induction l with
  | nil => intro _; rfl
  | cons x xs ih =>
    intro h
    rw [List.map_cons, List.mapM_cons, h x (List.mem_cons_self _ _),
      ih (fun y hy => h y (List.mem_cons_of_mem _ hy))]
    rfl

theorem chanFold (pv : List Char → Except (List Char) IRValue)
    (hpv : ∀ v, pv v = Except.ok v) (batch : List (List IRValue)) :
    ∀ (names : List (List Char)) (j : Nat) (accN : List (List Char)),
      (∀ row ∈ batch, j + names.length ≤ row.length) →
      List.foldlM (fun (acc : List (List Char) × List (List IRValue)) ch => do
          let vals ← (ch.2.mapM (fun vs => (pv vs).mapError DeserErr.valueParse))
          pure (acc.1 ++ [ch.1], addChannelValues acc.2 vals))
        (accN, batch.map (fun r => r.take j))
        ((List.enumFrom j names).map (fun pr =>
          (pr.2, batch.map (fun args => toArgString (args.getD pr.1 []))))) =
      Except.ok (accN ++ names, batch.map (fun r => r.take (j + names.length))) := by
  have okbind : ∀ {β γ : Type} (a : β) (g : β → Except DeserErr γ),
      (Except.ok a >>= g : Except DeserErr γ) = g a := fun a g => rfl
  have purebind : ∀ {β γ : Type} (a : β) (g : β → Except DeserErr γ),
      ((pure a : Except DeserErr β) >>= g) = g a := fun a g => rfl
  intro names
  induction names with
  | nil =>
    intro j accN _
    simp only [List.enumFrom, List.map_nil, List.foldlM_nil, List.append_nil,
      List.length_nil, Nat.add_zero]
    rfl
  | cons n ns ih =>
    intro j accN hrows
    rw [List.enumFrom, List.map_cons, List.foldlM_cons]
    have hvals : (batch.map (fun args => toArgString (args.getD j []))).mapM
        (fun vs => (pv vs).mapError DeserErr.valueParse) =
        Except.ok (batch.map (fun args => args.getD j [])) := by
      have he : (batch.map (fun args => toArgString (args.getD j []))) =
          (batch.map (fun args => args.getD j [])) := rfl
      rw [he]
      apply mapM_id_ok
      intro x _
      rw [hpv x]
      rfl
    have hadd : addChannelValues (batch.map (fun r => r.take j))
        (batch.map (fun args => args.getD j [])) =
        batch.map (fun r => r.take (j + 1)) := by
      apply addChannel_step
      intro row hrow
      have := hrows row hrow
      simp only [List.length_cons] at this
      omega
    simp only [hvals, okbind, purebind, hadd]
    have hrest := ih (j + 1) (accN ++ [n]) (by
      intro row hrow
      have := hrows row hrow
      simp only [List.length_cons] at this ⊢
      omega)
    rw [hrest, List.append_assoc]
    simp only [List.length_cons]
    have harith : j + 1 + ns.length = j + (ns.length + 1) := by omega
    rw [harith]
    rfl

/-- Claim C7 amended: for every sample whose source lines are all nonblank
non-comment lines, whose argument rows are well-formed (one value per
channel for proc samples, channels nonempty when there are rows), and whose
external codecs round-trip, Deserialize of Serialize succeeds and returns a
sample equal to the original (equal source text, field-wise equal options,
element-wise equal argument batches). -/
theorem sample_roundtrip_amended
    (encf : CrasherConfig → List (List Char))
    (pc : List (List Char) → Except (List Char) CrasherConfig)
    (pa : List Char → Except (List Char) (List IRValue))
    (pv : List Char → Except (List Char) IRValue)
    (s : Sample) (em : Option (List Char))
    (hnl : ∀ l ∈ encf (mkCrasherConfig s em), '\n' ∉ l)
    (hneenc : encf (mkCrasherConfig s em) ≠ [])
    (hmark : ∀ l ∈ encf (mkCrasherConfig s em),
      stripC l ≠ kStartConfig ∧ stripC l ≠ kEndConfig)
    (hpc : pc ((encf (mkCrasherConfig s em)).map stripC) =
      Except.ok (mkCrasherConfig s em))
    (hsrc : ∀ l ∈ splitLinesC s.inputText, keepDslxLine l = true)
    (hpa : ∀ row ∈ s.argsBatch, pa (interpValueListToString row) = Except.ok row)
    (hpv : ∀ v, pv v = Except.ok v)
    (hrows : s.options.sampleType = SampleType.proc →
      ∀ row ∈ s.argsBatch, row.length = s.irChannelNames.length)
    (hchan : s.options.sampleType = SampleType.proc →
      s.argsBatch ≠ [] → s.irChannelNames ≠ []) :
    ∃ r, deserializeSample pc pa pv (serializeSample encf s em) = Except.ok r ∧
      sampleEq r s = true := by
  have hscan := scanLines_serialized encf s em hnl hmark hsrc
  have hdsl : joinLinesC (splitLinesC s.inputText) = s.inputText :=
    joinLinesC_splitLinesC _
  have hcfgne : ¬ ((encf (mkCrasherConfig s em)).map stripC = []) :=
    fun h => hneenc (List.map_eq_nil.mp h)
  simp only [deserializeSample, hscan, if_neg hcfgne, hpc]
  cases hst : s.options.sampleType with
  | function =>
    have hstne : ¬ ((mkCrasherConfig s em).sampleOptions.sampleType = SampleType.proc) := by
      simp only [mkCrasherConfig]
      rw [hst]
      intro hc
      cases hc
    simp only [if_neg hstne]
    have hif : isFunctionSample s.options = true := by
      rw [isFunctionSample, hst]
      rfl
    have hinputs : (mkCrasherConfig s em).inputs =
        some (CrasherInputs.functionArgs (s.argsBatch.map interpValueListToString)) := by
      simp only [mkCrasherConfig, hif, if_true]
    simp only [hinputs]
    have hbatch := mapM_over_map interpValueListToString
      (fun a => (pa a).mapError DeserErr.valueParse) s.argsBatch
      (fun row hr => by
        show Except.mapError DeserErr.valueParse (pa (interpValueListToString row)) =
          Except.ok row
        rw [hpa row hr]
        rfl)
    simp only [hbatch]
    refine ⟨⟨s.inputText, s.options, s.argsBatch, []⟩, ?_, ?_⟩
    · simp only [mkCrasherConfig, hdsl]
    · rw [sampleEq]
      simp
  | proc =>
    have hstp : (mkCrasherConfig s em).sampleOptions.sampleType = SampleType.proc := by
      simp only [mkCrasherConfig]
      rw [hst]
    simp only [if_pos hstp]
    have hif : isFunctionSample s.options = false := by
      rw [isFunctionSample, hst]
      rfl
    have hinputs : (mkCrasherConfig s em).inputs =
        some (CrasherInputs.channelInputs
          (s.irChannelNames.enum.map (fun pr =>
            (pr.2, s.argsBatch.map (fun args => toArgString (args.getD pr.1 [])))))) := by
      simp only [mkCrasherConfig, hif, Bool.false_eq_true, if_false]
    simp only [hinputs]
    cases hnames : s.irChannelNames with
    | nil =>
      have hbe : s.argsBatch = [] := by
        by_cases hb : s.argsBatch = []
        · exact hb
        · exact absurd hnames (hchan hst hb)
      simp only [List.enum_nil, List.map_nil, List.foldlM_nil]
      refine ⟨⟨s.inputText, s.options, [], []⟩, ?_, ?_⟩
      · simp only [mkCrasherConfig, hdsl]
        rfl
      · rw [sampleEq]
        simp [hbe]
    | cons n0 ns =>
      have hrows2 : ∀ row ∈ s.argsBatch, row.length = ns.length + 1 := by
        intro row hr
        have := hrows hst row hr
        rw [hnames] at this
        simpa using this
      have henum : (n0 :: ns).enum = (0, n0) :: List.enumFrom 1 ns := rfl
      rw [henum, List.map_cons, List.foldlM_cons]
      have hvals0 : (s.argsBatch.map (fun args => toArgString (args.getD 0 []))).mapM
          (fun vs => (pv vs).mapError DeserErr.valueParse) =
          Except.ok (s.argsBatch.map (fun args => args.getD 0 [])) := by
        have he : (s.argsBatch.map (fun args => toArgString (args.getD 0 []))) =
            (s.argsBatch.map (fun args => args.getD 0 [])) := rfl
        rw [he]
        apply mapM_id_ok
        intro x _
        rw [hpv x]
        rfl
      have hadd0 : addChannelValues [] (s.argsBatch.map (fun args => args.getD 0 [])) =
          s.argsBatch.map (fun r => r.take 1) := by
        apply addChannel_fresh
        intro row hr
        have := hrows2 row hr
        omega
      have okbind : ∀ {β γ : Type} (a : β) (g : β → Except DeserErr γ),
          (Except.ok a >>= g : Except DeserErr γ) = g a := fun a g => rfl
      have purebind : ∀ {β γ : Type} (a : β) (g : β → Except DeserErr γ),
          ((pure a : Except DeserErr β) >>= g) = g a := fun a g => rfl
      simp only [hvals0, okbind, purebind, hadd0]
      have hfold := chanFold pv hpv s.argsBatch ns 1 [n0] (by
        intro row hr
        have := hrows2 row hr
        omega)
      simp only [List.nil_append]
      rw [hfold]
      have htake : s.argsBatch.map (fun r => r.take (1 + ns.length)) = s.argsBatch := by
        have hmapid : s.argsBatch.map (fun r => r.take (1 + ns.length)) =
            s.argsBatch.map id := by
          apply List.map_congr_left
          intro row hr
          have hlen := hrows2 row hr
          show row.take (1 + ns.length) = row
          rw [show 1 + ns.length = row.length from by omega]
          exact List.take_length row
        rw [hmapid, List.map_id]
      rw [htake]
      refine ⟨⟨s.inputText, s.options, s.argsBatch, n0 :: ns⟩, ?_, ?_⟩
      · simp only [mkCrasherConfig, hdsl]
        rfl
      · rw [sampleEq]
        simp

/-- Witness for the amended claim C7 at the concrete proc fixture. -/
theorem sample_roundtrip_amended_witness :
    ∃ r, deserializeSample (decTriv (mkCrasherConfig procSample none)) parseArgsTriv
        parseValTriv (serializeSample encTriv procSample none) = Except.ok r ∧
      sampleEq r procSample = true :=
  sample_roundtrip_amended encTriv (decTriv (mkCrasherConfig procSample none))
    parseArgsTriv parseValTriv procSample none (by decide) (by decide) (by decide)
    (by decide) (by decide) (by decide) (fun v => rfl) (by decide) (by decide)

end XlsFuzzer

namespace XlsDslx

theorem exceptBindError {a b : Type} (x : Except StatusErr a) (f : a → Except StatusErr b)
    (e : StatusErr) (h : (x >>= f) = Except.error e) :
    x = Except.error e ∨ ∃ v, x = Except.ok v ∧ f v = Except.error e := by
  cases x with
  | error e2 =>
    left
    have hb : ((Except.error e2 : Except StatusErr a) >>= f) =
        (Except.error e2 : Except StatusErr b) := rfl
    rw [hb] at h
    rw [Except.error.inj h]
  | ok v =>
    right
    refine ⟨v, rfl, ?_⟩
    have hb : ((Except.ok v : Except StatusErr a) >>= f) = f v := rfl
    rw [hb] at h
    exact h

theorem noteAggregateStart_error (k : AggKind) (st : CBState) (e : StatusErr)
    (h : noteAggregateStart k st = Except.error e) : e = fnErr := by
  cases k <;> simp [noteAggregateStart, fnErr] at h <;> try exact h.symm
  all_goals simp_all

theorem noteAggregateEnd_error (k : AggKind) (st : CBState) (e : StatusErr)
    (h : noteAggregateEnd k st = Except.error e) : e = fnErr := by
  cases k <;> simp [noteAggregateEnd, fnErr] at h <;> try exact h.symm
  all_goals simp_all

mutual
theorem zipWalk_error_msg : ∀ (lhs rhs : Ty) (parent : Option PCtx) (st : CBState)
    (e : StatusErr), zipWalk lhs rhs parent st = Except.error e → e = fnErr
  | Ty.bits w1, Ty.bits w2, parent, st, e, h => by
    by_cases hw : w1 = w2 <;> simp [zipWalk, hw] at h
  | Ty.tuple as, Ty.tuple bs, parent, st, e, h => by
    rw [zipWalk] at h
    split at h
    · rcases exceptBindError _ _ _ h with h1 | ⟨v, hv, h2⟩
      · exact noteAggregateStart_error _ _ _ h1
      rcases exceptBindError _ _ _ h2 with h3 | ⟨w, hw, h4⟩
      · exact zipWalkTuple_error_msg as bs 0 _ v e h3
      · exact noteAggregateEnd_error _ _ _ h4
    · exact absurd h (by simp)
  | Ty.structT n1 f1 t1, Ty.structT n2 f2 t2, parent, st, e, h => by
    rw [zipWalk] at h
    split at h
    · rcases exceptBindError _ _ _ h with h1 | ⟨v, hv, h2⟩
      · exact noteAggregateStart_error _ _ _ h1
      rcases exceptBindError _ _ _ h2 with h3 | ⟨w, hw, h4⟩
      · exact zipWalkStruct_error_msg f1 t1 t2 0 _ v e h3
      · exact noteAggregateEnd_error _ _ _ h4
    · exact absurd h (by simp)
  | Ty.array e1 s1, Ty.array e2 s2, parent, st, e, h => by
    rw [zipWalk] at h
    rcases exceptBindError _ _ _ h with h1 | ⟨v, hv, h2⟩
    · exact noteAggregateStart_error _ _ _ h1
    rcases exceptBindError _ _ _ h2 with h3 | ⟨w, hw, h4⟩
    · exact zipWalk_error_msg e1 e2 (some PCtx.otherP) v e h3
    · exact noteAggregateEnd_error _ _ _ h4
  | Ty.chan a, Ty.chan b, parent, st, e, h => by
    rw [zipWalk] at h
    rcases exceptBindError _ _ _ h with h1 | ⟨v, hv, h2⟩
    · exact noteAggregateStart_error _ _ _ h1
    rcases exceptBindError _ _ _ h2 with h3 | ⟨w, hw, h4⟩
    · exact zipWalk_error_msg a b (some PCtx.otherP) v e h3
    · exact noteAggregateEnd_error _ _ _ h4
  | Ty.fnT p1 r1, Ty.fnT p2 r2, parent, st, e, h => by
    rw [zipWalk] at h
    exact noteAggregateStart_error _ _ _ h
  | Ty.meta a, Ty.meta b, parent, st, e, h => by
    rw [zipWalk] at h
    rcases exceptBindError _ _ _ h with h1 | ⟨v, hv, h2⟩
    · exact noteAggregateStart_error _ _ _ h1
    rcases exceptBindError _ _ _ h2 with h3 | ⟨w, hw, h4⟩
    · exact zipWalk_error_msg a b (some PCtx.otherP) v e h3
    · exact noteAggregateEnd_error _ _ _ h4
  | Ty.bits w1, Ty.tuple bs, parent, st, e, h => by simp [zipWalk] at h
  | Ty.bits w1, Ty.structT n2 f2 t2, parent, st, e, h => by simp [zipWalk] at h
  | Ty.bits w1, Ty.array e2 s2, parent, st, e, h => by simp [zipWalk] at h
  | Ty.bits w1, Ty.chan b, parent, st, e, h => by simp [zipWalk] at h
  | Ty.bits w1, Ty.fnT p2 r2, parent, st, e, h => by simp [zipWalk] at h
  | Ty.bits w1, Ty.meta b, parent, st, e, h => by simp [zipWalk] at h
  | Ty.tuple as, Ty.bits w2, parent, st, e, h => by simp [zipWalk] at h
  | Ty.tuple as, Ty.structT n2 f2 t2, parent, st, e, h => by simp [zipWalk] at h
  | Ty.tuple as, Ty.array e2 s2, parent, st, e, h => by simp [zipWalk] at h
  | Ty.tuple as, Ty.chan b, parent, st, e, h => by simp [zipWalk] at h
  | Ty.tuple as, Ty.fnT p2 r2, parent, st, e, h => by simp [zipWalk] at h
  | Ty.tuple as, Ty.meta b, parent, st, e, h => by simp [zipWalk] at h
  | Ty.structT n1 f1 t1, Ty.bits w2, parent, st, e, h => by simp [zipWalk] at h
  | Ty.structT n1 f1 t1, Ty.tuple bs, parent, st, e, h => by simp [zipWalk] at h
  | Ty.structT n1 f1 t1, Ty.array e2 s2, parent, st, e, h => by simp [zipWalk] at h
  | Ty.structT n1 f1 t1, Ty.chan b, parent, st, e, h => by simp [zipWalk] at h
  | Ty.structT n1 f1 t1, Ty.fnT p2 r2, parent, st, e, h => by simp [zipWalk] at h
  | Ty.structT n1 f1 t1, Ty.meta b, parent, st, e, h => by simp [zipWalk] at h
  | Ty.array e1 s1, Ty.bits w2, parent, st, e, h => by simp [zipWalk] at h
  | Ty.array e1 s1, Ty.tuple bs, parent, st, e, h => by simp [zipWalk] at h
  | Ty.array e1 s1, Ty.structT n2 f2 t2, parent, st, e, h => by simp [zipWalk] at h
  | Ty.array e1 s1, Ty.chan b, parent, st, e, h => by simp [zipWalk] at h
  | Ty.array e1 s1, Ty.fnT p2 r2, parent, st, e, h => by simp [zipWalk] at h
  | Ty.array e1 s1, Ty.meta b, parent, st, e, h => by simp [zipWalk] at h
  | Ty.chan a, Ty.bits w2, parent, st, e, h => by simp [zipWalk] at h
  | Ty.chan a, Ty.tuple bs, parent, st, e, h => by simp [zipWalk] at h
  | Ty.chan a, Ty.structT n2 f2 t2, parent, st, e, h => by simp [zipWalk] at h
  | Ty.chan a, Ty.array e2 s2, parent, st, e, h => by simp [zipWalk] at h
  | Ty.chan a, Ty.fnT p2 r2, parent, st, e, h => by simp [zipWalk] at h
  | Ty.chan a, Ty.meta b, parent, st, e, h => by simp [zipWalk] at h
  | Ty.fnT p1 r1, Ty.bits w2, parent, st, e, h => by simp [zipWalk] at h
  | Ty.fnT p1 r1, Ty.tuple bs, parent, st, e, h => by simp [zipWalk] at h
  | Ty.fnT p1 r1, Ty.structT n2 f2 t2, parent, st, e, h => by simp [zipWalk] at h
  | Ty.fnT p1 r1, Ty.array e2 s2, parent, st, e, h => by simp [zipWalk] at h
  | Ty.fnT p1 r1, Ty.chan b, parent, st, e, h => by simp [zipWalk] at h
  | Ty.fnT p1 r1, Ty.meta b, parent, st, e, h => by simp [zipWalk] at h
  | Ty.meta a, Ty.bits w2, parent, st, e, h => by simp [zipWalk] at h
  | Ty.meta a, Ty.tuple bs, parent, st, e, h => by simp [zipWalk] at h
  | Ty.meta a, Ty.structT n2 f2 t2, parent, st, e, h => by simp [zipWalk] at h
  | Ty.meta a, Ty.array e2 s2, parent, st, e, h => by simp [zipWalk] at h
  | Ty.meta a, Ty.chan b, parent, st, e, h => by simp [zipWalk] at h
  | Ty.meta a, Ty.fnT p2 r2, parent, st, e, h => by simp [zipWalk] at h
theorem zipWalkTuple_error_msg : ∀ (as bs : TyList) (i size : Nat) (st : CBState)
    (e : StatusErr), zipWalkTuple as bs i size st = Except.error e → e = fnErr
  | TyList.cons a as2, TyList.cons b bs2, i, size, st, e, h => by
    rw [zipWalkTuple] at h
    rcases exceptBindError _ _ _ h with h1 | ⟨v, hv, h2⟩
    · exact zipWalk_error_msg a b _ st e h1
    · exact zipWalkTuple_error_msg as2 bs2 (i + 1) size v e h2
  | TyList.nil, TyList.nil, i, size, st, e, h => by simp [zipWalkTuple] at h
  | TyList.nil, TyList.cons b bs2, i, size, st, e, h => by simp [zipWalkTuple] at h
  | TyList.cons a as2, TyList.nil, i, size, st, e, h => by simp [zipWalkTuple] at h
theorem zipWalkStruct_error_msg : ∀ (fns : List String) (as bs : TyList) (i size : Nat)
    (st : CBState) (e : StatusErr), zipWalkStruct fns as bs i size st = Except.error e → e = fnErr
  | fns, TyList.cons a as2, TyList.cons b bs2, i, size, st, e, h => by
    rw [zipWalkStruct] at h
    rcases exceptBindError _ _ _ h with h1 | ⟨v, hv, h2⟩
    · exact zipWalk_error_msg a b _ st e h1
    · exact zipWalkStruct_error_msg fns as2 bs2 (i + 1) size v e h2
  | fns, TyList.nil, TyList.nil, i, size, st, e, h => by simp [zipWalkStruct] at h
  | fns, TyList.nil, TyList.cons b bs2, i, size, st, e, h => by simp [zipWalkStruct] at h
  | fns, TyList.cons a as2, TyList.nil, i, size, st, e, h => by simp [zipWalkStruct] at h
end

theorem okBindD {a b : Type} (v : a) (f : a → Except StatusErr b) :
    (Except.ok v >>= f) = f v := rfl

theorem errBindD {a b : Type} (f : a → Except StatusErr b) :
    ((Except.error fnErr : Except StatusErr a) >>= f) = Except.error fnErr := rfl

mutual
theorem zipWalk_reaches_error : ∀ (lhs rhs : Ty), reachesFnPair lhs rhs = true →
    ∀ (parent : Option PCtx) (st : CBState),
      zipWalk lhs rhs parent st = Except.error fnErr
  | Ty.fnT p1 r1, Ty.fnT p2 r2, _, parent, st => by
    rw [zipWalk]
    rfl
  | Ty.bits w1, Ty.bits w2, h, parent, st => by
    simp [reachesFnPair] at h
  | Ty.tuple ts1, Ty.tuple ts2, h, parent, st => by
    rw [reachesFnPair] at h
    simp only [Bool.and_eq_true, decide_eq_true_eq] at h
    obtain ⟨hl, hlist⟩ := h
    rw [zipWalk, if_pos hl]
    rw [show noteAggregateStart AggKind.tupleK st =
        Except.ok (addMatchedBoth "(" st) from rfl]
    simp only [okBindD]
    rw [zipWalkTuple_reaches_error ts1 ts2 hlist 0 (tyListLength ts1) (addMatchedBoth "(" st)]
    exact errBindD _
  | Ty.structT n1 f1 t1, Ty.structT n2 f2 t2, h, parent, st => by
    rw [reachesFnPair] at h
    simp only [Bool.and_eq_true, decide_eq_true_eq] at h
    obtain ⟨⟨hn, hl⟩, hlist⟩ := h
    rw [zipWalk, if_pos (by simp [hn, hl])]
    rw [show noteAggregateStart (AggKind.structK n1) st =
        Except.ok (addMatchedBoth (n1 ++ "\x7b") st) from rfl]
    simp only [okBindD]
    rw [zipWalkStruct_reaches_error f1 t1 t2 hlist 0 (tyListLength t1)
      (addMatchedBoth (n1 ++ "\x7b") st)]
    exact errBindD _
  | Ty.array e1 s1, Ty.array e2 s2, h, parent, st => by
    rw [reachesFnPair] at h
    rw [zipWalk]
    rw [show noteAggregateStart (AggKind.arrayK s1 s2) st = Except.ok st from rfl]
    simp only [okBindD]
    rw [zipWalk_reaches_error e1 e2 h (some PCtx.otherP) st]
    exact errBindD _
  | Ty.chan c1, Ty.chan c2, h, parent, st => by
    rw [reachesFnPair] at h
    rw [zipWalk]
    rw [show noteAggregateStart AggKind.chanK st =
        Except.ok (addMatchedBoth "chan(" st) from rfl]
    simp only [okBindD]
    rw [zipWalk_reaches_error c1 c2 h (some PCtx.otherP) (addMatchedBoth "chan(" st)]
    exact errBindD _
  | Ty.meta m1, Ty.meta m2, h, parent, st => by
    rw [reachesFnPair] at h
    rw [zipWalk]
    rw [show noteAggregateStart AggKind.metaK st =
        Except.ok (addMatchedBoth "typeof(" st) from rfl]
    simp only [okBindD]
    rw [zipWalk_reaches_error m1 m2 h (some PCtx.otherP) (addMatchedBoth "typeof(" st)]
    exact errBindD _
  | Ty.bits w1, Ty.tuple ts2, h, parent, st => by simp [reachesFnPair] at h
  | Ty.bits w1, Ty.structT n2 f2 t2, h, parent, st => by simp [reachesFnPair] at h
  | Ty.bits w1, Ty.array e2 s2, h, parent, st => by simp [reachesFnPair] at h
  | Ty.bits w1, Ty.chan c2, h, parent, st => by simp [reachesFnPair] at h
  | Ty.bits w1, Ty.fnT p2 r2, h, parent, st => by simp [reachesFnPair] at h
  | Ty.bits w1, Ty.meta m2, h, parent, st => by simp [reachesFnPair] at h
  | Ty.tuple ts1, Ty.bits w2, h, parent, st => by simp [reachesFnPair] at h
  | Ty.tuple ts1, Ty.structT n2 f2 t2, h, parent, st => by simp [reachesFnPair] at h
  | Ty.tuple ts1, Ty.array e2 s2, h, parent, st => by simp [reachesFnPair] at h
  | Ty.tuple ts1, Ty.chan c2, h, parent, st => by simp [reachesFnPair] at h
  | Ty.tuple ts1, Ty.fnT p2 r2, h, parent, st => by simp [reachesFnPair] at h
  | Ty.tuple ts1, Ty.meta m2, h, parent, st => by simp [reachesFnPair] at h
  | Ty.structT n1 f1 t1, Ty.bits w2, h, parent, st => by simp [reachesFnPair] at h
  | Ty.structT n1 f1 t1, Ty.tuple ts2, h, parent, st => by simp [reachesFnPair] at h
  | Ty.structT n1 f1 t1, Ty.array e2 s2, h, parent, st => by simp [reachesFnPair] at h
  | Ty.structT n1 f1 t1, Ty.chan c2, h, parent, st => by simp [reachesFnPair] at h
  | Ty.structT n1 f1 t1, Ty.fnT p2 r2, h, parent, st => by simp [reachesFnPair] at h
  | Ty.structT n1 f1 t1, Ty.meta m2, h, parent, st => by simp [reachesFnPair] at h
  | Ty.array e1 s1, Ty.bits w2, h, parent, st => by simp [reachesFnPair] at h
  | Ty.array e1 s1, Ty.tuple ts2, h, parent, st => by simp [reachesFnPair] at h
  | Ty.array e1 s1, Ty.structT n2 f2 t2, h, parent, st => by simp [reachesFnPair] at h
  | Ty.array e1 s1, Ty.chan c2, h, parent, st => by simp [reachesFnPair] at h
  | Ty.array e1 s1, Ty.fnT p2 r2, h, parent, st => by simp [reachesFnPair] at h
  | Ty.array e1 s1, Ty.meta m2, h, parent, st => by simp [reachesFnPair] at h
  | Ty.chan c1, Ty.bits w2, h, parent, st => by simp [reachesFnPair] at h
  | Ty.chan c1, Ty.tuple ts2, h, parent, st => by simp [reachesFnPair] at h
  | Ty.chan c1, Ty.structT n2 f2 t2, h, parent, st => by simp [reachesFnPair] at h
  | Ty.chan c1, Ty.array e2 s2, h, parent, st => by simp [reachesFnPair] at h
  | Ty.chan c1, Ty.fnT p2 r2, h, parent, st => by simp [reachesFnPair] at h
  | Ty.chan c1, Ty.meta m2, h, parent, st => by simp [reachesFnPair] at h
  | Ty.fnT p1 r1, Ty.bits w2, h, parent, st => by simp [reachesFnPair] at h
  | Ty.fnT p1 r1, Ty.tuple ts2, h, parent, st => by simp [reachesFnPair] at h
  | Ty.fnT p1 r1, Ty.structT n2 f2 t2, h, parent, st => by simp [reachesFnPair] at h
  | Ty.fnT p1 r1, Ty.array e2 s2, h, parent, st => by simp [reachesFnPair] at h
  | Ty.fnT p1 r1, Ty.chan c2, h, parent, st => by simp [reachesFnPair] at h
  | Ty.fnT p1 r1, Ty.meta m2, h, parent, st => by simp [reachesFnPair] at h
  | Ty.meta m1, Ty.bits w2, h, parent, st => by simp [reachesFnPair] at h
  | Ty.meta m1, Ty.tuple ts2, h, parent, st => by simp [reachesFnPair] at h
  | Ty.meta m1, Ty.structT n2 f2 t2, h, parent, st => by simp [reachesFnPair] at h
  | Ty.meta m1, Ty.array e2 s2, h, parent, st => by simp [reachesFnPair] at h
  | Ty.meta m1, Ty.chan c2, h, parent, st => by simp [reachesFnPair] at h
  | Ty.meta m1, Ty.fnT p2 r2, h, parent, st => by simp [reachesFnPair] at h
theorem zipWalkTuple_reaches_error : ∀ (as bs : TyList), reachesFnList as bs = true →
    ∀ (i size : Nat) (st : CBState), zipWalkTuple as bs i size st = Except.error fnErr
  | TyList.cons a as2, TyList.cons b bs2, h, i, size, st => by
    rw [reachesFnList] at h
    rw [zipWalkTuple]
    rcases Bool.or_eq_true_iff.mp h with hab | htail
    · rw [zipWalk_reaches_error a b hab (some (PCtx.tupleP i size)) st]
      exact errBindD _
    · cases hw : zipWalk a b (some (PCtx.tupleP i size)) st with
      | error e =>
        rw [zipWalk_error_msg a b (some (PCtx.tupleP i size)) st e hw]
        exact errBindD _
      | ok v =>
        simp only [okBindD]
        exact zipWalkTuple_reaches_error as2 bs2 htail (i + 1) size v
  | TyList.nil, TyList.nil, h, i, size, st => by simp [reachesFnList] at h
  | TyList.nil, TyList.cons b bs2, h, i, size, st => by simp [reachesFnList] at h
  | TyList.cons a as2, TyList.nil, h, i, size, st => by simp [reachesFnList] at h
theorem zipWalkStruct_reaches_error : ∀ (fns : List String) (as bs : TyList),
    reachesFnList as bs = true →
    ∀ (i size : Nat) (st : CBState), zipWalkStruct fns as bs i size st = Except.error fnErr
  | fns, TyList.cons a as2, TyList.cons b bs2, h, i, size, st => by
    rw [reachesFnList] at h
    rw [zipWalkStruct]
    rcases Bool.or_eq_true_iff.mp h with hab | htail
    · rw [zipWalk_reaches_error a b hab (some (PCtx.structP (fns.getD i "") i size)) st]
      exact errBindD _
    · cases hw : zipWalk a b (some (PCtx.structP (fns.getD i "") i size)) st with
      | error e =>
        rw [zipWalk_error_msg a b (some (PCtx.structP (fns.getD i "") i size)) st e hw]
        exact errBindD _
      | ok v =>
        simp only [okBindD]
        exact zipWalkStruct_reaches_error fns as2 bs2 htail (i + 1) size v
  | fns, TyList.nil, TyList.nil, h, i, size, st => by simp [reachesFnList] at h
  | fns, TyList.nil, TyList.cons b bs2, h, i, size, st => by simp [reachesFnList] at h
  | fns, TyList.cons a as2, TyList.nil, h, i, size, st => by simp [reachesFnList] at h
end

/-- C10: if the lock-step walk of the two types reaches a pair of function
types, FormatTypeMismatch returns an Unimplemented error whose message
begins with "Cannot print diffs of function types" (and hence no formatted
string). -/
theorem formatTypeMismatch_fn_types (lhs rhs : Ty)
    (h : reachesFnPair lhs rhs = true) :
    ∃ msg, formatTypeMismatch lhs rhs = Except.error (StatusErr.unimplemented msg) ∧
      XlsIR.strPrefixOf "Cannot print diffs of function types" msg = true := by
  have hz := zipWalk_reaches_error lhs rhs h none ⟨"", "", [], 0⟩
  refine ⟨"Cannot print diffs of function types.", ?_, by decide⟩
  rw [formatTypeMismatch, hz]
  rfl

/-- C10 witness: the theorem applied at the concrete function-type fixture. -/
theorem formatTypeMismatch_fn_types_witness :
    reachesFnPair tyFnFixture tyFnFixture = true ∧
    ∃ msg, formatTypeMismatch tyFnFixture tyFnFixture =
        Except.error (StatusErr.unimplemented msg) ∧
      XlsIR.strPrefixOf "Cannot print diffs of function types" msg = true :=
  ⟨by decide, formatTypeMismatch_fn_types tyFnFixture tyFnFixture (by decide)⟩

end XlsDslx
